import Mathlib

/-! neoasm: the assembler pass of `generator/generator.go`.

A shallow embedding of the single-pass assembler: the two-character cursor
(`New`, `byte`), the productions of the scan loop of `Generate`, the opcode
table `getIns`, and the terminal label-resolution step.

Modelling conventions.

* A byte is a `Nat`; where the Go code truncates to 8 or 32 bits the model
  reduces modulo `256` or `2 ^ 32` explicitly.
* The `io.Reader` is an in-memory byte sequence (`rest`, the bytes not yet
  read), as for the `os.File` that `main.go` hands to `New`: a read yields the
  next byte, and `io.EOF` once the sequence is exhausted (a failed read leaves
  the destination byte untouched).  Read errors other than `io.EOF` are not
  modelled.
* A Go string is its byte sequence (`List Nat`); `str` turns a literal into
  that sequence.
* A Go map is an association list in insertion order with unique keys
  (`mapGet`, `mapSet`).  `range` over a map walks it in an unspecified order;
  `resolveLabels` takes the order as an argument and `resolve` uses the
  insertion order.
* A Go slice is its contents `buf` together with its capacity `cap` and a
  counter `alloc` that identifies the backing array: `append` keeps the
  backing array while the capacity suffices and otherwise moves the contents
  to a fresh array whose capacity is chosen by the allocation policy
  `grow oldCap newLen`.  The policy is a parameter of the model; `goGrow` is
  the policy of the gc runtime.  A pointer into the slice (`ins` in the `#`
  production) reaches the live buffer only while `alloc` is unchanged.
* The file name carried by error values is constant during a pass and is left
  out of `Err`; warnings written to standard error are not modelled.
-/

namespace Neoasm

/-! ## Constants -/

def addressOffset : Nat := 8000000

def inR : Nat := 0b10000000
def inS2 : Nat := 0b00100000
def inS3 : Nat := 0b01000000
def inS4 : Nat := 0b01100000

def inLit : Nat := 0
def inDei : Nat := 1
def inDeo : Nat := 2
def inHlt : Nat := 3
def inBrp : Nat := 4
def inDup : Nat := 5
def inSwp : Nat := 6
def inRot : Nat := 7
def inPop : Nat := 8
def inSth : Nat := 9
def inGpc : Nat := 10
def inMemr : Nat := 11
def inMemw : Nat := 12
def inMemc : Nat := 13
def inJmp : Nat := 14
def inTjmp : Nat := 15
def inFjmp : Nat := 16
def inEq : Nat := 17
def inNe : Nat := 18
def inLt : Nat := 19
def inGt : Nat := 20
def inAdd : Nat := 21
def inSub : Nat := 22
def inMul : Nat := 23
def inDiv : Nat := 24
def inAnd : Nat := 25
def inOr : Nat := 26
def inXor : Nat := 27
def inNot : Nat := 28

/-- The byte sequence of a string literal. -/
def str (s : String) : List Nat := s.toList.map Char.toNat

/-- Result of `getIns`: the opcode ordinal, the two capability flags and `ok`. -/
structure Ins where
  ins : Nat
  usesR : Bool
  usesS : Bool
  ok : Bool
deriving DecidableEq, Repr

/-- The opcode table (`getIns`): a `switch` over the mnemonic. -/
def getIns (name : List Nat) : Ins :=
  if name = str "LIT" then ⟨inLit, true, true, true⟩
  else if name = str "DEI" then ⟨inDei, true, true, true⟩
  else if name = str "DEO" then ⟨inDeo, true, true, true⟩
  else if name = str "HLT" then ⟨inHlt, true, true, true⟩
  else if name = str "BRP" then ⟨inBrp, false, false, true⟩
  else if name = str "DUP" then ⟨inDup, true, true, true⟩
  else if name = str "SWP" then ⟨inSwp, true, true, true⟩
  else if name = str "ROT" then ⟨inRot, true, true, true⟩
  else if name = str "POP" then ⟨inPop, true, true, true⟩
  else if name = str "STH" then ⟨inSth, true, true, true⟩
  else if name = str "GPC" then ⟨inGpc, true, false, true⟩
  else if name = str "MEMR" then ⟨inMemr, true, true, true⟩
  else if name = str "MEMW" then ⟨inMemw, true, true, true⟩
  else if name = str "MEMC" then ⟨inMemc, true, true, true⟩
  else if name = str "JMP" then ⟨inJmp, true, false, true⟩
  else if name = str "TJMP" then ⟨inTjmp, true, true, true⟩
  else if name = str "FJMP" then ⟨inFjmp, true, true, true⟩
  else if name = str "EQ" then ⟨inEq, true, true, true⟩
  else if name = str "NE" then ⟨inNe, true, true, true⟩
  else if name = str "LT" then ⟨inLt, true, true, true⟩
  else if name = str "GT" then ⟨inGt, true, true, true⟩
  else if name = str "ADD" then ⟨inAdd, true, true, true⟩
  else if name = str "SUB" then ⟨inSub, true, true, true⟩
  else if name = str "MUL" then ⟨inMul, true, true, true⟩
  else if name = str "DIV" then ⟨inDiv, true, true, true⟩
  else if name = str "AND" then ⟨inAnd, true, true, true⟩
  else if name = str "OR" then ⟨inOr, true, true, true⟩
  else if name = str "XOR" then ⟨inXor, true, true, true⟩
  else if name = str "NOT" then ⟨inNot, true, true, true⟩
  else ⟨0, true, true, false⟩

def isSymbol (ch : Nat) : Bool :=
  decide (ch > 32) && decide (ch < 127) && (decide (ch < 48) || decide (ch > 57))
    && decide (ch ≠ 59) && decide (ch ≠ 64) && decide (ch ≠ 37) && decide (ch ≠ 33)
    && decide (ch ≠ 40) && decide (ch ≠ 41)

def isHex (ch : Nat) : Bool :=
  (decide (ch ≥ 48) && decide (ch ≤ 57)) || (decide (ch ≥ 97) && decide (ch ≤ 102))

/-- Go's `unicode.IsSpace` on a byte value (the Latin-1 range): tab, line feed,
vertical tab, form feed, carriage return, space, NEL (0x85) and NBSP (0xA0). -/
def isSpace (ch : Nat) : Bool :=
  decide (ch = 9) || decide (ch = 10) || decide (ch = 11) || decide (ch = 12)
    || decide (ch = 13) || decide (ch = 32) || decide (ch = 0x85) || decide (ch = 0xA0)

/-- The closure `fromHex` of `collectHex`. -/
def fromHex (hc : Nat) : Nat :=
  if 48 ≤ hc ∧ hc ≤ 57 then hc - 48
  else if 97 ≤ hc ∧ hc ≤ 102 then hc - 97 + 10
  else hc

/-! ## Errors -/

/-- The message of an error value, one constructor per format string. -/
inductive Msg where
  | unterminatedComment
  | emptyLabelLiteral
  | emptyLabelDefinition
  | redefineLabel (sym : List Nat)
  | emptyString
  | invalidNumber
  | unknownSymbol (name : List Nat)
  | incompatibleReturn (name : List Nat)
  | incompatibleSize (name : List Nat)
  | unexpectedChar (ch : Nat)
deriving DecidableEq, Repr

/-- An error built by `Errfp`: line, column and message. -/
structure Err where
  ln : Nat
  col : Nat
  msg : Msg
deriving DecidableEq, Repr

/-! ## Maps -/

def mapGet {β : Type} (m : List (List Nat × β)) (k : List Nat) : Option β :=
  match m with
  | [] => none
  | (k1, v) :: t => if k1 = k then some v else mapGet t k

def mapSet {β : Type} (m : List (List Nat × β)) (k : List Nat) (v : β) :
    List (List Nat × β) :=
  match m with
  | [] => [(k, v)]
  | (k1, v1) :: t => if k1 = k then (k, v) :: t else (k1, v1) :: mapSet t k v

/-! ## Allocation policy of `append` -/

/-- Capacity chosen by `append` when a slice of capacity `oldCap` must grow to
hold `newLen` elements. -/
abbrev Grow := Nat → Nat → Nat

/-- Size classes of the gc allocator, in bytes. -/
def sizeClasses : List Nat :=
  [8, 16, 24, 32, 48, 64, 80, 96, 112, 128, 144, 160, 176, 192, 208, 224, 240, 256,
   288, 320, 352, 384, 416, 448, 480, 512, 576, 640, 704, 768, 896, 1024, 1152, 1280,
   1408, 1536, 1792, 2048, 2304, 2688, 3072, 3200, 3456, 4096, 4864, 5120, 5376, 6144,
   6528, 6784, 6912, 8192, 9472, 9728, 10240, 10880, 12288, 13568, 14336, 16384, 18432,
   19072, 20480, 21760, 24576, 27264, 28672, 32768]

/-- The allocator rounds a request up to a size class, or to whole pages of
8192 bytes above the largest class. -/
def roundupsize (n : Nat) : Nat :=
  match sizeClasses.find? (fun c => decide (n ≤ c)) with
  | some c => c
  | none => (n + 8191) / 8192 * 8192

/-- The loop of `nextslicecap` for capacities of 256 and more: grow by
`(newcap + 768) / 4` until `newLen` fits. -/
def growLoop (newLen : Nat) : Nat → Nat → Nat
  | 0, newcap => newcap
  | fuel + 1, newcap =>
    let c := newcap + (newcap + 768) / 4
    if newLen ≤ c then c else growLoop newLen fuel c

def nextslicecap (newLen oldCap : Nat) : Nat :=
  if 2 * oldCap < newLen then newLen
  else if oldCap < 256 then 2 * oldCap
  else growLoop newLen newLen oldCap

/-- The policy of the gc runtime (`growslice`) for a slice of bytes. -/
def goGrow : Grow := fun oldCap newLen => roundupsize (nextslicecap newLen oldCap)

/-! ## The generator state -/

structure Generator where
  rest : List Nat
  err : Option Err
  labels : List (List Nat × Nat)
  resols : List (List Nat × List Nat)
  buf : List Nat
  cap : Nat
  alloc : Nat
  ln : Nat
  col : Nat
  cur : Nat
  next : Nat
  eof : Bool
deriving DecidableEq, Repr

namespace Generator

def end_ (g : Generator) : Bool := g.err.isSome || g.eof

/-- The method `byte`: `cur` takes the lookahead, the column advances (a line
feed in `cur` starts a new line at column 1), and one byte is read into `next`;
at the end of the input `next` is left as it is and `eof` is raised.  The read
overwrites `g.err` (with nil, here). -/
def byte (g : Generator) : Generator :=
  { g with
    cur := g.next
    ln := if g.next = 10 then g.ln + 1 else g.ln
    col := if g.next = 10 then 1 else g.col + 1
    next := g.rest.headD g.next
    rest := g.rest.tail
    err := none
    eof := g.eof || g.rest.isEmpty }

/-- The statement `g.buf = append(g.buf, bs...)`. -/
def push (grow : Grow) (g : Generator) (bs : List Nat) : Generator :=
  let n := g.buf.length + bs.length
  { g with
    buf := g.buf ++ bs
    cap := if n ≤ g.cap then g.cap else grow g.cap n
    alloc := if n ≤ g.cap then g.alloc else g.alloc + 1 }

/-- In-place update of `g.buf[i]`. -/
def modifyAt (g : Generator) (i : Nat) (f : Nat → Nat) : Generator :=
  { g with buf := g.buf.modify f i }

def setErr (g : Generator) (e : Err) : Generator := { g with err := some e }

def setLabels (g : Generator) (m : List (List Nat × Nat)) : Generator := { g with labels := m }

def setResols (g : Generator) (m : List (List Nat × List Nat)) : Generator :=
  { g with resols := m }

end Generator

open Generator

/-- The function `New`: an empty pass over `src`, primed by two calls of `byte`. -/
def New (src : List Nat) : Generator :=
  let g : Generator :=
    { rest := src, err := none, labels := [], resols := [], buf := [], cap := 0,
      alloc := 0, ln := 1, col := 0, cur := 0, next := 0, eof := false }
  { g.byte.byte with col := 1 }

/-! ## The productions -/

/-- The loop `for !g.end() && g.cur != ')' { g.byte() }`. -/
def commentLoop : Nat → Generator → Generator
  | 0, g => g
  | n + 1, g => if !g.end_ && g.cur != 41 then commentLoop n g.byte else g

/-- The loop `for !g.end() && isSymbol(g.cur) { sb.WriteByte(g.cur); g.byte() }`. -/
def symLoop : Nat → List Nat → Generator → List Nat × Generator
  | 0, sb, g => (sb, g)
  | n + 1, sb, g =>
    if !g.end_ && isSymbol g.cur then symLoop n (sb ++ [g.cur]) g.byte else (sb, g)

/-- The loop of the string production; returns the count `n` as well. -/
def strLoop (grow : Grow) : Nat → Nat → Generator → Nat × Generator
  | 0, n, g => (n, g)
  | f + 1, n, g =>
    if !g.end_ && !isSpace g.cur then strLoop grow f (n + 1) ((g.push grow [g.cur]).byte)
    else (n, g)

/-- The tail of `collectHex` after its loop: one more hex digit is an error. -/
def hexTail (ln col : Nat) (i : Nat) (g : Generator) : Generator × Nat :=
  (if isHex g.cur then g.setErr ⟨ln, col, .invalidNumber⟩ else g, i)

/-- The loop of `collectHex`, with `k = 4 - i` iterations left, followed by its
tail.  The two updates of the last buffer byte (`<<= 4`, then `|=`) are one
`modifyAt`. -/
def collectHexLoop (grow : Grow) (ln col : Nat) : Nat → Nat → Generator → Generator × Nat
  | 0, i, g => hexTail ln col i g
  | k + 1, i, g =>
    if isHex g.cur then
      let g1 := (g.push grow [fromHex g.cur]).byte
      if g1.end_ || !isHex g1.cur then
        (g1.setErr ⟨ln, col, .invalidNumber⟩, 0)
      else
        let g2 := g1.modifyAt (g1.buf.length - 1) (fun b => (b <<< 4) % 256 ||| fromHex g1.cur)
        collectHexLoop grow ln col k (i + 1) g2.byte
    else hexTail ln col i g

def collectHex (grow : Grow) (ln col : Nat) (g : Generator) : Generator × Nat :=
  collectHexLoop grow ln col 4 0 g

/-- The constant that a production ors into a control byte for size class `s`:
nothing for class 0, `inS2`, `inS3`, `inS4` for the classes 1, 2, 3. -/
def sizeConst (s : Nat) : Nat :=
  if s = 1 then inS2 else if s = 2 then inS3 else if s = 3 then inS4 else 0

/-- The control byte of a mnemonic: `if r { ins |= inR }` then `ins|s`. -/
def controlByte (ins : Nat) (r : Bool) (s : Nat) : Nat :=
  (if r then ins ||| inR else ins) ||| s

/-- The production for `(`. -/
def stepComment (g : Generator) : Generator × Bool :=
  let ln := g.ln
  let col := g.col
  let g1 := commentLoop (g.rest.length + 1) g
  let g2 := if g1.cur ≠ 41 then g1.setErr ⟨ln, col, .unterminatedComment⟩ else g1
  (g2.byte, false)

/-- The production for `;`. -/
def stepRef (grow : Grow) (g : Generator) : Generator × Bool :=
  let ln := g.ln
  let col := g.col
  let g1 := g.byte
  let p := symLoop (g1.rest.length + 1) [] g1
  let sym := p.1
  let g2 := if sym.length = 0 then p.2.setErr ⟨ln, col, .emptyLabelLiteral⟩ else p.2
  let g3 := g2.push grow [inLit ||| inS4, 0, 0, 0, 0]
  (g3.setResols
     (mapSet g3.resols sym (((mapGet g3.resols sym).getD []) ++ [g3.buf.length - 4])),
   false)

/-- The production for `@`. -/
def stepDef (g : Generator) : Generator × Bool :=
  let ln := g.ln
  let col := g.col
  let g1 := g.byte
  let p := symLoop (g1.rest.length + 1) [] g1
  let sym := p.1
  let g2 := p.2
  if sym.length = 0 then (g2.setErr ⟨ln, col, .emptyLabelDefinition⟩, true)
  else if (mapGet g2.labels sym).isSome then (g2.setErr ⟨ln, col, .redefineLabel sym⟩, true)
  else (g2.setLabels (mapSet g2.labels sym g2.buf.length), false)

/-- The production for the single quote. -/
def stepString (grow : Grow) (g : Generator) : Generator × Bool :=
  let ln := g.ln
  let col := g.col
  let g1 := g.byte
  let p := strLoop grow (g1.rest.length + 1) 0 g1
  if p.1 = 0 then (p.2.setErr ⟨ln, col, .emptyString⟩, true) else (p.2, false)

/-- The production for `#`.  The pointer `ins` is taken before `collectHex`
appends: its writes reach the buffer only if no append moved the contents to
a fresh backing array in between. -/
def stepLit (grow : Grow) (g : Generator) : Generator × Bool :=
  let ln := g.ln
  let col := g.col
  let g1 := g.byte
  let g2 := g1.push grow [inLit]
  let ins := g2.buf.length - 1
  let arr := g2.alloc
  let p := collectHex grow ln col g2
  let n := p.2
  let f : Nat → Nat :=
    if n = 2 then (fun b => b ||| inS2)
    else if n = 3 then (fun b => b ||| inS3)
    else if n = 4 then (fun b => b ||| inS4)
    else (fun b => b &&& 0b10011111)
  (if p.1.alloc = arr then p.1.modifyAt ins f else p.1, false)

/-- The test `!g.end() && g.cur == 'r'` of the mnemonic production. -/
def takesR (g : Generator) : Bool := !g.end_ && decide (g.cur = 114)

/-- The state after the optional return modifier. -/
def afterR (g : Generator) : Generator := if takesR g then g.byte else g

/-- The test `!g.end() && g.cur >= '0' && g.cur <= '9'`. -/
def atDigit (g : Generator) : Bool := !g.end_ && decide (48 ≤ g.cur) && decide (g.cur ≤ 57)

/-- The size modifier `s` chosen by the `switch` on a digit. -/
def sizeMod (g : Generator) : Nat :=
  if atDigit g then
    if g.cur = 50 then inS2 else if g.cur = 51 then inS3 else if g.cur = 52 then inS4 else 0
  else 0

/-- The state after the optional size modifier: the digit is consumed only if
it is `2`, `3` or `4` (the flag `adv`). -/
def afterSize (g : Generator) : Generator :=
  if atDigit g && (decide (g.cur = 50) || decide (g.cur = 51) || decide (g.cur = 52)) then g.byte
  else g

/-- The end of the mnemonic production: the lookup in the opcode table, the
three error exits and the emission of the control byte. -/
def emitIns (grow : Grow) (ln col : Nat) (name : List Nat) (r : Bool) (s : Nat)
    (g : Generator) : Generator × Bool :=
  let i := getIns name
  if !i.ok then (g.setErr ⟨ln, col, .unknownSymbol name⟩, true)
  else if !i.usesR && r then (g.setErr ⟨ln, col, .incompatibleReturn name⟩, true)
  else if !i.usesS && s != 0 then (g.setErr ⟨ln, col, .incompatibleSize name⟩, true)
  else (g.push grow [controlByte i.ins r s], false)

/-- The production for a mnemonic.  The write to `sb` after `name` has been
taken has no effect and is left out. -/
def stepMnemonic (grow : Grow) (g : Generator) : Generator × Bool :=
  let p := symLoop (g.rest.length + 1) [] g
  emitIns grow g.ln g.col p.1 (takesR p.2) (sizeMod (afterR p.2)) (afterSize (afterR p.2))

/-- One iteration of the scan loop, up to but excluding `if g.end() { break }`.
The flag tells whether the iteration executed `return`. -/
def step (grow : Grow) (g : Generator) : Generator × Bool :=
  if g.cur = 40 then stepComment g
  else if g.cur = 59 then stepRef grow g
  else if g.cur = 64 then stepDef g
  else if g.cur = 39 then stepString grow g
  else if g.cur = 35 then stepLit grow g
  else if isSpace g.cur then (g.byte, false)
  else if isHex g.cur then ((collectHex grow g.ln g.col g).1, false)
  else if isSymbol g.cur then stepMnemonic grow g
  else (g.setErr ⟨g.ln, g.col, .unexpectedChar g.cur⟩, true)

/-- The scan loop.  `none` means the fuel ran out before the loop ended. -/
def scan (grow : Grow) : Nat → Generator → Option (Generator × Bool)
  | 0, _ => none
  | n + 1, g =>
    let r := step grow g
    if r.2 then some r
    else if r.1.end_ then some r
    else scan grow n r.1

/-! ## Label resolution -/

/-- The value `uint32(addressOffset - len(g.buf) + pos)`. -/
def address (len pos : Nat) : Nat :=
  (((addressOffset : Int) - (len : Int) + (pos : Int)) % 4294967296).toNat

/-- The call `binary.BigEndian.PutUint32` on the four bytes at `idx`. -/
def putUint32 (buf : List Nat) (idx v : Nat) : List Nat :=
  (((buf.set idx (v >>> 24 % 256)).set (idx + 1) (v >>> 16 % 256)).set (idx + 2)
    (v >>> 8 % 256)).set (idx + 3) (v % 256)

/-- The inner loop of the resolution: patch every site of one label. -/
def patchSites (pos : Nat) (buf : List Nat) (res : List Nat) : List Nat :=
  res.foldl (fun b idx => putUint32 b idx (address b.length pos)) buf

/-- The resolution loop over the labels `ls`, in the order given. -/
def resolveLabels (resols : List (List Nat × List Nat)) (ls : List (List Nat × Nat))
    (buf : List Nat) : List Nat :=
  ls.foldl
    (fun b e =>
      match mapGet resols e.1 with
      | some res => patchSites e.2 b res
      | none => b)
    buf

/-- The resolution step on the state; the label table is walked in insertion
order. -/
def resolve (g : Generator) : Generator :=
  { g with buf := resolveLabels g.resols g.labels g.buf }

/-- What `Generate` hands back: `rbuf` (the nil slice is `[]`) and `rerr`. -/
structure Result where
  rbuf : List Nat
  rerr : Option Err
deriving DecidableEq, Repr

/-- The deferred function of `Generate`. -/
def deferred (g : Generator) : Result :=
  { rbuf := if g.err = none then g.buf else [], rerr := g.err }

/-- The scan loop of `Generate`, run from state `g` until it ends: the state
it ends in and whether it ended by `return`. -/
def scanEnd (grow : Grow) (g : Generator) : Option (Generator × Bool) :=
  scan grow (g.rest.length + 1) g

/-- The state in which `Generate` leaves the pass: the scan loop, and the
resolution unless the loop executed `return`. -/
def finalState (grow : Grow) (g : Generator) : Option Generator :=
  match scanEnd grow g with
  | none => none
  | some (g1, ret) => some (if ret then g1 else resolve g1)

/-- The method `Generate`. -/
def Generate (grow : Grow) (g : Generator) : Option Result :=
  (finalState grow g).map deferred

/-- Assemble a source text: `New` followed by `Generate`. -/
def assemble (grow : Grow) (src : List Nat) : Option Result :=
  Generate grow (New src)

/-- The input still available to the pass: zero once end-of-input has been
seen, else one more than the number of unread bytes. -/
def Generator.fuel (g : Generator) : Nat := if g.eof then 0 else g.rest.length + 1

/-- The characters from the current one on: `cur`, then the lookahead and the
unread bytes unless end-of-input has been seen. -/
def Generator.ahead (g : Generator) : List Nat :=
  if g.eof then [g.cur] else g.cur :: g.next :: g.rest

/-- The states at the head of an iteration of the scan loop on source `src`. -/
inductive Reaches (grow : Grow) (src : List Nat) : Generator → Prop where
  | start : Reaches grow src (New src)
  | next (g : Generator) : Reaches grow src g → (step grow g).2 = false →
      (step grow g).1.end_ = false → Reaches grow src (step grow g).1

/-- The 29 mnemonics of the opcode table, in the order of their ordinals. -/
def mnemonics : List (List Nat) :=
  [str "LIT", str "DEI", str "DEO", str "HLT", str "BRP", str "DUP", str "SWP", str "ROT",
   str "POP", str "STH", str "GPC", str "MEMR", str "MEMW", str "MEMC", str "JMP",
   str "TJMP", str "FJMP", str "EQ", str "NE", str "LT", str "GT", str "ADD", str "SUB",
   str "MUL", str "DIV", str "AND", str "OR", str "XOR", str "NOT"]

/-! ## Relations between states and the invariant of the scan loop -/

/-- State `g2` comes after `g1` in a production that touches neither table:
the tables agree, the buffer is not shorter and no input has come back. -/
structure Frame (g1 g2 : Generator) : Prop where
  labels : g2.labels = g1.labels
  resols : g2.resols = g1.resols
  len : g1.buf.length ≤ g2.buf.length
  fuel : g2.fuel ≤ g1.fuel

/-- State `g2` differs from `g1` only in the cursor: error flag clear, tables
and buffer (contents, capacity, backing array) as before. -/
structure Moved (g1 g2 : Generator) : Prop where
  err : g2.err = none
  labels : g2.labels = g1.labels
  resols : g2.resols = g1.resols
  buf : g2.buf = g1.buf
  cap : g2.cap = g1.cap
  alloc : g2.alloc = g1.alloc

/-- A character that starts a mnemonic: a symbol character that is neither a
quote, a `#`, nor a hex digit. -/
def startsMnemonic (c : Nat) : Bool :=
  isSymbol c && !isHex c && decide (c ≠ 39) && decide (c ≠ 35)

/-- The four bytes that `PutUint32` stores for `v`, most significant first. -/
def beBytes (v : Nat) : List Nat := [v >>> 24 % 256, v >>> 16 % 256, v >>> 8 % 256, v % 256]

/-- The four bytes of `buf` at offset `i`. -/
def window (buf : List Nat) (i : Nat) : List Nat := (buf.drop i).take 4

/-- What the scan loop maintains about the two tables: label names are
unique, label offsets do not exceed the buffer length, every recorded site
lies inside the buffer, and two recorded sites either coincide (then under one
name) or are four bytes apart. -/
structure Inv (g : Generator) : Prop where
  keys : (g.labels.map Prod.fst).Nodup
  offs : ∀ e ∈ g.labels, e.2 ≤ g.buf.length
  bound : ∀ e ∈ g.resols, ∀ i ∈ e.2, i + 4 ≤ g.buf.length
  apart : ∀ e1 ∈ g.resols, ∀ e2 ∈ g.resols, ∀ i ∈ e1.2, ∀ j ∈ e2.2,
    (i = j ∧ e1.1 = e2.1) ∨ i + 4 ≤ j ∨ j + 4 ≤ i

/-- The bytes that a run of hex digits packs to: one byte per pair, the first
digit in the high nibble. -/
def packPairs : List Nat → List Nat
  | x :: y :: r => ((fromHex x <<< 4) % 256 ||| fromHex y) :: packPairs r
  | _ => []

/-- State `r` is state `g` after a production has appended `bytes` one at a
time: the cursor stands on `c` followed by `t`, no error is pending and the
tables are untouched; the backing array is the same if the bytes fit into the
capacity, and a fresh one if they do not. -/
structure Appended (g r : Generator) (bytes : List Nat) (c : Nat) (t : List Nat) : Prop where
  buf : r.buf = g.buf ++ bytes
  ahead : r.ahead = c :: t
  err : r.err = none
  labels : r.labels = g.labels
  resols : r.resols = g.resols
  fits : g.buf.length + bytes.length ≤ g.cap → r.alloc = g.alloc ∧ r.cap = g.cap
  moved : bytes ≠ [] → g.cap < g.buf.length + bytes.length → g.alloc < r.alloc
  stays : g.alloc ≤ r.alloc

/-- A source that ends in `#1f2a `: that alone for `n = 0`, else after a string
literal of `n` letters `a` and a space. -/
def litAfter (n : Nat) : List Nat :=
  if n = 0 then str "#1f2a " else 39 :: (List.replicate n 97 ++ 32 :: str "#1f2a ")

/-- Buffer `l2` keeps the bytes of buffer `l1`: it is not shorter and agrees
with `l1` at every offset of `l1`. -/
def Keeps (l1 l2 : List Nat) : Prop :=
  l1.length ≤ l2.length ∧ ∀ k, k < l1.length → l2[k]? = l1[k]?

/-- What the scan loop maintains about the placeholders: every recorded site is
preceded by the control byte `0x60` and holds four zero bytes. -/
structure Placeholders (g : Generator) : Prop where
  ctl : ∀ e ∈ g.resols, ∀ i ∈ e.2, 1 ≤ i ∧ g.buf[i - 1]? = some 0x60
  zero : ∀ e ∈ g.resols, ∀ i ∈ e.2, ∀ k, k < 4 → g.buf[i + k]? = some 0

/-- The call `PutUint32(unsafe.Slice(&buf[idx], 4), v)` with its bounds made
explicit: `none` if the four bytes at `idx` do not all lie inside the buffer
(the index expression panics, or the write leaves the slice). -/
def putUint32Checked (buf : List Nat) (idx v : Nat) : Option (List Nat) :=
  if idx + 4 ≤ buf.length then some (putUint32 buf idx v) else none

/-- The inner loop of the resolution with the bounds made explicit. -/
def patchSitesChecked (pos : Nat) : List Nat → List Nat → Option (List Nat)
  | [], buf => some buf
  | idx :: r, buf =>
    match putUint32Checked buf idx (address buf.length pos) with
    | some b => patchSitesChecked pos r b
    | none => none

/-- The resolution loop with the bounds made explicit. -/
def resolveLabelsChecked (resols : List (List Nat × List Nat)) :
    List (List Nat × Nat) → List Nat → Option (List Nat)
  | [], buf => some buf
  | e :: tl, buf =>
    match mapGet resols e.1 with
    | some res =>
      match patchSitesChecked e.2 res buf with
      | some b => resolveLabelsChecked resols tl b
      | none => none
    | none => resolveLabelsChecked resols tl buf

/-- The resolution step with the label table walked in the order that `ord`
picks for it. -/
def resolveIn (ord : List (List Nat × Nat) → List (List Nat × Nat)) (g : Generator) :
    Generator :=
  { g with buf := resolveLabels g.resols (ord g.labels) g.buf }

/-- The method `Generate` with the label table walked in the order that `ord`
picks for it. -/
def GenerateIn (grow : Grow) (ord : List (List Nat × Nat) → List (List Nat × Nat))
    (g : Generator) : Option Result :=
  match scanEnd grow g with
  | none => none
  | some (g1, ret) => some (deferred (if ret then g1 else resolveIn ord g1))

/-- The counters `ln` and `col` after `byte` has made `x` the current byte:
the column advances, and a line feed starts a new line at column 1. -/
def advance (p : Nat × Nat) (x : Nat) : Nat × Nat :=
  if x = 10 then (p.1 + 1, 1) else (p.1, p.2 + 1)

/-- The line, counted from 1, of the byte that follows the text `pre`: one more
than the number of line feeds in `pre`. -/
def lineOf (pre : List Nat) : Nat := 1 + pre.count 10

/-- The column, counted from 1, of the byte that follows the text `pre`: one
more than the number of bytes after the last line feed of `pre`, or after the
start of the input. -/
def columnOf (pre : List Nat) : Nat :=
  1 + (pre.reverse.takeWhile (fun x => x != 10)).length

/-- What every production maintains about the cursor on the source `src`: the
counters are those of the bytes that have been current so far, `pre` and then
`cur`; while end-of-input has not been seen these bytes and the unread input
make up `src`; and a pending error is not the unexpected-character error. -/
structure Track (src : List Nat) (g : Generator) : Prop where
  pos : ∃ pre, (pre ++ [g.cur]).foldl advance (1, 0) = (g.ln, g.col) ∧
    (g.eof = false → pre ++ g.cur :: g.next :: g.rest = src)
  msg : ∀ e, g.err = some e → ∀ x, e.msg ≠ .unexpectedChar x

/-! ## Field lemmas for the primitive state updates -/

section Fields

variable (grow : Grow) (g : Generator)

@[simp] theorem byte_labels : g.byte.labels = g.labels := rfl
@[simp] theorem byte_resols : g.byte.resols = g.resols := rfl
@[simp] theorem byte_buf : g.byte.buf = g.buf := rfl
@[simp] theorem byte_cap : g.byte.cap = g.cap := rfl
@[simp] theorem byte_alloc : g.byte.alloc = g.alloc := rfl
@[simp] theorem byte_err : g.byte.err = none := rfl
@[simp] theorem byte_cur : g.byte.cur = g.next := rfl
@[simp] theorem byte_rest : g.byte.rest = g.rest.tail := rfl
@[simp] theorem byte_eof : g.byte.eof = (g.eof || g.rest.isEmpty) := rfl

theorem byte_fuel : g.byte.fuel ≤ g.fuel - 1 := by
  unfold Generator.fuel
  cases hr : g.rest <;> cases he : g.eof <;> simp [hr, he]

theorem byte_eof_false (h : g.byte.eof = false) : g.eof = false := by
  simp at h; exact h.1

theorem byte_ahead (h : g.eof = false) : g.byte.ahead = g.ahead.tail := by
  unfold Generator.ahead
  cases hr : g.rest <;> simp [h, hr, Generator.byte]

@[simp] theorem push_rest (bs : List Nat) : (g.push grow bs).rest = g.rest := rfl
@[simp] theorem push_err (bs : List Nat) : (g.push grow bs).err = g.err := rfl
@[simp] theorem push_labels (bs : List Nat) : (g.push grow bs).labels = g.labels := rfl
@[simp] theorem push_resols (bs : List Nat) : (g.push grow bs).resols = g.resols := rfl
@[simp] theorem push_buf (bs : List Nat) : (g.push grow bs).buf = g.buf ++ bs := rfl
@[simp] theorem push_ln (bs : List Nat) : (g.push grow bs).ln = g.ln := rfl
@[simp] theorem push_col (bs : List Nat) : (g.push grow bs).col = g.col := rfl
@[simp] theorem push_cur (bs : List Nat) : (g.push grow bs).cur = g.cur := rfl
@[simp] theorem push_next (bs : List Nat) : (g.push grow bs).next = g.next := rfl
@[simp] theorem push_eof (bs : List Nat) : (g.push grow bs).eof = g.eof := rfl
@[simp] theorem push_fuel (bs : List Nat) : (g.push grow bs).fuel = g.fuel := rfl
@[simp] theorem push_ahead (bs : List Nat) : (g.push grow bs).ahead = g.ahead := rfl
@[simp] theorem push_end (bs : List Nat) : (g.push grow bs).end_ = g.end_ := rfl

@[simp] theorem modifyAt_rest (i : Nat) (f : Nat → Nat) : (g.modifyAt i f).rest = g.rest := rfl
@[simp] theorem modifyAt_err (i : Nat) (f : Nat → Nat) : (g.modifyAt i f).err = g.err := rfl
@[simp] theorem modifyAt_labels (i : Nat) (f : Nat → Nat) :
    (g.modifyAt i f).labels = g.labels := rfl
@[simp] theorem modifyAt_resols (i : Nat) (f : Nat → Nat) :
    (g.modifyAt i f).resols = g.resols := rfl
@[simp] theorem modifyAt_buf (i : Nat) (f : Nat → Nat) :
    (g.modifyAt i f).buf = g.buf.modify f i := rfl
@[simp] theorem modifyAt_cap (i : Nat) (f : Nat → Nat) : (g.modifyAt i f).cap = g.cap := rfl
@[simp] theorem modifyAt_alloc (i : Nat) (f : Nat → Nat) :
    (g.modifyAt i f).alloc = g.alloc := rfl
@[simp] theorem modifyAt_ln (i : Nat) (f : Nat → Nat) : (g.modifyAt i f).ln = g.ln := rfl
@[simp] theorem modifyAt_col (i : Nat) (f : Nat → Nat) : (g.modifyAt i f).col = g.col := rfl
@[simp] theorem modifyAt_cur (i : Nat) (f : Nat → Nat) : (g.modifyAt i f).cur = g.cur := rfl
@[simp] theorem modifyAt_next (i : Nat) (f : Nat → Nat) : (g.modifyAt i f).next = g.next := rfl
@[simp] theorem modifyAt_eof (i : Nat) (f : Nat → Nat) : (g.modifyAt i f).eof = g.eof := rfl
@[simp] theorem modifyAt_fuel (i : Nat) (f : Nat → Nat) : (g.modifyAt i f).fuel = g.fuel := rfl
@[simp] theorem modifyAt_ahead (i : Nat) (f : Nat → Nat) :
    (g.modifyAt i f).ahead = g.ahead := rfl
@[simp] theorem modifyAt_byte (i : Nat) (f : Nat → Nat) :
    (g.modifyAt i f).byte = g.byte.modifyAt i f := rfl

@[simp] theorem setErr_rest (e : Err) : (g.setErr e).rest = g.rest := rfl
@[simp] theorem setErr_err (e : Err) : (g.setErr e).err = some e := rfl
@[simp] theorem setErr_labels (e : Err) : (g.setErr e).labels = g.labels := rfl
@[simp] theorem setErr_resols (e : Err) : (g.setErr e).resols = g.resols := rfl
@[simp] theorem setErr_buf (e : Err) : (g.setErr e).buf = g.buf := rfl
@[simp] theorem setErr_cap (e : Err) : (g.setErr e).cap = g.cap := rfl
@[simp] theorem setErr_alloc (e : Err) : (g.setErr e).alloc = g.alloc := rfl
@[simp] theorem setErr_eof (e : Err) : (g.setErr e).eof = g.eof := rfl
@[simp] theorem setErr_cur (e : Err) : (g.setErr e).cur = g.cur := rfl
@[simp] theorem setErr_fuel (e : Err) : (g.setErr e).fuel = g.fuel := rfl
@[simp] theorem setErr_end (e : Err) : (g.setErr e).end_ = true := rfl
@[simp] theorem setErr_byte (e : Err) : (g.setErr e).byte = g.byte := rfl

@[simp] theorem setLabels_labels (m : List (List Nat × Nat)) :
    (g.setLabels m).labels = m := rfl
@[simp] theorem setLabels_resols (m : List (List Nat × Nat)) :
    (g.setLabels m).resols = g.resols := rfl
@[simp] theorem setLabels_buf (m : List (List Nat × Nat)) : (g.setLabels m).buf = g.buf := rfl
@[simp] theorem setLabels_err (m : List (List Nat × Nat)) : (g.setLabels m).err = g.err := rfl
@[simp] theorem setLabels_eof (m : List (List Nat × Nat)) : (g.setLabels m).eof = g.eof := rfl
@[simp] theorem setLabels_fuel (m : List (List Nat × Nat)) :
    (g.setLabels m).fuel = g.fuel := rfl
@[simp] theorem setLabels_end (m : List (List Nat × Nat)) :
    (g.setLabels m).end_ = g.end_ := rfl

@[simp] theorem setResols_labels (m : List (List Nat × List Nat)) :
    (g.setResols m).labels = g.labels := rfl
@[simp] theorem setResols_resols (m : List (List Nat × List Nat)) :
    (g.setResols m).resols = m := rfl
@[simp] theorem setResols_buf (m : List (List Nat × List Nat)) :
    (g.setResols m).buf = g.buf := rfl
@[simp] theorem setResols_err (m : List (List Nat × List Nat)) :
    (g.setResols m).err = g.err := rfl
@[simp] theorem setResols_eof (m : List (List Nat × List Nat)) :
    (g.setResols m).eof = g.eof := rfl
@[simp] theorem setResols_fuel (m : List (List Nat × List Nat)) :
    (g.setResols m).fuel = g.fuel := rfl
@[simp] theorem setResols_end (m : List (List Nat × List Nat)) :
    (g.setResols m).end_ = g.end_ := rfl

theorem end_false_iff : g.end_ = false ↔ g.err = none ∧ g.eof = false := by
  unfold Generator.end_
  cases g.err <;> cases g.eof <;> simp

theorem fuel_pos_of_not_end (h : g.end_ = false) : 1 ≤ g.fuel := by
  have h2 := ((end_false_iff g).1 h).2
  simp [Generator.fuel, h2]

end Fields

/-! ## Frame lemmas: what the loops and `collectHex` leave alone -/

theorem Frame.refl (g : Generator) : Frame g g := ⟨rfl, rfl, le_refl _, le_refl _⟩

theorem Frame.trans {a b c : Generator} (h1 : Frame a b) (h2 : Frame b c) : Frame a c :=
  ⟨h2.labels.trans h1.labels, h2.resols.trans h1.resols, le_trans h1.len h2.len,
    le_trans h2.fuel h1.fuel⟩

theorem frame_byte (g : Generator) : Frame g g.byte :=
  ⟨rfl, rfl, le_refl _, le_trans (byte_fuel g) (Nat.sub_le _ _)⟩

theorem frame_push (grow : Grow) (g : Generator) (bs : List Nat) : Frame g (g.push grow bs) :=
  ⟨rfl, rfl, by simp, le_refl _⟩

theorem frame_modifyAt (g : Generator) (i : Nat) (f : Nat → Nat) : Frame g (g.modifyAt i f) :=
  ⟨rfl, rfl, by simp, le_refl _⟩

theorem frame_setErr (g : Generator) (e : Err) : Frame g (g.setErr e) :=
  ⟨rfl, rfl, le_refl _, le_refl _⟩

theorem commentLoop_frame : ∀ (n : Nat) (g : Generator), Frame g (commentLoop n g)
  | 0, g => Frame.refl g
  | n + 1, g => by
    unfold commentLoop
    split
    · exact (frame_byte g).trans (commentLoop_frame n g.byte)
    · exact Frame.refl g

theorem symLoop_frame : ∀ (n : Nat) (sb : List Nat) (g : Generator),
    Frame g (symLoop n sb g).2
  | 0, _, g => Frame.refl g
  | n + 1, sb, g => by
    unfold symLoop
    split
    · exact (frame_byte g).trans (symLoop_frame n _ g.byte)
    · exact Frame.refl g

theorem strLoop_frame (grow : Grow) : ∀ (f n : Nat) (g : Generator),
    Frame g (strLoop grow f n g).2
  | 0, _, g => Frame.refl g
  | f + 1, n, g => by
    unfold strLoop
    split
    · exact ((frame_push grow g _).trans (frame_byte _)).trans (strLoop_frame grow f _ _)
    · exact Frame.refl g

theorem hexTail_frame (ln col i : Nat) (g : Generator) : Frame g (hexTail ln col i g).1 := by
  unfold hexTail
  dsimp only
  split
  · exact frame_setErr g _
  · exact Frame.refl g

theorem collectHexLoop_frame (grow : Grow) (ln col : Nat) : ∀ (k i : Nat) (g : Generator),
    Frame g (collectHexLoop grow ln col k i g).1
  | 0, i, g => by
    unfold collectHexLoop
    exact hexTail_frame ln col i g
  | k + 1, i, g => by
    unfold collectHexLoop
    split
    · dsimp only
      split
      · exact ((frame_push grow g [fromHex g.cur]).trans (frame_byte _)).trans (frame_setErr _ _)
      · refine Frame.trans ?_ (collectHexLoop_frame grow ln col k (i + 1) _)
        refine Frame.trans (frame_push grow g [fromHex g.cur]) ?_
        refine Frame.trans (frame_byte _) ?_
        exact Frame.trans (frame_modifyAt _ _ _) (frame_byte _)
    · exact hexTail_frame ln col i g

theorem collectHex_frame (grow : Grow) (ln col : Nat) (g : Generator) :
    Frame g (collectHex grow ln col g).1 :=
  collectHexLoop_frame grow ln col 4 0 g

/-- A hex production consumes input: its loop runs at least once. -/
theorem collectHex_fuel (grow : Grow) (ln col : Nat) (g : Generator)
    (h : isHex g.cur = true) : (collectHex grow ln col g).1.fuel ≤ g.fuel - 1 := by
  unfold collectHex collectHexLoop
  rw [if_pos h]
  dsimp only
  have hb : ((g.push grow [fromHex g.cur]).byte).fuel ≤ g.fuel - 1 := by
    have := byte_fuel (g.push grow [fromHex g.cur])
    simpa using this
  split
  · simpa using hb
  · refine le_trans ?_ hb
    refine le_trans (collectHexLoop_frame grow ln col 3 (0 + 1) _).fuel ?_
    refine le_trans (byte_fuel _) ?_
    simp

/-! ## Progress of the scan loop -/

theorem stepComment_fuel (g : Generator) : (stepComment g).1.fuel ≤ g.fuel - 1 := by
  unfold stepComment
  dsimp only
  refine le_trans (byte_fuel _) ?_
  have h := (commentLoop_frame (g.rest.length + 1) g).fuel
  split
  · simp only [setErr_fuel]; omega
  · omega

theorem stepRef_fuel (grow : Grow) (g : Generator) :
    (stepRef grow g).1.fuel ≤ g.fuel - 1 := by
  unfold stepRef
  dsimp only
  have h := (symLoop_frame (g.byte.rest.length + 1) [] g.byte).fuel
  have hb := byte_fuel g
  rw [setResols_fuel, push_fuel]
  split
  · simp only [setErr_fuel]; omega
  · omega

theorem stepDef_fuel (g : Generator) : (stepDef g).1.fuel ≤ g.fuel - 1 := by
  unfold stepDef
  dsimp only
  have h := (symLoop_frame (g.byte.rest.length + 1) [] g.byte).fuel
  have hb := byte_fuel g
  split
  · simp only [setErr_fuel]; omega
  · split
    · simp only [setErr_fuel]; omega
    · rw [setLabels_fuel]; omega

theorem stepString_fuel (grow : Grow) (g : Generator) :
    (stepString grow g).1.fuel ≤ g.fuel - 1 := by
  unfold stepString
  dsimp only
  have h := (strLoop_frame grow (g.byte.rest.length + 1) 0 g.byte).fuel
  have hb := byte_fuel g
  split
  · simp only [setErr_fuel]; omega
  · simp only []; omega

theorem stepLit_fuel (grow : Grow) (g : Generator) :
    (stepLit grow g).1.fuel ≤ g.fuel - 1 := by
  unfold stepLit
  dsimp only
  have h := (collectHex_frame grow g.ln g.col (g.byte.push grow [inLit])).fuel
  have hb := byte_fuel g
  rw [push_fuel] at h
  split
  · simp only [modifyAt_fuel]; omega
  · omega

theorem getIns_nil : (getIns []).ok = false := by decide

theorem afterR_frame (g : Generator) : Frame g (afterR g) := by
  unfold afterR
  split
  · exact frame_byte g
  · exact Frame.refl g

theorem afterSize_frame (g : Generator) : Frame g (afterSize g) := by
  unfold afterSize
  split
  · exact frame_byte g
  · exact Frame.refl g

theorem emitIns_frame (grow : Grow) (ln col : Nat) (name : List Nat) (r : Bool) (s : Nat)
    (g : Generator) : Frame g (emitIns grow ln col name r s g).1 := by
  unfold emitIns
  dsimp only
  split
  · exact frame_setErr _ _
  split
  · exact frame_setErr _ _
  split
  · exact frame_setErr _ _
  · exact frame_push grow g _

theorem emitIns_nil (grow : Grow) (ln col : Nat) (r : Bool) (s : Nat) (g : Generator) :
    (emitIns grow ln col [] r s g).2 = true := by
  unfold emitIns
  simp [getIns_nil]

theorem stepMnemonic_fuel (grow : Grow) (g : Generator)
    (h : (stepMnemonic grow g).2 = false) : (stepMnemonic grow g).1.fuel ≤ g.fuel - 1 := by
  have key : (symLoop (g.rest.length + 1) [] g).2.fuel ≤ g.fuel - 1 ∨
      (symLoop (g.rest.length + 1) [] g).1 = [] := by
    unfold symLoop
    split
    · left
      exact le_trans (symLoop_frame _ _ _).fuel (byte_fuel g)
    · right; rfl
  revert h
  unfold stepMnemonic
  dsimp only
  rcases key with key | key
  · intro _
    refine le_trans (emitIns_frame grow _ _ _ _ _ _).fuel ?_
    refine le_trans (afterSize_frame _).fuel ?_
    exact le_trans (afterR_frame _).fuel key
  · rw [key, emitIns_nil]
    intro h
    cases h

theorem step_fuel (grow : Grow) (g : Generator) (h : (step grow g).2 = false) :
    (step grow g).1.fuel ≤ g.fuel - 1 := by
  revert h
  unfold step
  split
  · intro _; exact stepComment_fuel g
  split
  · intro _; exact stepRef_fuel grow g
  split
  · intro _; exact stepDef_fuel g
  split
  · intro _; exact stepString_fuel grow g
  split
  · intro _; exact stepLit_fuel grow g
  split
  · intro _; exact byte_fuel g
  split
  · intro _; exact collectHex_fuel grow g.ln g.col g (by assumption)
  split
  · intro h; exact stepMnemonic_fuel grow g h
  · intro h; simp at h

theorem stepDef_ret (g : Generator) (h : (stepDef g).2 = true) :
    (stepDef g).1.err.isSome = true := by
  revert h
  unfold stepDef
  dsimp only
  split
  · intro _; rfl
  split
  · intro _; rfl
  · intro h; cases h

theorem stepString_ret (grow : Grow) (g : Generator) (h : (stepString grow g).2 = true) :
    (stepString grow g).1.err.isSome = true := by
  revert h
  unfold stepString
  dsimp only
  split
  · intro _; rfl
  · intro h; cases h

theorem emitIns_ret (grow : Grow) (ln col : Nat) (name : List Nat) (r : Bool) (s : Nat)
    (g : Generator) (h : (emitIns grow ln col name r s g).2 = true) :
    (emitIns grow ln col name r s g).1.err.isSome = true := by
  revert h
  unfold emitIns
  dsimp only
  split
  · intro _; rfl
  split
  · intro _; rfl
  split
  · intro _; rfl
  · intro h; cases h

/-- Every `return` in the scan loop comes right after `g.err` has been set. -/
theorem step_ret_err (grow : Grow) (g : Generator) (h : (step grow g).2 = true) :
    (step grow g).1.err.isSome = true := by
  revert h
  unfold step
  split
  · intro h; cases h
  split
  · intro h; cases h
  split
  · exact stepDef_ret g
  split
  · exact stepString_ret grow g
  split
  · intro h; cases h
  split
  · intro h; cases h
  split
  · intro h; cases h
  split
  · exact emitIns_ret grow _ _ _ _ _ _
  · intro _; rfl

/-- The scan loop ends whenever the fuel covers the input still available. -/
theorem scan_some (grow : Grow) : ∀ (n : Nat) (g : Generator), 1 ≤ n → g.fuel ≤ n →
    ∃ r, scan grow n g = some r
  | 0, _, h, _ => absurd h (by decide)
  | n + 1, g, _, hf => by
    unfold scan
    dsimp only
    split
    · exact ⟨_, rfl⟩
    · split
      · exact ⟨_, rfl⟩
      · rename_i h1 h2
        have h3 := step_fuel grow g (by simpa using h1)
        have h4 := fuel_pos_of_not_end _ (by simpa using h2)
        exact scan_some grow n _ (by omega) (by omega)

/-- More fuel does not change a result. -/
theorem scan_mono (grow : Grow) : ∀ (n m : Nat) (g : Generator) (r : Generator × Bool),
    scan grow n g = some r → n ≤ m → scan grow m g = some r
  | 0, _, _, _, h, _ => by simp [scan] at h
  | n + 1, 0, _, _, _, hm => absurd hm (by omega)
  | n + 1, m + 1, g, r, h, hm => by
    revert h
    unfold scan
    dsimp only
    split
    · exact id
    · split
      · exact id
      · intro h
        exact scan_mono grow n m _ r h (by omega)

theorem fuel_le_rest (g : Generator) : g.fuel ≤ g.rest.length + 1 := by
  unfold Generator.fuel
  split <;> omega

/-- From a state at the head of an iteration, the loop started at `New src`
ends where the loop started in that state ends. -/
theorem scan_of_reaches (grow : Grow) (src : List Nat) (g : Generator)
    (hr : Reaches grow src g) : ∀ (n : Nat) (r : Generator × Bool),
    scan grow n g = some r → scan grow ((New src).rest.length + 1) (New src) = some r := by
  induction hr with
  | start =>
    intro n r h
    obtain ⟨r2, h2⟩ := scan_some grow ((New src).rest.length + 1) (New src) (by omega)
      (fuel_le_rest _)
    have a := scan_mono grow _ (max n ((New src).rest.length + 1)) _ _ h (le_max_left _ _)
    have b := scan_mono grow _ (max n ((New src).rest.length + 1)) _ _ h2 (le_max_right _ _)
    rw [a] at b
    rw [h2, ← b]
  | next g _ h1 h2 ih =>
    intro n r h
    apply ih (n + 1) r
    unfold scan
    dsimp only
    rw [h1, h2]
    simpa using h

theorem finalState_of_reaches (grow : Grow) (src : List Nat) (g : Generator)
    (hr : Reaches grow src g) (n : Nat) (r : Generator × Bool) (h : scan grow n g = some r) :
    finalState grow (New src) = some (if r.2 then r.1 else resolve r.1) := by
  unfold finalState scanEnd
  rw [scan_of_reaches grow src g hr n r h]

/-- The pass always comes to an end. -/
theorem finalState_some (grow : Grow) (g : Generator) : ∃ gf, finalState grow g = some gf := by
  obtain ⟨r, h⟩ := scan_some grow (g.rest.length + 1) g (by omega) (fuel_le_rest g)
  exact ⟨_, by unfold finalState scanEnd; rw [h]⟩

/-! ## The cursor as a stream -/

theorem ahead_cons_cons (g : Generator) (c d : Nat) (t : List Nat)
    (h : g.ahead = c :: d :: t) : g.eof = false ∧ g.cur = c ∧ g.next = d ∧ g.rest = t := by
  unfold Generator.ahead at h
  cases he : g.eof
  · simp [he] at h
    exact ⟨rfl, h⟩
  · simp [he] at h

theorem ahead_singleton (g : Generator) (c : Nat) (h : g.ahead = [c]) :
    g.eof = true ∧ g.cur = c := by
  unfold Generator.ahead at h
  cases he : g.eof
  · simp [he] at h
  · simp [he] at h
    exact ⟨rfl, h⟩

theorem ahead_cur (g : Generator) (c : Nat) (t : List Nat) (h : g.ahead = c :: t) :
    g.cur = c := by
  unfold Generator.ahead at h
  split at h <;> simp at h <;> exact h.1

theorem New_ahead (src : List Nat) (h : src ≠ []) : (New src).ahead = src := by
  match src, h with
  | [a], _ => simp [New, Generator.ahead, Generator.byte]
  | a :: b :: t, _ => simp [New, Generator.ahead, Generator.byte]

theorem New_err (src : List Nat) : (New src).err = none := rfl
theorem New_buf (src : List Nat) : (New src).buf = [] := rfl
theorem New_labels (src : List Nat) : (New src).labels = [] := rfl
theorem New_resols (src : List Nat) : (New src).resols = [] := rfl
theorem New_col (src : List Nat) : (New src).col = 1 := rfl

theorem New_ln (src : List Nat) (h : src.head? ≠ some 10) : (New src).ln = 1 := by
  match src with
  | [] => simp [New, Generator.byte]
  | a :: t =>
    have : a ≠ 10 := by simpa using h
    simp [New, Generator.byte, this]

theorem Moved.andThen {a b c : Generator} (h1 : Moved a b) (h2 : Moved b c) : Moved a c :=
  ⟨h2.err, h2.labels.trans h1.labels, h2.resols.trans h1.resols, h2.buf.trans h1.buf,
    h2.cap.trans h1.cap, h2.alloc.trans h1.alloc⟩

theorem moved_byte (g : Generator) : Moved g g.byte := ⟨rfl, rfl, rfl, rfl, rfl, rfl⟩

/-- The symbol loop on a stream `pre ++ c :: t`, where `pre` consists of symbol
characters and `c` stops the loop (it is the last byte of the input, or it is
not a symbol character): the loop collects exactly `pre` and stops at `c`. -/
theorem symLoop_run : ∀ (pre : List Nat) (n : Nat) (sb : List Nat) (g : Generator) (c : Nat)
    (t : List Nat), g.err = none → g.ahead = pre ++ c :: t →
    (∀ x ∈ pre, isSymbol x = true) → (t = [] ∨ isSymbol c = false) → pre.length ≤ n →
    (symLoop n sb g).1 = sb ++ pre ∧ (symLoop n sb g).2.ahead = c :: t ∧
      Moved g (symLoop n sb g).2
  | [], n, sb, g, c, t, he, ha, _, hc, _ => by
    have hm : Moved g g := ⟨he, rfl, rfl, rfl, rfl, rfl⟩
    cases n with
    | zero => exact ⟨by simp [symLoop], by simpa [symLoop] using ha, hm⟩
    | succ n =>
      have hcond : (!g.end_ && isSymbol g.cur) = false := by
        rcases hc with hc | hc
        · subst hc
          have := ahead_singleton g c (by simpa using ha)
          simp [Generator.end_, this.1]
        · have := ahead_cur g c t (by simpa using ha)
          simp [this, hc]
      unfold symLoop
      rw [hcond]
      exact ⟨by simp, by simpa using ha, hm⟩
  | x :: pre, 0, _, _, _, _, _, _, _, _, hn => absurd hn (by simp)
  | x :: pre, n + 1, sb, g, c, t, he, ha, hs, hc, hn => by
    have hx : pre ++ c :: t = (pre ++ c :: t).head (by simp) :: (pre ++ c :: t).tail := by
      simp
    have h1 := ahead_cons_cons g x _ _ (by rw [ha, List.cons_append, hx])
    have hcond : (!g.end_ && isSymbol g.cur) = true := by
      simp [Generator.end_, he, h1.1, h1.2.1, hs x (List.mem_cons_self _ _)]
    have ih := symLoop_run pre n (sb ++ [g.cur]) g.byte c t rfl
      (by rw [byte_ahead g h1.1, ha]; rfl)
      (fun y hy => hs y (List.mem_cons_of_mem _ hy)) hc (by simpa using hn)
    unfold symLoop
    rw [hcond]
    simp only [if_true]
    refine ⟨?_, ih.2.1, (moved_byte g).andThen ih.2.2⟩
    rw [ih.1, h1.2.1]
    simp

/-- One iteration ends the loop when it returns or leaves `end()` true. -/
theorem scan_stop (grow : Grow) (n : Nat) (g : Generator)
    (h : (step grow g).2 = true ∨ (step grow g).1.end_ = true) :
    scan grow (n + 1) g = some (step grow g) := by
  unfold scan
  dsimp only
  rcases h with h | h
  · rw [if_pos h]
  · split
    · rfl
    · simp [h]

theorem step_mnemonic (grow : Grow) (g : Generator) (h : startsMnemonic g.cur = true) :
    step grow g = stepMnemonic grow g := by
  unfold startsMnemonic at h
  simp only [Bool.and_eq_true, Bool.not_eq_true', decide_eq_true_eq] at h
  obtain ⟨⟨⟨h1, h2⟩, h3⟩, h4⟩ := h
  have h5 : g.cur ≠ 40 ∧ g.cur ≠ 59 ∧ g.cur ≠ 64 ∧ isSpace g.cur = false := by
    unfold isSymbol at h1
    unfold isSpace
    simp only [Bool.and_eq_true, Bool.or_eq_true, decide_eq_true_eq] at h1
    simp only [Bool.or_eq_false_iff, decide_eq_false_iff_not]
    omega
  unfold step
  simp [h5.1, h5.2.1, h5.2.2.1, h5.2.2.2, h1, h2, h3, h4]

theorem resolveLabels_nil (resols : List (List Nat × List Nat)) (buf : List Nat) :
    resolveLabels resols [] buf = buf := rfl



theorem assemble_of_step (grow : Grow) (src : List Nat)
    (h : (step grow (New src)).2 = true ∨ (step grow (New src)).1.end_ = true) :
    assemble grow src = some (deferred (if (step grow (New src)).2 = true
      then (step grow (New src)).1 else resolve (step grow (New src)).1)) := by
  unfold assemble Generate finalState scanEnd
  rw [scan_stop grow _ _ h]
  rfl

theorem isSymbol_ne_nl (c : Nat) (h : isSymbol c = true) : c ≠ 10 := by
  unfold isSymbol at h
  simp only [Bool.and_eq_true, Bool.or_eq_true, decide_eq_true_eq] at h
  omega

/-- The first iteration on a source that starts with a mnemonic-like run `pre`
stopped by `c`: the run is collected and handed to `emitIns` at line 1,
column 1. -/
theorem step_new_mnemonic (grow : Grow) (pre : List Nat) (c : Nat) (t : List Nat)
    (hne : pre ≠ []) (hs : ∀ x ∈ pre, isSymbol x = true)
    (h0 : startsMnemonic (pre.headD 0) = true) (hc : t = [] ∨ isSymbol c = false) :
    ∃ g1 : Generator, g1.ahead = c :: t ∧ Moved (New (pre ++ c :: t)) g1 ∧
      step grow (New (pre ++ c :: t)) =
        emitIns grow 1 1 pre (takesR g1) (sizeMod (afterR g1)) (afterSize (afterR g1)) := by
  have ha := New_ahead (pre ++ c :: t) (by simp)
  obtain ⟨x, pre2, rfl⟩ := List.exists_cons_of_ne_nil hne
  have hcur : (New (x :: pre2 ++ c :: t)).cur = x := ahead_cur _ x _ ha
  have hrun := symLoop_run (x :: pre2) ((New (x :: pre2 ++ c :: t)).rest.length + 1) []
    (New (x :: pre2 ++ c :: t)) c t rfl ha hs hc (by
      cases hp : pre2 ++ c :: t with
      | nil => simp at hp
      | cons y r =>
        have h2 := ahead_cons_cons _ x y r (by rw [ha]; simp [hp])
        rw [h2.2.2.2]
        have : (pre2 ++ c :: t).length = (y :: r).length := by rw [hp]
        simp at this ⊢
        omega)
  refine ⟨_, hrun.2.1, hrun.2.2, ?_⟩
  rw [step_mnemonic grow _ (by rw [hcur]; simpa using h0)]
  unfold stepMnemonic
  dsimp only
  rw [hrun.1, New_col, New_ln _ (by simpa using isSymbol_ne_nl x (hs x (List.mem_cons_self _ _)))]
  rfl

theorem mnemonics_wf : ∀ name ∈ mnemonics,
    (name.all isSymbol && startsMnemonic (name.headD 0) && !name.isEmpty) = true := by
  decide

theorem getIns_ok_mem (name : List Nat) (h : (getIns name).ok = true) : name ∈ mnemonics := by
  by_contra hn
  simp only [mnemonics, List.mem_cons, List.mem_singleton, List.not_mem_nil, not_or,
    or_false] at hn
  simp only [getIns, hn, if_false] at h
  cases h

theorem mnemonics_usesS : ∀ name ∈ mnemonics,
    ((getIns name).usesS = false ↔ name = str "BRP" ∨ name = str "GPC" ∨ name = str "JMP") := by
  decide

theorem mnemonic_parts (name : List Nat) (h : name ∈ mnemonics) :
    name ≠ [] ∧ (∀ x ∈ name, isSymbol x = true) ∧ startsMnemonic (name.headD 0) = true := by
  have := mnemonics_wf name h
  simp only [Bool.and_eq_true, List.all_eq_true, Bool.not_eq_true', List.isEmpty_eq_false] at this
  exact ⟨this.2, this.1.1, this.1.2⟩

/-- The mnemonic production on `NAME d w`, the first and only token of a
source, with `d` one of the digits `2`, `3`, `4`. -/
theorem assemble_sized (grow : Grow) (name : List Nat) (d w : Nat)
    (hok : (getIns name).ok = true) (hd : d = 2 ∨ d = 3 ∨ d = 4) :
    assemble grow (name ++ [48 + d, w]) =
      some (if (getIns name).usesS = true
        then ⟨[(getIns name).ins ||| ((d - 1) <<< 5)], none⟩
        else ⟨[], some ⟨1, 1, .incompatibleSize name⟩⟩) := by
  obtain ⟨hne, hs, h0⟩ := mnemonic_parts name (getIns_ok_mem name hok)
  have hns : isSymbol (48 + d) = false := by rcases hd with rfl | rfl | rfl <;> decide
  obtain ⟨g1, ha, hm, hstep⟩ := step_new_mnemonic grow name (48 + d) [w] hne hs h0 (Or.inr hns)
  obtain ⟨e1, e2, e3, e4⟩ := ahead_cons_cons g1 _ _ _ ha
  have hend : g1.end_ = false := by simp [Generator.end_, hm.err, e1]
  have hr : takesR g1 = false := by
    unfold takesR; rw [e2]; rcases hd with rfl | rfl | rfl <;> simp
  have hr2 : afterR g1 = g1 := by unfold afterR; simp [hr]
  have hdig : atDigit g1 = true := by
    unfold atDigit; rw [e2, hend]; rcases hd with rfl | rfl | rfl <;> simp
  have hsz : sizeMod g1 = (d - 1) <<< 5 := by
    unfold sizeMod; rw [hdig, e2]; rcases hd with rfl | rfl | rfl <;> simp [inS2, inS3, inS4]
  have hadv : afterSize g1 = g1.byte := by
    unfold afterSize; rw [hdig, e2]; rcases hd with rfl | rfl | rfl <;> simp
  have hsz0 : ((d - 1) <<< 5 != 0) = true := by rcases hd with rfl | rfl | rfl <;> decide
  rw [hr2, hr, hsz, hadv] at hstep
  have hbend : g1.byte.end_ = true := by simp [Generator.end_, e4]
  cases hu : (getIns name).usesS
  · have hst : step grow (New (name ++ [48 + d, w])) =
        (g1.byte.setErr ⟨1, 1, .incompatibleSize name⟩, true) := by
      rw [hstep]; unfold emitIns; simp [hok, hu, hsz0]
    rw [assemble_of_step grow _ (by rw [hst]; exact Or.inl rfl), hst]
    simp [deferred]
  · have hst : step grow (New (name ++ [48 + d, w])) =
        (g1.byte.push grow [(getIns name).ins ||| ((d - 1) <<< 5)], false) := by
      rw [hstep]; unfold emitIns; simp [hok, hu, controlByte]
    rw [assemble_of_step grow _ (by rw [hst]; exact Or.inr (by simpa using hbend)), hst]
    simp [deferred, resolve, hm.err, hm.labels, hm.buf, New_labels, New_buf, resolveLabels_nil]

/-- The mnemonic production on `NAME w`, the only token of a source. -/
theorem assemble_plain (grow : Grow) (name : List Nat) (w : Nat)
    (hok : (getIns name).ok = true) :
    assemble grow (name ++ [w]) = some ⟨[(getIns name).ins], none⟩ := by
  obtain ⟨hne, hs, h0⟩ := mnemonic_parts name (getIns_ok_mem name hok)
  obtain ⟨g1, ha, hm, hstep⟩ := step_new_mnemonic grow name w [] hne hs h0 (Or.inl rfl)
  obtain ⟨e1, e2⟩ := ahead_singleton g1 _ ha
  have hend : g1.end_ = true := by simp [Generator.end_, e1]
  have hr : takesR g1 = false := by unfold takesR; simp [hend]
  have hr2 : afterR g1 = g1 := by unfold afterR; simp [hr]
  have hdig : atDigit g1 = false := by unfold atDigit; simp [hend]
  have hsz : sizeMod g1 = 0 := by unfold sizeMod; simp [hdig]
  have hadv : afterSize g1 = g1 := by unfold afterSize; simp [hdig]
  rw [hr2, hr, hsz, hadv] at hstep
  have hst : step grow (New (name ++ [w])) = (g1.push grow [(getIns name).ins], false) := by
    rw [hstep]; unfold emitIns; simp [hok, controlByte]
  rw [assemble_of_step grow _ (by rw [hst]; exact Or.inr (by simpa using hend)), hst]
  simp [deferred, resolve, hm.err, hm.labels, hm.buf, New_labels, New_buf, resolveLabels_nil]

theorem mnemonics_r : ∀ name ∈ mnemonics, (getIns (name ++ [114])).ok = false := by
  decide

/-- The mnemonic production on `NAME r w`: the symbol loop takes the `r` into
the name, and the opcode table does not know the name. -/
theorem assemble_return (grow : Grow) (name : List Nat) (w : Nat)
    (hok : (getIns name).ok = true) :
    assemble grow (name ++ [114, w]) =
      some ⟨[], some ⟨1, 1, .unknownSymbol (name ++ [114])⟩⟩ := by
  have hmem := getIns_ok_mem name hok
  obtain ⟨hne, hs, h0⟩ := mnemonic_parts name hmem
  have hs2 : ∀ x ∈ name ++ [114], isSymbol x = true := by
    intro x hx
    rcases List.mem_append.1 hx with hx | hx
    · exact hs x hx
    · have : x = 114 := by simpa using hx
      subst this; decide
  have h02 : startsMnemonic ((name ++ [114]).headD 0) = true := by
    obtain ⟨a, t, rfl⟩ := List.exists_cons_of_ne_nil hne
    simpa using h0
  obtain ⟨g1, ha, hm, hstep⟩ :=
    step_new_mnemonic grow (name ++ [114]) w [] (by simp) hs2 h02 (Or.inl rfl)
  have hsrc : name ++ [114, w] = (name ++ [114]) ++ [w] := by simp
  have hst : step grow (New (name ++ [114, w])) =
      ((afterSize (afterR g1)).setErr ⟨1, 1, .unknownSymbol (name ++ [114])⟩, true) := by
    rw [hsrc, hstep]; unfold emitIns; simp [mnemonics_r name hmem]
  rw [assemble_of_step grow _ (by rw [hst]; exact Or.inl rfl), hst]
  simp [deferred]

/-! ## Errors that end the pass -/

/-- An iteration that leaves an error behind ends the pass with that error
and no buffer. -/
theorem assemble_of_reaches_err (grow : Grow) (src : List Nat) (g : Generator) (e : Err)
    (hr : Reaches grow src g) (he : (step grow g).1.err = some e) :
    assemble grow src = some ⟨[], some e⟩ := by
  have hend : (step grow g).1.end_ = true := by simp [Generator.end_, he]
  have hfin := finalState_of_reaches grow src g hr 1 _ (scan_stop grow 0 g (Or.inr hend))
  unfold assemble Generate
  rw [hfin]
  cases (step grow g).2
  · simp [deferred, resolve, he]
  · simp [deferred, he]

theorem isHex_dispatch (c : Nat) (h : isHex c = true) :
    c ≠ 40 ∧ c ≠ 59 ∧ c ≠ 64 ∧ c ≠ 39 ∧ c ≠ 35 ∧ isSpace c = false := by
  unfold isHex at h
  unfold isSpace
  simp only [Bool.and_eq_true, Bool.or_eq_true, decide_eq_true_eq] at h
  simp only [Bool.or_eq_false_iff, decide_eq_false_iff_not]
  omega

theorem step_hex (grow : Grow) (g : Generator) (h : isHex g.cur = true) :
    step grow g = ((collectHex grow g.ln g.col g).1, false) := by
  obtain ⟨h1, h2, h3, h4, h5, h6⟩ := isHex_dispatch g.cur h
  unfold step
  simp [h1, h2, h3, h4, h5, h6, h]

theorem step_lit (grow : Grow) (g : Generator) (h : g.cur = 35) :
    step grow g = stepLit grow g := by
  unfold step
  simp [h]

theorem step_def (grow : Grow) (g : Generator) (h : g.cur = 64) :
    step grow g = stepDef g := by
  unfold step
  simp [h]

/-- The loop of `collectHex` on a run of hex digits that is odd, or longer
than the `2 * k` digits the loop may still take, or that ends the input: the
error is raised. -/
theorem collectHexLoop_bad (grow : Grow) (ln col : Nat) : ∀ (k i : Nat) (g : Generator)
    (run rest : List Nat), g.ahead = run ++ rest → (∀ x ∈ run, isHex x = true) →
    (∀ y ∈ rest.head?, isHex y = false) →
    (run.length % 2 = 1 ∨ 2 * k < run.length ∨ (rest = [] ∧ run ≠ [])) →
    (collectHexLoop grow ln col k i g).1.err = some ⟨ln, col, .invalidNumber⟩
  | 0, i, g, run, rest, ha, hx, _, hbad => by
    match run, hbad with
    | [], hbad => simp at hbad
    | x :: r, _ =>
      have hc := ahead_cur g x _ ha
      unfold collectHexLoop hexTail
      simp [hc, hx x (List.mem_cons_self _ _)]
  | k + 1, i, g, run, rest, ha, hx, hy, hbad => by
    match run, hbad, ha, hx with
    | [], hbad, _, _ => simp at hbad
    | [x], _, ha, hx =>
      have hc := ahead_cur g x _ ha
      have hxh := hx x (List.mem_cons_self _ _)
      have hstop : ((g.push grow [fromHex g.cur]).byte.end_ ||
          !isHex (g.push grow [fromHex g.cur]).byte.cur) = true := by
        match rest, ha, hy with
        | [], ha, _ =>
          have := ahead_singleton g x ha
          simp [Generator.end_, this.1]
        | y :: r, ha, hy =>
          have := ahead_cons_cons g x y r ha
          simp [this.2.2.1, hy y (by simp)]
      unfold collectHexLoop
      rw [hc, if_pos hxh]
      rw [hc] at hstop
      simp only [hstop, if_true]
      rfl
    | x :: y :: r, hbad, ha, hx =>
      have h1 := ahead_cons_cons g x y (r ++ rest) ha
      have hxh := hx x (List.mem_cons_self _ _)
      have hyh := hx y (by simp)
      unfold collectHexLoop
      rw [h1.2.1, if_pos hxh]
      dsimp only
      split
      · rfl
      · rename_i hcont
        have hne : g.rest ≠ [] := by
          intro h0
          apply hcont
          simp [Generator.end_, h0]
        apply collectHexLoop_bad grow ln col k (i + 1) _ r rest
        · have e1 : (g.push grow [fromHex x]).byte.eof = false := by
            simp [h1.1, hne]
          have a1 : (g.push grow [fromHex x]).byte.ahead = y :: (r ++ rest) := by
            rw [byte_ahead _ (by simpa using h1.1), push_ahead, ha]; rfl
          rw [modifyAt_byte, modifyAt_ahead, byte_ahead _ e1, a1]
          rfl
        · intro z hz
          exact hx z (by simp [hz])
        · exact hy
        · simp only [List.length_cons] at hbad
          rcases hbad with hb | hb | hb
          · left; omega
          · right; left; omega
          · right; right
            refine ⟨hb.1, ?_⟩
            intro hr0
            apply hne
            rw [h1.2.2.2, hr0, hb.1]
            rfl

theorem hex_run_nonempty (run : List Nat) (hbad : run.length % 2 = 1 ∨ 8 < run.length) :
    ∃ x r, run = x :: r := by
  match run, hbad with
  | [], hbad => simp at hbad
  | x :: r, _ => exact ⟨x, r, rfl⟩

/-- The bare-hex production on a malformed run. -/
theorem step_hex_bad (grow : Grow) (g : Generator) (run rest : List Nat)
    (ha : g.ahead = run ++ rest) (hx : ∀ x ∈ run, isHex x = true)
    (hy : ∀ y ∈ rest.head?, isHex y = false) (hbad : run.length % 2 = 1 ∨ 8 < run.length) :
    (step grow g).1.err = some ⟨g.ln, g.col, .invalidNumber⟩ := by
  obtain ⟨x, r, rfl⟩ := hex_run_nonempty run hbad
  have hc := ahead_cur g x _ ha
  rw [step_hex grow g (by rw [hc]; exact hx x (List.mem_cons_self _ _))]
  exact collectHexLoop_bad grow g.ln g.col 4 0 g _ rest ha hx hy
    (by rcases hbad with h | h
        · exact Or.inl h
        · exact Or.inr (Or.inl h))

/-- The `#` production on a malformed run. -/
theorem step_lit_bad (grow : Grow) (g : Generator) (run rest : List Nat)
    (ha : g.ahead = 35 :: (run ++ rest)) (hx : ∀ x ∈ run, isHex x = true)
    (hy : ∀ y ∈ rest.head?, isHex y = false) (hbad : run.length % 2 = 1 ∨ 8 < run.length) :
    (step grow g).1.err = some ⟨g.ln, g.col, .invalidNumber⟩ := by
  obtain ⟨x, r, rfl⟩ := hex_run_nonempty run hbad
  have h1 := ahead_cons_cons g 35 x (r ++ rest) ha
  rw [step_lit grow g h1.2.1]
  have hcol := collectHexLoop_bad grow g.ln g.col 4 0 (g.byte.push grow [inLit]) _ rest
    (by rw [push_ahead, byte_ahead g h1.1, ha]; rfl) hx hy
    (by rcases hbad with h | h
        · exact Or.inl h
        · exact Or.inr (Or.inl h))
  unfold stepLit
  dsimp only
  split
  · rw [modifyAt_err]; exact hcol
  · exact hcol

/-- The `@` production on a name that the label table already holds. -/
theorem step_def_known (g : Generator) (name : List Nat) (c : Nat) (t : List Nat)
    (ha : g.ahead = 64 :: (name ++ c :: t)) (hs : ∀ x ∈ name, isSymbol x = true)
    (hc : t = [] ∨ isSymbol c = false) (hdef : (mapGet g.labels name).isSome = true) :
    (stepDef g).1.err = some ⟨g.ln, g.col,
      if name = [] then .emptyLabelDefinition else .redefineLabel name⟩ := by
  have hx : name ++ c :: t = (name ++ c :: t).head (by simp) :: (name ++ c :: t).tail := by
    simp
  have h1 := ahead_cons_cons g 64 _ _ (by rw [ha, hx])
  have hrun := symLoop_run name (g.byte.rest.length + 1) [] g.byte c t rfl
    (by rw [byte_ahead g h1.1, ha]; rfl) hs hc (by
      have : g.byte.rest.length = name.length + 1 + t.length - 1 - 1 := by
        rw [byte_rest, h1.2.2.2]; simp
      omega)
  unfold stepDef
  dsimp only
  rw [hrun.1, hrun.2.2.labels, byte_labels]
  simp only [List.nil_append]
  by_cases hn : name = []
  · subst hn; simp
  · have : name.length ≠ 0 := by simpa using hn
    simp [this, hdef, hn]

/-! ## Label resolution -/

theorem window_getElem? (buf : List Nat) (i k : Nat) :
    (window buf i)[k]? = if k < 4 then buf[i + k]? else none := by
  unfold window
  rw [List.getElem?_take, List.getElem?_drop]

theorem putUint32_length (buf : List Nat) (idx v : Nat) :
    (putUint32 buf idx v).length = buf.length := by
  simp [putUint32]

theorem putUint32_getElem? (buf : List Nat) (idx v k : Nat) :
    (putUint32 buf idx v)[k]? =
      if k = idx + 3 then (if k < buf.length then some (v % 256) else none)
      else if k = idx + 2 then (if k < buf.length then some (v >>> 8 % 256) else none)
      else if k = idx + 1 then (if k < buf.length then some (v >>> 16 % 256) else none)
      else if k = idx then (if k < buf.length then some (v >>> 24 % 256) else none)
      else buf[k]? := by
  unfold putUint32
  simp only [List.getElem?_set, List.length_set]
  by_cases h3 : k = idx + 3
  · subst h3; simp
  by_cases h2 : k = idx + 2
  · subst h2; simp
  by_cases h1 : k = idx + 1
  · subst h1; simp
  by_cases h0 : k = idx
  · subst h0; simp
  · simp [h3, h2, h1, h0, Ne.symm h3, Ne.symm h2, Ne.symm h1, Ne.symm h0]

theorem putUint32_window_same (buf : List Nat) (idx v : Nat) (h : idx + 4 ≤ buf.length) :
    window (putUint32 buf idx v) idx = beBytes v := by
  apply List.ext_getElem?
  intro k
  rw [window_getElem?, putUint32_getElem?]
  unfold beBytes
  match k with
  | 0 => simp; omega
  | 1 => simp; omega
  | 2 => simp; omega
  | 3 => simp; omega
  | k + 4 => simp

theorem putUint32_window_apart (buf : List Nat) (i j v : Nat) (h : i + 4 ≤ j ∨ j + 4 ≤ i) :
    window (putUint32 buf j v) i = window buf i := by
  apply List.ext_getElem?
  intro k
  rw [window_getElem?, window_getElem?, putUint32_getElem?]
  by_cases hk : k < 4
  · have h3 : i + k ≠ j + 3 := by omega
    have h2 : i + k ≠ j + 2 := by omega
    have h1 : i + k ≠ j + 1 := by omega
    have h0 : i + k ≠ j := by omega
    simp [hk, h3, h2, h1, h0]
  · simp [hk]

theorem patchSites_length (pos : Nat) : ∀ (res : List Nat) (buf : List Nat),
    (patchSites pos buf res).length = buf.length
  | [], _ => rfl
  | j :: r, buf => by
    unfold patchSites
    rw [List.foldl_cons]
    exact (patchSites_length pos r _).trans (putUint32_length _ _ _)

/-- Patching sites that all stay clear of offset `i` leaves the window at `i`. -/
theorem patchSites_apart (pos i : Nat) : ∀ (res : List Nat) (buf : List Nat),
    (∀ j ∈ res, i + 4 ≤ j ∨ j + 4 ≤ i) → window (patchSites pos buf res) i = window buf i
  | [], _, _ => rfl
  | j :: r, buf, h => by
    unfold patchSites
    rw [List.foldl_cons]
    have ih := patchSites_apart pos i r (putUint32 buf j (address buf.length pos))
      (fun x hx => h x (List.mem_cons_of_mem _ hx))
    unfold patchSites at ih
    rw [ih]
    exact putUint32_window_apart _ _ _ _ (h j (List.mem_cons_self _ _))

/-- Patching a list of sites that holds `i`, every other one clear of `i`,
leaves the address of the label in the window at `i`. -/
theorem patchSites_hit (pos i : Nat) : ∀ (res : List Nat) (buf : List Nat),
    (∀ j ∈ res, j = i ∨ i + 4 ≤ j ∨ j + 4 ≤ i) → i + 4 ≤ buf.length →
    (i ∈ res ∨ window buf i = beBytes (address buf.length pos)) →
    window (patchSites pos buf res) i = beBytes (address buf.length pos)
  | [], _, _, _, h => by
    rcases h with h | h
    · simp at h
    · exact h
  | j :: r, buf, hall, hlen, h => by
    unfold patchSites
    rw [List.foldl_cons]
    have hl := putUint32_length buf j (address buf.length pos)
    have ih := patchSites_hit pos i r (putUint32 buf j (address buf.length pos))
      (fun x hx => hall x (List.mem_cons_of_mem _ hx)) (by rw [hl]; exact hlen)
    unfold patchSites at ih
    rw [hl] at ih
    apply ih
    rcases hall j (List.mem_cons_self _ _) with hj | hj
    · subst hj
      exact Or.inr (putUint32_window_same _ _ _ hlen)
    · rw [putUint32_window_apart _ _ _ _ hj]
      rcases h with h | h
      · rcases List.mem_cons.1 h with h | h
        · omega
        · exact Or.inl h
      · exact Or.inr h

theorem mapGet_mem {β : Type} : ∀ (m : List (List Nat × β)) (k : List Nat) (v : β),
    mapGet m k = some v → (k, v) ∈ m
  | [], _, _, h => by simp [mapGet] at h
  | (k1, v1) :: t, k, v, h => by
    unfold mapGet at h
    split at h
    · rename_i hk
      simp only [Option.some.injEq] at h
      subst hk; subst h
      exact List.mem_cons_self _ _
    · exact List.mem_cons_of_mem _ (mapGet_mem t k v h)

theorem mapSet_mem {β : Type} : ∀ (m : List (List Nat × β)) (k : List Nat) (v : β)
    (e : List Nat × β), e ∈ mapSet m k v → e = (k, v) ∨ e ∈ m
  | [], k, v, e, h => by
    left; simpa [mapSet] using h
  | (k1, v1) :: t, k, v, e, h => by
    unfold mapSet at h
    split at h
    · rcases List.mem_cons.1 h with h | h
      · exact Or.inl h
      · exact Or.inr (List.mem_cons_of_mem _ h)
    · rcases List.mem_cons.1 h with h | h
      · exact Or.inr (h ▸ List.mem_cons_self _ _)
      · rcases mapSet_mem t k v e h with h | h
        · exact Or.inl h
        · exact Or.inr (List.mem_cons_of_mem _ h)

theorem mapSet_keys {β : Type} : ∀ (m : List (List Nat × β)) (k : List Nat) (v : β)
    (x : List Nat), x ∈ (mapSet m k v).map Prod.fst → x = k ∨ x ∈ m.map Prod.fst
  | m, k, v, x, h => by
    obtain ⟨e, he, rfl⟩ := List.mem_map.1 h
    rcases mapSet_mem m k v e he with h | h
    · left; rw [h]
    · right; exact List.mem_map.2 ⟨e, h, rfl⟩

theorem mapSet_nodup {β : Type} : ∀ (m : List (List Nat × β)) (k : List Nat) (v : β),
    (m.map Prod.fst).Nodup → ((mapSet m k v).map Prod.fst).Nodup
  | [], k, v, _ => by simp [mapSet]
  | (k1, v1) :: t, k, v, h => by
    unfold mapSet
    split
    · rename_i hk
      subst hk
      simpa using h
    · rename_i hk
      rw [List.map_cons, List.nodup_cons] at h ⊢
      refine ⟨?_, mapSet_nodup t k v h.2⟩
      intro hin
      rcases mapSet_keys t k v k1 hin with h1 | h1
      · exact hk h1
      · exact h.1 h1

theorem resolveLabels_length (resols : List (List Nat × List Nat)) :
    ∀ (ls : List (List Nat × Nat)) (buf : List Nat),
    (resolveLabels resols ls buf).length = buf.length
  | [], _ => rfl
  | e :: tl, buf => by
    unfold resolveLabels
    rw [List.foldl_cons]
    have ih := resolveLabels_length resols tl
    unfold resolveLabels at ih
    rw [ih]
    split
    · exact patchSites_length _ _ _
    · rfl

/-- Labels other than `name` do not touch a site recorded for `name`. -/
theorem resolveLabels_other (resols : List (List Nat × List Nat)) (name : List Nat)
    (sites : List Nat) (i : Nat) (hs : (name, sites) ∈ resols) (hi : i ∈ sites)
    (hap : ∀ e1 ∈ resols, ∀ e2 ∈ resols, ∀ i ∈ e1.2, ∀ j ∈ e2.2,
      (i = j ∧ e1.1 = e2.1) ∨ i + 4 ≤ j ∨ j + 4 ≤ i) :
    ∀ (ls : List (List Nat × Nat)) (buf : List Nat), name ∉ ls.map Prod.fst →
    window (resolveLabels resols ls buf) i = window buf i
  | [], _, _ => rfl
  | e :: tl, buf, hn => by
    rw [List.map_cons, List.mem_cons, not_or] at hn
    unfold resolveLabels
    rw [List.foldl_cons]
    have ih := resolveLabels_other resols name sites i hs hi hap tl
    unfold resolveLabels at ih
    rw [ih _ hn.2]
    split
    · rename_i res hres
      apply patchSites_apart
      intro j hj
      rcases hap _ hs _ (mapGet_mem _ _ _ hres) i hi j hj with h | h
      · exact absurd h.2 hn.1
      · exact h
    · rfl

/-- The resolution loop leaves, at every site recorded for a defined label,
the address of that label. -/
theorem resolveLabels_site (resols : List (List Nat × List Nat)) (name : List Nat)
    (sites : List Nat) (i p : Nat) (hs : mapGet resols name = some sites) (hi : i ∈ sites)
    (hap : ∀ e1 ∈ resols, ∀ e2 ∈ resols, ∀ i ∈ e1.2, ∀ j ∈ e2.2,
      (i = j ∧ e1.1 = e2.1) ∨ i + 4 ≤ j ∨ j + 4 ≤ i) :
    ∀ (ls : List (List Nat × Nat)) (buf : List Nat), (ls.map Prod.fst).Nodup →
    (name, p) ∈ ls → i + 4 ≤ buf.length →
    window (resolveLabels resols ls buf) i = beBytes (address buf.length p)
  | [], _, _, hm, _ => by simp at hm
  | e :: tl, buf, hnd, hm, hlen => by
    rw [List.map_cons, List.nodup_cons] at hnd
    have hmem := mapGet_mem _ _ _ hs
    unfold resolveLabels
    rw [List.foldl_cons]
    by_cases hname : e.1 = name
    · have hp : e.2 = p := by
        rcases List.mem_cons.1 hm with h | h
        · rw [← h]
        · exfalso
          apply hnd.1
          rw [hname]
          exact List.mem_map.2 ⟨_, h, rfl⟩
      have hother := resolveLabels_other resols name sites i hmem hi hap tl
      unfold resolveLabels at hother
      rw [hother _ (by rw [← hname]; exact hnd.1), hname, hs, hp]
      apply patchSites_hit _ _ _ _ _ hlen (Or.inl hi)
      intro j hj
      rcases hap _ hmem _ hmem j hj i hi with h | h | h
      · exact Or.inl h.1
      · exact Or.inr (Or.inr h)
      · exact Or.inr (Or.inl h)
    · have hm2 : (name, p) ∈ tl := by
        rcases List.mem_cons.1 hm with h | h
        · exact absurd (by rw [← h]) hname
        · exact h
      have ih := resolveLabels_site resols name sites i p hs hi hap tl
      unfold resolveLabels at ih
      split
      · rename_i res hres
        have hl := patchSites_length e.2 res buf
        rw [ih _ hnd.2 hm2 (by rw [hl]; exact hlen), hl]
      · exact ih _ hnd.2 hm2 hlen

/-! ## The invariant of the scan loop -/

theorem Inv.of_frame {g1 g2 : Generator} (h : Inv g1) (f : Frame g1 g2) : Inv g2 := by
  refine ⟨by rw [f.labels]; exact h.keys, ?_, ?_, by rw [f.resols]; exact h.apart⟩
  · intro e he
    rw [f.labels] at he
    exact le_trans (h.offs e he) f.len
  · intro e he i hi
    rw [f.resols] at he
    exact le_trans (h.bound e he i hi) f.len

theorem Inv_New (src : List Nat) : Inv (New src) :=
  ⟨by simp [New_labels], by simp [New_labels], by simp [New_resols], by simp [New_resols]⟩

theorem stepComment_frame (g : Generator) : Frame g (stepComment g).1 := by
  unfold stepComment
  dsimp only
  refine Frame.trans (commentLoop_frame (g.rest.length + 1) g) ?_
  split
  · exact (frame_setErr _ _).trans (frame_byte _)
  · exact frame_byte _

theorem stepString_frame (grow : Grow) (g : Generator) : Frame g (stepString grow g).1 := by
  unfold stepString
  dsimp only
  have h := (frame_byte g).trans (strLoop_frame grow (g.byte.rest.length + 1) 0 g.byte)
  split
  · exact h.trans (frame_setErr _ _)
  · exact h

theorem stepLit_frame (grow : Grow) (g : Generator) : Frame g (stepLit grow g).1 := by
  unfold stepLit
  dsimp only
  have h := ((frame_byte g).trans (frame_push grow g.byte [inLit])).trans
    (collectHex_frame grow g.ln g.col (g.byte.push grow [inLit]))
  split
  · exact h.trans (frame_modifyAt _ _ _)
  · exact h

theorem stepMnemonic_frame (grow : Grow) (g : Generator) :
    Frame g (stepMnemonic grow g).1 := by
  unfold stepMnemonic
  dsimp only
  refine Frame.trans (symLoop_frame (g.rest.length + 1) [] g) ?_
  refine Frame.trans (afterR_frame _) ?_
  exact Frame.trans (afterSize_frame _) (emitIns_frame grow _ _ _ _ _ _)

theorem stepDef_inv (g : Generator) (h : Inv g) : Inv (stepDef g).1 := by
  have f := (frame_byte g).trans (symLoop_frame (g.byte.rest.length + 1) [] g.byte)
  have h2 := h.of_frame f
  unfold stepDef
  dsimp only
  split
  · exact h2.of_frame (frame_setErr _ _)
  split
  · exact h2.of_frame (frame_setErr _ _)
  · refine ⟨mapSet_nodup _ _ _ h2.keys, ?_, h2.bound, h2.apart⟩
    intro e he
    rcases mapSet_mem _ _ _ e he with h3 | h3
    · rw [h3]; exact le_refl _
    · exact h2.offs e h3

theorem stepRef_inv (grow : Grow) (g : Generator) (h : Inv g) : Inv (stepRef grow g).1 := by
  have f0 := (frame_byte g).trans (symLoop_frame (g.byte.rest.length + 1) [] g.byte)
  unfold stepRef
  dsimp only
  generalize hsym : (symLoop (g.byte.rest.length + 1) [] g.byte).1 = sym
  generalize hg2 : (if sym.length = 0 then
    (symLoop (g.byte.rest.length + 1) [] g.byte).2.setErr
      ⟨g.ln, g.col, .emptyLabelLiteral⟩
    else (symLoop (g.byte.rest.length + 1) [] g.byte).2) = g2
  have f : Frame g g2 := by
    rw [← hg2]
    split
    · exact f0.trans (frame_setErr _ _)
    · exact f0
  have h2 := h.of_frame f
  simp only [push_resols, push_buf, List.length_append, List.length_cons, List.length_nil]
  -- every site of the new table is an old site under the same name, or the new one
  have key : ∀ e ∈ mapSet g2.resols sym
      ((mapGet g2.resols sym).getD [] ++ [g2.buf.length + (0 + 1 + 1 + 1 + 1 + 1) - 4]),
      ∀ i ∈ e.2, (∃ e0 ∈ g2.resols, e0.1 = e.1 ∧ i ∈ e0.2) ∨
        (i = g2.buf.length + 1 ∧ e.1 = sym) := by
    intro e he i hi
    rcases mapSet_mem _ _ _ e he with h1 | h1
    · subst h1
      rcases List.mem_append.1 hi with hi | hi
      · left
        cases hm : mapGet g2.resols sym with
        | none => simp [hm] at hi
        | some old =>
          rw [hm] at hi
          exact ⟨_, mapGet_mem _ _ _ hm, rfl, hi⟩
      · right
        simp only [List.mem_singleton] at hi
        exact ⟨by omega, rfl⟩
    · exact Or.inl ⟨e, h1, rfl, hi⟩
  refine ⟨h2.keys, ?_, ?_, ?_⟩
  · intro e he
    have := h2.offs e he
    simp only [setResols_buf, push_buf, List.length_append]
    omega
  · intro e he i hi
    simp only [setResols_resols] at he
    simp only [setResols_buf, push_buf, List.length_append, List.length_cons,
      List.length_nil]
    rcases key e he i hi with ⟨e0, he0, _, hi0⟩ | ⟨hi0, _⟩
    · have := h2.bound e0 he0 i hi0
      omega
    · omega
  · intro e1 he1 e2 he2 i hi j hj
    simp only [setResols_resols] at he1 he2
    rcases key e1 he1 i hi with ⟨a, ha, hae, hia⟩ | ⟨hi0, hn1⟩
    · rcases key e2 he2 j hj with ⟨b, hb, hbe, hjb⟩ | ⟨hj0, _⟩
      · rcases h2.apart a ha b hb i hia j hjb with hh | hh
        · exact Or.inl ⟨hh.1, by rw [← hae, ← hbe]; exact hh.2⟩
        · exact Or.inr hh
      · have := h2.bound a ha i hia
        right; left; omega
    · rcases key e2 he2 j hj with ⟨b, hb, _, hjb⟩ | ⟨hj0, hn2⟩
      · have := h2.bound b hb j hjb
        right; right; omega
      · exact Or.inl ⟨by omega, by rw [hn1, hn2]⟩

theorem step_inv (grow : Grow) (g : Generator) (h : Inv g) : Inv (step grow g).1 := by
  unfold step
  split
  · exact h.of_frame (stepComment_frame g)
  split
  · exact stepRef_inv grow g h
  split
  · exact stepDef_inv g h
  split
  · exact h.of_frame (stepString_frame grow g)
  split
  · exact h.of_frame (stepLit_frame grow g)
  split
  · exact h.of_frame (frame_byte g)
  split
  · exact h.of_frame (collectHex_frame grow g.ln g.col g)
  split
  · exact h.of_frame (stepMnemonic_frame grow g)
  · exact h.of_frame (frame_setErr _ _)

theorem scan_inv (grow : Grow) : ∀ (n : Nat) (g : Generator) (r : Generator × Bool),
    Inv g → scan grow n g = some r → Inv r.1
  | 0, _, _, _, h => by simp [scan] at h
  | n + 1, g, r, hi, h => by
    revert h
    unfold scan
    dsimp only
    split
    · intro h
      simp only [Option.some.injEq] at h
      rw [← h]
      exact step_inv grow g hi
    · split
      · intro h
        simp only [Option.some.injEq] at h
        rw [← h]
        exact step_inv grow g hi
      · intro h
        exact scan_inv grow n _ r (step_inv grow g hi) h

/-- A scan loop that ended by `return` left an error behind. -/
theorem scan_ret_err (grow : Grow) : ∀ (n : Nat) (g : Generator) (r : Generator × Bool),
    scan grow n g = some r → r.2 = true → r.1.err.isSome = true
  | 0, _, _, h, _ => by simp [scan] at h
  | n + 1, g, r, h, hr => by
    revert h
    unfold scan
    dsimp only
    split
    · intro h
      simp only [Option.some.injEq] at h
      rw [← h] at hr ⊢
      exact step_ret_err grow g hr
    · split
      · intro h
        simp only [Option.some.injEq] at h
        rw [← h] at hr ⊢
        exact step_ret_err grow g hr
      · intro h
        exact scan_ret_err grow n _ r h hr

/-! ## `collectHex` on a well-formed run -/

theorem push_cap (grow : Grow) (g : Generator) (bs : List Nat) :
    (g.push grow bs).cap =
      if g.buf.length + bs.length ≤ g.cap then g.cap else grow g.cap (g.buf.length + bs.length) :=
  rfl

theorem push_alloc (grow : Grow) (g : Generator) (bs : List Nat) :
    (g.push grow bs).alloc =
      if g.buf.length + bs.length ≤ g.cap then g.alloc else g.alloc + 1 :=
  rfl

theorem modify_last (l : List Nat) (a : Nat) (f : Nat → Nat) :
    (l ++ [a]).modify f ((l ++ [a]).length - 1) = l ++ [f a] := by
  induction l with
  | nil => rfl
  | cons x l ih =>
    simp only [List.cons_append, List.length_cons, Nat.add_sub_cancel] at ih ⊢
    have : (l ++ [a]).length = ((l ++ [a]).length - 1) + 1 := by simp
    rw [this, List.modify_succ_cons, ih]

theorem packPairs_length : ∀ (m : Nat) (run : List Nat), run.length = 2 * m →
    (packPairs run).length = m
  | 0, run, h => by
    have : run = [] := List.length_eq_zero.1 (by omega)
    subst this; rfl
  | m + 1, run, h => by
    match run, h with
    | x :: y :: r, h =>
      simp only [packPairs, List.length_cons]
      rw [packPairs_length m r (by simp only [List.length_cons] at h; omega)]

theorem appended_refl (g : Generator) (c : Nat) (t : List Nat) (ha : g.ahead = c :: t)
    (he : g.err = none) : Appended g g [] c t :=
  ⟨by simp, ha, he, rfl, rfl, fun _ => ⟨rfl, rfl⟩, fun h => absurd rfl h, le_refl _⟩

/-- One byte appended with `append`, then more bytes appended from there. -/
theorem appended_cons (grow : Grow) (g g1 r : Generator) (b : Nat) (bs : List Nat) (c : Nat)
    (t : List Nat) (hb : g1.buf = g.buf ++ [b]) (hc : g1.cap = (g.push grow [b]).cap)
    (hal : g1.alloc = (g.push grow [b]).alloc) (hl : g1.labels = g.labels)
    (hr : g1.resols = g.resols) (h : Appended g1 r bs c t) : Appended g r (b :: bs) c t := by
  have hfits := h.fits
  have hmoved := h.moved
  have hstays := h.stays
  rw [hb, hc, hal] at hfits
  rw [hb, hc, hal] at hmoved
  rw [hal] at hstays
  simp only [push_cap, push_alloc, List.length_append, List.length_singleton] at hfits hmoved hstays
  refine ⟨by rw [h.buf, hb]; simp, h.ahead, h.err, h.labels.trans hl, h.resols.trans hr,
    ?_, ?_, ?_⟩
  · intro hfit
    simp only [List.length_cons] at hfit
    rw [if_pos (by omega), if_pos (by omega)] at hfits
    exact hfits (by omega)
  · intro _ hmv
    simp only [List.length_cons] at hmv
    by_cases h0 : g.buf.length + 1 ≤ g.cap
    · rw [if_pos h0] at hmoved
      rw [if_pos h0] at hmoved
      apply hmoved
      · intro hnil
        rw [hnil] at hmv
        simp only [List.length_nil] at hmv
        omega
      · omega
    · rw [if_neg h0] at hstays
      omega
  · split at hstays <;> omega

/-- The loop of `collectHex` on a run of `m` pairs of hex digits, `m` not more
than the `k` iterations left, stopped by a byte `c` that is not a hex digit:
it returns `i + m` and leaves the packed bytes behind. -/
theorem collectHexLoop_good (grow : Grow) (ln col : Nat) : ∀ (m k i : Nat) (g : Generator)
    (run : List Nat) (c : Nat) (t : List Nat), run.length = 2 * m → m ≤ k →
    (∀ x ∈ run, isHex x = true) → isHex c = false → g.ahead = run ++ c :: t →
    g.err = none →
    (collectHexLoop grow ln col k i g).2 = i + m ∧
      Appended g (collectHexLoop grow ln col k i g).1 (packPairs run) c t
  | 0, k, i, g, run, c, t, hl, _, _, hc, ha, he => by
    have : run = [] := List.length_eq_zero.1 (by omega)
    subst this
    have hcur := ahead_cur g c t ha
    have hres : collectHexLoop grow ln col k i g = (g, i) := by
      cases k <;> simp [collectHexLoop, hexTail, hcur, hc]
    rw [hres]
    exact ⟨rfl, appended_refl g c t ha he⟩
  | m + 1, 0, _, _, _, _, _, _, hk, _, _, _, _ => absurd hk (by omega)
  | m + 1, k + 1, i, g, run, c, t, hl, hk, hx, hc, ha, he => by
    match run, hl, hx, ha with
    | x :: y :: r, hl, hx, ha =>
      have h1 := ahead_cons_cons g x y (r ++ c :: t) ha
      have hxh := hx x (List.mem_cons_self _ _)
      have hyh := hx y (by simp)
      have hcont : ((g.push grow [fromHex x]).byte.end_ ||
          !isHex (g.push grow [fromHex x]).byte.cur) = false := by
        simp [Generator.end_, h1.1, h1.2.2.1, h1.2.2.2, hyh]
      have e1 : (g.push grow [fromHex x]).byte.eof = false := by
        simp [h1.1, h1.2.2.2]
      have a1 : (g.push grow [fromHex x]).byte.ahead = y :: (r ++ c :: t) := by
        rw [byte_ahead _ (by simpa using h1.1), push_ahead, ha]; rfl
      have ih := collectHexLoop_good grow ln col m k (i + 1)
        (((g.push grow [fromHex x]).byte.modifyAt ((g.push grow [fromHex x]).byte.buf.length - 1)
          (fun b => (b <<< 4) % 256 ||| fromHex (g.push grow [fromHex x]).byte.cur)).byte)
        r c t (by simp only [List.length_cons] at hl; omega) (by omega)
        (fun z hz => hx z (by simp [hz])) hc
        (by rw [modifyAt_byte, modifyAt_ahead, byte_ahead _ e1, a1]; rfl) rfl
      unfold collectHexLoop
      rw [h1.2.1, if_pos hxh]
      dsimp only
      rw [hcont]
      simp only [Bool.false_eq_true, if_false]
      obtain ⟨ih1, ih2⟩ := ih
      refine ⟨by rw [ih1]; omega, ?_⟩
      have hb : ((g.push grow [fromHex x]).byte.modifyAt
          ((g.push grow [fromHex x]).byte.buf.length - 1)
          (fun b => (b <<< 4) % 256 ||| fromHex (g.push grow [fromHex x]).byte.cur)).byte.buf =
          g.buf ++ [(fromHex x <<< 4) % 256 ||| fromHex y] := by
        simp only [modifyAt_byte, modifyAt_buf, byte_buf, push_buf, byte_cur, push_next, h1.2.2.1]
        exact modify_last g.buf (fromHex x) _
      exact appended_cons grow g _ _ _ _ c t hb rfl rfl rfl rfl ih2

theorem modify_mid (l : List Nat) (a : Nat) (r : List Nat) (f : Nat → Nat) :
    (l ++ a :: r).modify f l.length = l ++ f a :: r := by
  induction l with
  | nil => rfl
  | cons x l ih =>
    simp only [List.cons_append, List.length_cons]
    rw [List.modify_succ_cons, ih]

/-- The `#` production on a well-formed run of `m ≤ 4` pairs stopped by a byte
that is not a hex digit: it appends a control byte and the packed pairs, and
the control byte carries the size class `m - 1` exactly if the packed pairs
fit into the capacity the buffer has once the control byte is appended;
otherwise the control byte stays `LIT` without size bits. -/
theorem step_lit_good (grow : Grow) (g : Generator) (run : List Nat) (c : Nat)
    (t : List Nat) (m : Nat) (hl : run.length = 2 * m) (hm : m ≤ 4)
    (hx : ∀ x ∈ run, isHex x = true) (hc : isHex c = false)
    (ha : g.ahead = 35 :: (run ++ c :: t)) :
    (step grow g).2 = false ∧ (step grow g).1.err = none ∧ (step grow g).1.ahead = c :: t ∧
    (step grow g).1.labels = g.labels ∧ (step grow g).1.resols = g.resols ∧
    (step grow g).1.buf = g.buf ++
      (if g.buf.length + 1 + m ≤ (g.push grow [inLit]).cap then sizeConst (m - 1) else 0)
        :: packPairs run := by
  have hx2 : run ++ c :: t = (run ++ c :: t).head (by simp) :: (run ++ c :: t).tail := by
    simp
  have h1 := ahead_cons_cons g 35 _ _ (by rw [ha, hx2])
  have hgood := collectHexLoop_good grow g.ln g.col m 4 0 (g.byte.push grow [inLit]) run c t
    hl hm hx hc (by rw [push_ahead, byte_ahead g h1.1, ha]; rfl) rfl
  obtain ⟨hn, hd⟩ := hgood
  have hpl := packPairs_length m run hl
  rw [step_lit grow g h1.2.1]
  unfold stepLit collectHex
  dsimp only
  rw [hn]
  have hbuf := hd.buf
  simp only [push_buf, byte_buf] at hbuf
  have hfits := hd.fits
  have hmoved := hd.moved
  simp only [push_buf, byte_buf, List.length_append, List.length_singleton, hpl] at hfits hmoved
  have hcap : (g.byte.push grow [inLit]).cap = (g.push grow [inLit]).cap := rfl
  have hlen : (g.byte.push grow [inLit]).buf.length - 1 = g.buf.length := by simp
  rw [hlen]
  by_cases hfit : g.buf.length + 1 + m ≤ (g.push grow [inLit]).cap
  · rw [if_pos hfit, if_pos (hfits (by rw [hcap]; exact hfit)).1]
    refine ⟨rfl, by rw [modifyAt_err]; exact hd.err, by rw [modifyAt_ahead]; exact hd.ahead,
      by rw [modifyAt_labels, hd.labels]; rfl, by rw [modifyAt_resols, hd.resols]; rfl, ?_⟩
    rw [modifyAt_buf, hbuf, List.append_assoc, List.singleton_append, modify_mid]
    have : m = 0 ∨ m = 1 ∨ m = 2 ∨ m = 3 ∨ m = 4 := by omega
    rcases this with rfl | rfl | rfl | rfl | rfl <;> rfl
  · rw [if_neg hfit]
    by_cases hm0 : m = 0 ∨ m = 1
    · have hz : (if 0 + m = 2 then fun b => b ||| inS2
          else if 0 + m = 3 then fun b => b ||| inS3
          else if 0 + m = 4 then fun b => b ||| inS4
          else fun b => b &&& 0b10011111) inLit = 0 := by
        rcases hm0 with rfl | rfl <;> rfl
      split
      · refine ⟨rfl, by rw [modifyAt_err]; exact hd.err,
          by rw [modifyAt_ahead]; exact hd.ahead, by rw [modifyAt_labels, hd.labels]; rfl,
          by rw [modifyAt_resols, hd.resols]; rfl, ?_⟩
        rw [modifyAt_buf, hbuf, List.append_assoc, List.singleton_append, modify_mid, hz]
      · refine ⟨rfl, hd.err, hd.ahead, by rw [hd.labels]; rfl, by rw [hd.resols]; rfl, ?_⟩
        rw [hbuf, List.append_assoc, List.singleton_append]
        rfl
    · have hne : packPairs run ≠ [] := by
        intro h0
        rw [h0] at hpl
        simp at hpl
        omega
      have hlt := hmoved hne (by rw [hcap]; omega)
      rw [if_neg (by omega)]
      refine ⟨rfl, hd.err, hd.ahead, by rw [hd.labels]; rfl, by rw [hd.resols]; rfl, ?_⟩
      rw [hbuf, List.append_assoc, List.singleton_append]
      rfl

/-- The bare-hex production on a well-formed run of `1 ≤ m ≤ 4` pairs stopped
by a byte that is not a hex digit appends the packed pairs and nothing else. -/
theorem step_hex_good (grow : Grow) (g : Generator) (run : List Nat) (c : Nat)
    (t : List Nat) (m : Nat) (hl : run.length = 2 * m) (h1 : 1 ≤ m) (hm : m ≤ 4)
    (hx : ∀ x ∈ run, isHex x = true) (hc : isHex c = false)
    (ha : g.ahead = run ++ c :: t) (he : g.err = none) :
    (step grow g).2 = false ∧ (step grow g).1.err = none ∧ (step grow g).1.ahead = c :: t ∧
    (step grow g).1.labels = g.labels ∧ (step grow g).1.resols = g.resols ∧
    (step grow g).1.buf = g.buf ++ packPairs run := by
  have hgood := collectHexLoop_good grow g.ln g.col m 4 0 g run c t hl hm hx hc ha he
  match run, hl, hx, ha, hgood with
  | [], hl, _, _, _ => simp at hl; omega
  | x :: r, _, hx, ha, hgood =>
    have hcur := ahead_cur g x _ ha
    rw [step_hex grow g (by rw [hcur]; exact hx x (List.mem_cons_self _ _))]
    exact ⟨rfl, hgood.2.err, hgood.2.ahead, hgood.2.labels, hgood.2.resols, hgood.2.buf⟩

/-- A source that is a well-formed bare run followed by one byte that is not a
hex digit assembles to the packed pairs. -/
theorem assemble_hex_then_byte (grow : Grow) (run : List Nat) (c m : Nat)
    (hl : run.length = 2 * m) (h1 : 1 ≤ m) (hm : m ≤ 4) (hx : ∀ x ∈ run, isHex x = true)
    (hc : isHex c = false) : assemble grow (run ++ [c]) = some ⟨packPairs run, none⟩ := by
  have hs := step_hex_good grow (New (run ++ [c])) run c [] m hl h1 hm hx hc
    (New_ahead _ (by simp)) rfl
  obtain ⟨h2, herr, hah, hlab, _, hbuf⟩ := hs
  have hend : (step grow (New (run ++ [c]))).1.end_ = true := by
    simp [Generator.end_, (ahead_singleton _ _ hah).1]
  rw [assemble_of_step grow _ (Or.inr hend), h2]
  simp [deferred, resolve, herr, hlab, hbuf, New_labels, New_buf, resolveLabels_nil]

/-- A bare run of hex digits that ends the input is rejected, whatever its
length: `eof` is raised while the last digit is the current character. -/
theorem assemble_hex_at_end (grow : Grow) (run : List Nat) (hne : run ≠ [])
    (hx : ∀ x ∈ run, isHex x = true) :
    assemble grow run = some ⟨[], some ⟨1, 1, .invalidNumber⟩⟩ := by
  obtain ⟨x, r, rfl⟩ := List.exists_cons_of_ne_nil hne
  have ha := New_ahead (x :: r) hne
  have hxh := hx x (List.mem_cons_self _ _)
  have hnl : x ≠ 10 := by
    intro h10
    subst h10
    simp [isHex] at hxh
  have herr : (step grow (New (x :: r))).1.err =
      some ⟨(New (x :: r)).ln, (New (x :: r)).col, .invalidNumber⟩ := by
    rw [step_hex grow _ (by rw [ahead_cur _ x _ ha]; exact hxh)]
    exact collectHexLoop_bad grow _ _ 4 0 _ (x :: r) [] (by simpa using ha) hx (by simp)
      (Or.inr (Or.inr ⟨rfl, hne⟩))
  rw [New_col, New_ln _ (by simpa using hnl)] at herr
  exact assemble_of_reaches_err grow _ _ _ Reaches.start herr

/-! ## The string production, and the `#` production under any allocation policy -/

/-- The loop of the string production on a stream `pre ++ c :: t`, where `pre`
holds no whitespace and `c` stops the loop (it is the last byte of the input,
or it is whitespace): the loop appends exactly `pre` and counts its bytes. -/
theorem strLoop_run (grow : Grow) : ∀ (pre : List Nat) (f n0 : Nat) (g : Generator) (c : Nat)
    (t : List Nat), g.err = none → g.ahead = pre ++ c :: t →
    (∀ x ∈ pre, isSpace x = false) → (t = [] ∨ isSpace c = true) → pre.length ≤ f →
    (strLoop grow f n0 g).1 = n0 + pre.length ∧ Appended g (strLoop grow f n0 g).2 pre c t
  | [], f, n0, g, c, t, he, ha, _, hc, _ => by
    have hres : strLoop grow f n0 g = (n0, g) := by
      cases f with
      | zero => rfl
      | succ f =>
        have hcond : (!g.end_ && !isSpace g.cur) = false := by
          rcases hc with hc | hc
          · subst hc
            have := ahead_singleton g c (by simpa using ha)
            simp [Generator.end_, this.1]
          · have := ahead_cur g c t (by simpa using ha)
            simp [this, hc]
        unfold strLoop
        rw [hcond]
        rfl
    rw [hres]
    exact ⟨rfl, appended_refl g c t (by simpa using ha) he⟩
  | x :: pre, 0, _, _, _, _, _, _, _, _, hn => absurd hn (by simp)
  | x :: pre, f + 1, n0, g, c, t, he, ha, hs, hc, hn => by
    have hx : pre ++ c :: t = (pre ++ c :: t).head (by simp) :: (pre ++ c :: t).tail := by
      simp
    have h1 := ahead_cons_cons g x _ _ (by rw [ha, List.cons_append, hx])
    have hcond : (!g.end_ && !isSpace g.cur) = true := by
      simp [Generator.end_, he, h1.1, h1.2.1, hs x (List.mem_cons_self _ _)]
    have ih := strLoop_run grow pre f (n0 + 1) (g.push grow [g.cur]).byte c t rfl
      (by rw [byte_ahead _ (by simpa using h1.1), push_ahead, ha]; rfl)
      (fun y hy => hs y (List.mem_cons_of_mem _ hy)) hc (by simpa using hn)
    unfold strLoop
    rw [hcond]
    simp only [if_true]
    refine ⟨by rw [ih.1]; simp only [List.length_cons]; omega, ?_⟩
    refine appended_cons grow g (g.push grow [g.cur]).byte _ x pre c t ?_ ?_ ?_ rfl rfl ih.2
    · rw [byte_buf, push_buf, h1.2.1]
    · rw [byte_cap, h1.2.1]
    · rw [byte_alloc, h1.2.1]

theorem step_string (grow : Grow) (g : Generator) (h : g.cur = 39) :
    step grow g = stepString grow g := by
  unfold step
  simp [h]

theorem step_space (grow : Grow) (g : Generator) (h : isSpace g.cur = true) :
    step grow g = (g.byte, false) := by
  have h5 : g.cur ≠ 40 ∧ g.cur ≠ 59 ∧ g.cur ≠ 64 ∧ g.cur ≠ 39 ∧ g.cur ≠ 35 := by
    unfold isSpace at h
    simp only [Bool.or_eq_true, decide_eq_true_eq] at h
    omega
  unfold step
  simp [h5.1, h5.2.1, h5.2.2.1, h5.2.2.2.1, h5.2.2.2.2, h]

/-- Under every allocation policy there is a source on which `#1f2a` yields
the control byte `0x00`: a string literal that fills the buffer up to one
byte below the capacity `append` gives it first, and then `#1f2a `. -/
theorem lit_after_any_policy (grow : Grow) :
    ∃ n, assemble grow (litAfter n) = some ⟨List.replicate n 97 ++ [0x00, 0x1f, 0x2a], none⟩ := by
  have hrun : (str "1f2a").length = 2 * 2 := by decide
  have hhex : ∀ x ∈ str "1f2a", isHex x = true := by decide
  have hpack : packPairs (str "1f2a") = [0x1f, 0x2a] := by decide
  by_cases hc0 : grow 0 1 ≤ 1
  · refine ⟨0, ?_⟩
    have hlit : litAfter 0 = 35 :: (str "1f2a" ++ 32 :: []) := by decide
    rw [hlit]
    have ha := New_ahead (35 :: (str "1f2a" ++ 32 :: [])) (by simp)
    obtain ⟨h2, herr, hah, hlab, _, hbuf⟩ :=
      step_lit_good grow _ (str "1f2a") 32 [] 2 hrun (by omega) hhex (by decide) ha
    have hend : (step grow (New (35 :: (str "1f2a" ++ 32 :: [])))).1.end_ = true := by
      simp [Generator.end_, (ahead_singleton _ _ hah).1]
    rw [assemble_of_step grow _ (Or.inr hend), h2]
    have hcap : ¬ (0 + 1 + 2 ≤ if 0 + 1 ≤ 0 then 0 else grow 0 (0 + 1)) := by
      simp only [Nat.zero_add]
      rw [if_neg (by omega)]
      omega
    rw [New_buf] at hbuf
    simp only [push_cap, New_buf, List.length_nil, List.length_singleton] at hbuf
    have hcap0 : (New (35 :: (str "1f2a" ++ 32 :: []))).cap = 0 := rfl
    rw [hcap0, if_neg hcap, hpack] at hbuf
    simp [deferred, resolve, herr, hlab, hbuf, New_labels, resolveLabels_nil]
  · refine ⟨grow 0 1 - 1, ?_⟩
    obtain ⟨n, hn⟩ : ∃ n, grow 0 1 = n + 2 := ⟨grow 0 1 - 2, by omega⟩
    have hn1 : grow 0 1 - 1 = n + 1 := by omega
    rw [hn1]
    have hsrc : litAfter (n + 1) =
        39 :: (97 :: (List.replicate n 97 ++ 32 :: (35 :: (str "1f2a" ++ 32 :: [])))) := by
      unfold litAfter
      rw [if_neg (by omega), List.replicate_succ]
      rfl
    rw [hsrc]
    obtain ⟨src, hsd⟩ : ∃ src : List Nat, src = 39 :: (97 :: (List.replicate n 97 ++ 32 ::
      (35 :: (str "1f2a" ++ 32 :: [])))) := ⟨_, rfl⟩
    rw [← hsd]
    have ha0 : (New src).ahead = 39 :: (97 :: (List.replicate n 97 ++ 32 ::
        (35 :: (str "1f2a" ++ 32 :: [])))) := by
      rw [hsd]; exact New_ahead _ (by simp)
    have hr0 : Reaches grow src (New src) := Reaches.start
    have hb0 : (New src).buf = [] := rfl
    have hc0 : (New src).cap = 0 := rfl
    have hl0 : (New src).labels = [] := rfl
    generalize New src = g0 at ha0 hr0 hb0 hc0 hl0
    -- the string production: the first letter takes the capacity to `grow 0 1`
    have h0 := ahead_cons_cons g0 39 97 _ ha0
    have hfirst : strLoop grow (g0.byte.rest.length + 1) 0 g0.byte =
        strLoop grow g0.byte.rest.length (0 + 1) (g0.byte.push grow [97]).byte := by
      have hcond : (!g0.byte.end_ && !isSpace g0.byte.cur) = true := by
        simp [Generator.end_, h0.1, h0.2.2.1, h0.2.2.2, isSpace]
      have hcur : g0.byte.cur = 97 := by rw [byte_cur, h0.2.2.1]
      rw [← hcur]
      conv => lhs; unfold strLoop
      rw [hcond]
      rfl
    generalize hga : (g0.byte.push grow [97]).byte = ga at hfirst
    have hba : ga.buf = [97] := by rw [← hga, byte_buf, push_buf, byte_buf, hb0]; rfl
    have hca : ga.cap = n + 2 := by
      rw [← hga, byte_cap, push_cap, byte_buf, byte_cap, hb0, hc0]
      simp only [List.length_nil, List.length_singleton, Nat.zero_add]
      rw [if_neg (by omega), hn]
    have hla : ga.labels = [] := by rw [← hga, byte_labels, push_labels, byte_labels, hl0]
    have e0 : g0.byte.eof = false := by simp [h0.1, h0.2.2.2]
    have haa : ga.ahead = List.replicate n 97 ++ 32 :: (35 :: (str "1f2a" ++ 32 :: [])) := by
      rw [← hga, byte_ahead _ (by simpa using e0), push_ahead, byte_ahead g0 h0.1, ha0]
      rfl
    have hstr := strLoop_run grow (List.replicate n 97) g0.byte.rest.length (0 + 1)
      ga 32 (35 :: (str "1f2a" ++ 32 :: [])) (by rw [← hga]; rfl) haa
      (by
        intro x hx
        have : x = 97 := List.eq_of_mem_replicate hx
        subst this; decide)
      (Or.inr (by decide))
      (by
        rw [byte_rest, h0.2.2.2, List.length_tail]
        simp only [List.length_append, List.length_cons, List.length_replicate]
        omega)
    obtain ⟨hcnt, hap⟩ := hstr
    rw [← hfirst] at hcnt hap
    have hs1 : step grow g0 = ((strLoop grow (g0.byte.rest.length + 1) 0 g0.byte).2, false) := by
      rw [step_string grow g0 h0.2.1]
      unfold stepString
      dsimp only
      rw [if_neg (by rw [hcnt]; omega)]
    generalize hg1 : (strLoop grow (g0.byte.rest.length + 1) 0 g0.byte).2 = g1 at hap hs1
    have hb1 : g1.buf = 97 :: List.replicate n 97 := by rw [hap.buf, hba]; rfl
    have hc1 : g1.cap = n + 2 := by
      rw [(hap.fits (by rw [hba, hca]; simp; omega)).2, hca]
    have hl1 : g1.labels = [] := by rw [hap.labels, hla]
    have h1 := ahead_cons_cons g1 32 35 _ hap.ahead
    have hend1 : g1.end_ = false := by simp [Generator.end_, hap.err, h1.1]
    have hr1 : Reaches grow src g1 := by
      have := Reaches.next g0 hr0 (by rw [hs1]) (by rw [hs1]; exact hend1)
      rw [hs1] at this
      exact this
    -- the space
    have hs2 : step grow g1 = (g1.byte, false) :=
      step_space grow g1 (by rw [h1.2.1]; decide)
    have ha2 : g1.byte.ahead = 35 :: (str "1f2a" ++ 32 :: []) := by
      rw [byte_ahead g1 h1.1, hap.ahead]; rfl
    have hend2 : g1.byte.end_ = false := by
      have e2 := (ahead_cons_cons _ _ _ _ ha2).1
      unfold Generator.end_
      rw [e2, byte_err]
      rfl
    have hr2 : Reaches grow src g1.byte := by
      have := Reaches.next g1 hr1 (by rw [hs2]) (by rw [hs2]; exact hend2)
      rw [hs2] at this
      exact this
    -- the `#` production: the control byte fills the capacity
    obtain ⟨h2, herr, hah, hlab, _, hbuf⟩ :=
      step_lit_good grow g1.byte (str "1f2a") 32 [] 2 hrun (by omega) hhex (by decide) ha2
    have hend3 : (step grow g1.byte).1.end_ = true := by
      simp [Generator.end_, (ahead_singleton _ _ hah).1]
    have hfin := finalState_of_reaches grow src g1.byte hr2 1 _
      (scan_stop grow 0 g1.byte (Or.inr hend3))
    have hcapL : (g1.byte.push grow [inLit]).cap = n + 2 := by
      rw [push_cap, byte_buf, byte_cap, hb1, hc1]
      rw [if_pos (by
        simp only [List.length_cons, List.length_replicate, List.length_nil]
        omega)]
    rw [hcapL, byte_buf, hb1] at hbuf
    rw [if_neg (by
      simp only [List.length_cons, List.length_replicate]
      omega), hpack] at hbuf
    unfold assemble Generate
    rw [hfin, h2]
    simp [deferred, resolve, herr, hlab, hl1, hbuf, resolveLabels_nil, List.replicate_succ]

/-! ## The inner loops end by their condition, not by their fuel -/

theorem end_of_fuel_zero (g : Generator) (h : g.fuel ≤ 0) : g.end_ = true := by
  unfold Generator.fuel at h
  unfold Generator.end_
  cases he : g.eof
  · simp [he] at h
  · simp

theorem commentLoop_done : ∀ (n : Nat) (g : Generator), g.fuel ≤ n →
    (!(commentLoop n g).end_ && (commentLoop n g).cur != 41) = false
  | 0, g, h => by simp [commentLoop, end_of_fuel_zero g h]
  | n + 1, g, h => by
    unfold commentLoop
    split
    · exact commentLoop_done n g.byte (le_trans (byte_fuel g) (by omega))
    · rename_i hc
      simpa using hc

theorem symLoop_done : ∀ (n : Nat) (sb : List Nat) (g : Generator), g.fuel ≤ n →
    (!(symLoop n sb g).2.end_ && isSymbol (symLoop n sb g).2.cur) = false
  | 0, sb, g, h => by simp [symLoop, end_of_fuel_zero g h]
  | n + 1, sb, g, h => by
    unfold symLoop
    split
    · exact symLoop_done n _ g.byte (le_trans (byte_fuel g) (by omega))
    · rename_i hc
      simpa using hc

theorem strLoop_done (grow : Grow) : ∀ (f n : Nat) (g : Generator), g.fuel ≤ f →
    (!(strLoop grow f n g).2.end_ && !isSpace (strLoop grow f n g).2.cur) = false
  | 0, n, g, h => by simp [strLoop, end_of_fuel_zero g h]
  | f + 1, n, g, h => by
    unfold strLoop
    split
    · exact strLoop_done grow f _ _ (le_trans (byte_fuel _) (by rw [push_fuel]; omega))
    · rename_i hc
      simpa using hc

theorem mnemonics_ok : ∀ name ∈ mnemonics, (getIns name).ok = true := by decide

/-- The comment production never leaves an error behind and never returns:
its last statement is a call of `byte`, which overwrites `g.err`. -/
theorem stepComment_no_error (g : Generator) :
    (stepComment g).1.err = none ∧ (stepComment g).2 = false :=
  ⟨rfl, rfl⟩

/-- The mnemonic production never takes the return modifier: where the symbol
loop stops, the pass is at its end or the current character is not a symbol
character, and `r` is one. -/
theorem return_modifier_never_taken (g : Generator) :
    takesR (symLoop (g.rest.length + 1) [] g).2 = false := by
  have h := symLoop_done (g.rest.length + 1) [] g (fuel_le_rest g)
  unfold takesR
  cases he : (symLoop (g.rest.length + 1) [] g).2.end_
  · rw [he] at h
    simp only [Bool.not_false, Bool.true_and] at h ⊢
    apply decide_eq_false
    intro hc
    rw [hc] at h
    revert h
    decide
  · rfl

/-! ## The comment and string productions on well-formed text -/

/-- The comment loop on a stream `pre ++ ')' :: t` with no `)` in `pre` stops on
that `)` and touches nothing but the cursor. -/
theorem commentLoop_run : ∀ (pre : List Nat) (n : Nat) (g : Generator) (t : List Nat),
    g.err = none → g.ahead = pre ++ 41 :: t → (∀ x ∈ pre, x ≠ 41) → pre.length ≤ n →
    (commentLoop n g).ahead = 41 :: t ∧ Moved g (commentLoop n g)
  | [], n, g, t, he, ha, _, _ => by
    have hm : Moved g g := ⟨he, rfl, rfl, rfl, rfl, rfl⟩
    have hcur := ahead_cur g 41 t (by simpa using ha)
    have hres : commentLoop n g = g := by
      cases n with
      | zero => rfl
      | succ n =>
        unfold commentLoop
        simp [hcur]
    rw [hres]
    exact ⟨by simpa using ha, hm⟩
  | x :: pre, 0, _, _, _, _, _, hn => absurd hn (by simp)
  | x :: pre, n + 1, g, t, he, ha, hs, hn => by
    have hx : pre ++ 41 :: t = (pre ++ 41 :: t).head (by simp) :: (pre ++ 41 :: t).tail := by
      simp
    have h1 := ahead_cons_cons g x _ _ (by rw [ha, List.cons_append, hx])
    have hcond : (!g.end_ && g.cur != 41) = true := by
      simp [Generator.end_, he, h1.1, h1.2.1, hs x (List.mem_cons_self _ _)]
    have ih := commentLoop_run pre n g.byte t rfl
      (by rw [byte_ahead g h1.1, ha]; rfl)
      (fun y hy => hs y (List.mem_cons_of_mem _ hy)) (by simpa using hn)
    unfold commentLoop
    rw [hcond]
    simp only [if_true]
    exact ⟨ih.1, (moved_byte g).andThen ih.2⟩

theorem step_comment (grow : Grow) (g : Generator) (h : g.cur = 40) :
    step grow g = stepComment g := by
  unfold step
  simp [h]

theorem ahead_rest_length (g : Generator) (c : Nat) (l : List Nat) (hl : l ≠ [])
    (ha : g.ahead = c :: l) : g.rest.length + 1 = l.length := by
  obtain ⟨d, t, rfl⟩ := List.exists_cons_of_ne_nil hl
  rw [(ahead_cons_cons g c d t ha).2.2.2]
  simp

/-- The comment production on `( c )` with no `)` in `c`: the state after it. -/
theorem stepComment_run (g : Generator) (c t : List Nat) (hc : ∀ x ∈ c, x ≠ 41)
    (ha : g.ahead = 40 :: (c ++ 41 :: t)) (he : g.err = none) :
    (stepComment g).1.buf = g.buf ∧ (stepComment g).1.labels = g.labels ∧
    (stepComment g).1.resols = g.resols ∧ (stepComment g).1.cap = g.cap ∧
    (stepComment g).1.alloc = g.alloc ∧ (t ≠ [] → (stepComment g).1.ahead = t) ∧
    (t = [] → (stepComment g).1.eof = true) := by
  have hrun := commentLoop_run (40 :: c) (g.rest.length + 1) g t he ha
    (by
      intro x hx
      rcases List.mem_cons.1 hx with h | h
      · rw [h]; decide
      · exact hc x h)
    (by
      have := ahead_rest_length g 40 (c ++ 41 :: t) (by simp) ha
      simp only [List.length_cons, List.length_append] at this ⊢
      omega)
  obtain ⟨hah, hm⟩ := hrun
  have hcur := ahead_cur _ 41 t hah
  unfold stepComment
  dsimp only
  rw [if_neg (by simpa using hcur)]
  refine ⟨hm.buf, hm.labels, hm.resols, hm.cap, hm.alloc, ?_, ?_⟩
  · intro ht
    obtain ⟨d, r, rfl⟩ := List.exists_cons_of_ne_nil ht
    rw [byte_ahead _ (ahead_cons_cons _ 41 d r hah).1, hah]
    rfl
  · intro ht
    subst ht
    rw [byte_eof, (ahead_singleton _ 41 hah).1]
    rfl

/-- The string production on `' s w`, `s` free of whitespace and not empty,
`w` whitespace: the state after it. -/
theorem stepString_run (grow : Grow) (g : Generator) (s : List Nat) (w : Nat) (t : List Nat)
    (hne : s ≠ []) (hs : ∀ x ∈ s, isSpace x = false) (hw : isSpace w = true)
    (ha : g.ahead = 39 :: (s ++ w :: t)) :
    (stepString grow g).2 = false ∧ Appended g.byte (stepString grow g).1 s w t := by
  have hx : s ++ w :: t = (s ++ w :: t).head (by simp) :: (s ++ w :: t).tail := by simp
  have h1 := ahead_cons_cons g 39 _ _ (by rw [ha, hx])
  have hrun := strLoop_run grow s (g.byte.rest.length + 1) 0 g.byte w t rfl
    (by rw [byte_ahead g h1.1, ha]; rfl) hs (Or.inr hw)
    (by
      have := ahead_rest_length g 39 (s ++ w :: t) (by simp) ha
      rw [byte_rest, List.length_tail]
      simp only [List.length_append, List.length_cons] at this
      omega)
  have hlen : s.length ≠ 0 := by simpa using hne
  unfold stepString
  dsimp only
  rw [if_neg (by rw [hrun.1]; omega)]
  exact ⟨rfl, hrun.2⟩

/-- At the head of an iteration on a source of two bytes or more the cursor is
never on the last byte: end-of-input has not been seen. -/
theorem reaches_not_eof (grow : Grow) (src : List Nat) (g : Generator)
    (hr : Reaches grow src g) (h2 : 2 ≤ src.length) : g.eof = false := by
  cases hr with
  | start =>
    match src, h2 with
    | a :: b :: t, _ => rfl
  | next g0 _ _ hend => exact ((end_false_iff _).1 hend).2

/-- The loop of `collectHex` appends at most one byte per iteration. -/
theorem collectHexLoop_len (grow : Grow) (ln col : Nat) : ∀ (k i : Nat) (g : Generator),
    (collectHexLoop grow ln col k i g).1.buf.length ≤ g.buf.length + k
  | 0, i, g => by
    unfold collectHexLoop hexTail
    dsimp only
    split <;> simp
  | k + 1, i, g => by
    unfold collectHexLoop
    split
    · dsimp only
      split
      · simp
      · refine le_trans (collectHexLoop_len grow ln col k (i + 1) _) ?_
        simp
        omega
    · unfold hexTail
      dsimp only
      split <;> simp

/-- The `#` production appends the control byte and at most four more bytes. -/
theorem stepLit_len (grow : Grow) (g : Generator) :
    g.buf.length + 1 ≤ (stepLit grow g).1.buf.length ∧
    (stepLit grow g).1.buf.length ≤ g.buf.length + 5 := by
  have h1 := collectHexLoop_len grow g.ln g.col 4 0 (g.byte.push grow [inLit])
  have h2 := (collectHex_frame grow g.ln g.col (g.byte.push grow [inLit])).len
  unfold collectHex at h2
  simp only [push_buf, byte_buf, List.length_append, List.length_singleton] at h1 h2
  unfold stepLit collectHex
  dsimp only
  split
  · simp only [modifyAt_buf, List.length_modify]
    omega
  · omega

/-! ## Old bytes stay: no production rewrites what an earlier one appended -/

theorem keeps_refl (l : List Nat) : Keeps l l := ⟨le_refl _, fun _ _ => rfl⟩

theorem keeps_trans {a b c : List Nat} (h1 : Keeps a b) (h2 : Keeps b c) : Keeps a c :=
  ⟨le_trans h1.1 h2.1, fun k hk => (h2.2 k (lt_of_lt_of_le hk h1.1)).trans (h1.2 k hk)⟩

theorem keeps_append (l bs : List Nat) : Keeps l (l ++ bs) :=
  ⟨by simp, fun _ hk => List.getElem?_append_left hk⟩

theorem keeps_modify {l0 l : List Nat} (f : Nat → Nat) (i : Nat) (h : Keeps l0 l)
    (hi : l0.length ≤ i) : Keeps l0 (l.modify f i) := by
  refine ⟨by rw [List.length_modify]; exact h.1, ?_⟩
  intro k hk
  rw [List.getElem?_modify, ← h.2 k hk]
  have : i ≠ k := by omega
  cases l[k]? <;> simp [this]

theorem commentLoop_buf : ∀ (n : Nat) (g : Generator), (commentLoop n g).buf = g.buf
  | 0, _ => rfl
  | n + 1, g => by
    unfold commentLoop
    split
    · exact commentLoop_buf n g.byte
    · rfl

theorem symLoop_buf : ∀ (n : Nat) (sb : List Nat) (g : Generator),
    (symLoop n sb g).2.buf = g.buf
  | 0, _, _ => rfl
  | n + 1, sb, g => by
    unfold symLoop
    split
    · exact symLoop_buf n _ g.byte
    · rfl

theorem strLoop_keeps (grow : Grow) : ∀ (f n : Nat) (g : Generator),
    Keeps g.buf (strLoop grow f n g).2.buf
  | 0, _, g => keeps_refl _
  | f + 1, n, g => by
    unfold strLoop
    split
    · exact keeps_trans (keeps_append g.buf [g.cur])
        (strLoop_keeps grow f (n + 1) (g.push grow [g.cur]).byte)
    · exact keeps_refl _

theorem hexTail_buf (ln col i : Nat) (g : Generator) : (hexTail ln col i g).1.buf = g.buf := by
  unfold hexTail
  dsimp only
  split <;> rfl

theorem collectHexLoop_keeps (grow : Grow) (ln col : Nat) : ∀ (k i : Nat) (g : Generator),
    Keeps g.buf (collectHexLoop grow ln col k i g).1.buf
  | 0, i, g => by
    unfold collectHexLoop
    rw [hexTail_buf]
    exact keeps_refl _
  | k + 1, i, g => by
    unfold collectHexLoop
    split
    · dsimp only
      split
      · exact keeps_append g.buf [fromHex g.cur]
      · refine keeps_trans ?_ (collectHexLoop_keeps grow ln col k (i + 1) _)
        rw [modifyAt_byte, modifyAt_buf, byte_buf, push_buf]
        exact keeps_modify _ _ (keeps_append g.buf [fromHex g.cur]) (by simp)
    · rw [hexTail_buf]
      exact keeps_refl _

theorem stepLit_keeps (grow : Grow) (g : Generator) : Keeps g.buf (stepLit grow g).1.buf := by
  unfold stepLit collectHex
  dsimp only
  have h := keeps_trans (keeps_append g.buf [inLit])
    (collectHexLoop_keeps grow g.ln g.col 4 0 (g.byte.push grow [inLit]))
  split
  · rw [modifyAt_buf]
    exact keeps_modify _ _ h (by simp)
  · exact h

theorem afterR_buf (g : Generator) : (afterR g).buf = g.buf := by
  unfold afterR
  split <;> rfl

theorem afterSize_buf (g : Generator) : (afterSize g).buf = g.buf := by
  unfold afterSize
  split <;> rfl

theorem emitIns_keeps (grow : Grow) (ln col : Nat) (name : List Nat) (r : Bool) (s : Nat)
    (g : Generator) : Keeps g.buf (emitIns grow ln col name r s g).1.buf := by
  unfold emitIns
  dsimp only
  split
  · exact keeps_refl _
  split
  · exact keeps_refl _
  split
  · exact keeps_refl _
  · exact keeps_append _ _

theorem stepMnemonic_keeps (grow : Grow) (g : Generator) :
    Keeps g.buf (stepMnemonic grow g).1.buf := by
  unfold stepMnemonic
  dsimp only
  have h := emitIns_keeps grow g.ln g.col (symLoop (g.rest.length + 1) [] g).1
    (takesR (symLoop (g.rest.length + 1) [] g).2)
    (sizeMod (afterR (symLoop (g.rest.length + 1) [] g).2))
    (afterSize (afterR (symLoop (g.rest.length + 1) [] g).2))
  rw [afterSize_buf, afterR_buf, symLoop_buf] at h
  exact h

theorem stepComment_buf (g : Generator) : (stepComment g).1.buf = g.buf := by
  unfold stepComment
  dsimp only
  rw [byte_buf]
  split
  · rw [setErr_buf, commentLoop_buf]
  · rw [commentLoop_buf]

theorem stepDef_buf (g : Generator) : (stepDef g).1.buf = g.buf := by
  unfold stepDef
  dsimp only
  split
  · rw [setErr_buf, symLoop_buf, byte_buf]
  split
  · rw [setErr_buf, symLoop_buf, byte_buf]
  · rw [setLabels_buf, symLoop_buf, byte_buf]

theorem stepDef_resols (g : Generator) : (stepDef g).1.resols = g.resols := by
  have h := (symLoop_frame (g.byte.rest.length + 1) [] g.byte).resols
  unfold stepDef
  dsimp only
  split
  · rw [setErr_resols, h, byte_resols]
  split
  · rw [setErr_resols, h, byte_resols]
  · rw [setLabels_resols, h, byte_resols]

/-- The `;` production appends the five placeholder bytes and records the
offset of the second one under the name it has read. -/
theorem stepRef_eq (grow : Grow) (g : Generator) :
    (stepRef grow g).1.buf = g.buf ++ [0x60, 0, 0, 0, 0] ∧
    (stepRef grow g).1.resols =
      mapSet g.resols (symLoop (g.byte.rest.length + 1) [] g.byte).1
        ((mapGet g.resols (symLoop (g.byte.rest.length + 1) [] g.byte).1).getD [] ++
          [g.buf.length + 1]) := by
  have hb := symLoop_buf (g.byte.rest.length + 1) [] g.byte
  have hr := (symLoop_frame (g.byte.rest.length + 1) [] g.byte).resols
  rw [byte_buf] at hb
  rw [byte_resols] at hr
  unfold stepRef
  dsimp only
  rw [setResols_buf, setResols_resols, push_buf, push_resols]
  have hb2 : (if (symLoop (g.byte.rest.length + 1) [] g.byte).1.length = 0 then
      (symLoop (g.byte.rest.length + 1) [] g.byte).2.setErr
        ⟨g.ln, g.col, .emptyLabelLiteral⟩
      else (symLoop (g.byte.rest.length + 1) [] g.byte).2).buf = g.buf := by
    split
    · rw [setErr_buf, hb]
    · exact hb
  have hr2 : (if (symLoop (g.byte.rest.length + 1) [] g.byte).1.length = 0 then
      (symLoop (g.byte.rest.length + 1) [] g.byte).2.setErr
        ⟨g.ln, g.col, .emptyLabelLiteral⟩
      else (symLoop (g.byte.rest.length + 1) [] g.byte).2).resols = g.resols := by
    split
    · rw [setErr_resols, hr]
    · exact hr
  rw [hb2, hr2]
  refine ⟨rfl, ?_⟩
  simp only [List.length_append, List.length_cons, List.length_nil]
  have : g.buf.length + (0 + 1 + 1 + 1 + 1 + 1) - 4 = g.buf.length + 1 := by omega
  rw [this]

/-- Every iteration keeps the bytes the buffer held before it. -/
theorem step_keeps (grow : Grow) (g : Generator) : Keeps g.buf (step grow g).1.buf := by
  unfold step
  split
  · rw [stepComment_buf]; exact keeps_refl _
  split
  · rw [(stepRef_eq grow g).1]; exact keeps_append _ _
  split
  · rw [stepDef_buf]; exact keeps_refl _
  split
  · unfold stepString
    dsimp only
    have h := strLoop_keeps grow (g.byte.rest.length + 1) 0 g.byte
    rw [byte_buf] at h
    split
    · exact h
    · exact h
  split
  · exact stepLit_keeps grow g
  split
  · exact keeps_refl _
  split
  · exact collectHexLoop_keeps grow g.ln g.col 4 0 g
  split
  · exact stepMnemonic_keeps grow g
  · exact keeps_refl _

theorem placeholders_of_keeps {g1 g2 : Generator} (h : Placeholders g1)
    (hr : g2.resols = g1.resols) (hk : Keeps g1.buf g2.buf) : Placeholders g2 := by
  constructor
  · intro e he i hi
    rw [hr] at he
    obtain ⟨h1, h2⟩ := h.ctl e he i hi
    have hlt : i - 1 < g1.buf.length := by
      rcases List.getElem?_eq_some.1 h2 with ⟨hlt, _⟩
      exact hlt
    exact ⟨h1, by rw [hk.2 _ hlt]; exact h2⟩
  · intro e he i hi k hk4
    rw [hr] at he
    have h2 := h.zero e he i hi k hk4
    have hlt : i + k < g1.buf.length := by
      rcases List.getElem?_eq_some.1 h2 with ⟨hlt, _⟩
      exact hlt
    rw [hk.2 _ hlt]
    exact h2

theorem placeholders_New (src : List Nat) : Placeholders (New src) :=
  ⟨by simp [New_resols], by simp [New_resols]⟩

theorem stepRef_placeholders (grow : Grow) (g : Generator) (h : Placeholders g) :
    Placeholders (stepRef grow g).1 := by
  obtain ⟨hb, hr⟩ := stepRef_eq grow g
  generalize (symLoop (g.byte.rest.length + 1) [] g.byte).1 = sym at hr
  have hk : Keeps g.buf (g.buf ++ [0x60, 0, 0, 0, 0]) := keeps_append _ _
  have hold : Placeholders (g.push grow [0x60, 0, 0, 0, 0]) :=
    @placeholders_of_keeps g (g.push grow [0x60, 0, 0, 0, 0]) h rfl hk
  have key : ∀ e ∈ (stepRef grow g).1.resols, ∀ i ∈ e.2,
      (∃ e0 ∈ g.resols, i ∈ e0.2) ∨ i = g.buf.length + 1 := by
    intro e he i hi
    rw [hr] at he
    rcases mapSet_mem _ _ _ e he with h1 | h1
    · subst h1
      rcases List.mem_append.1 hi with hi | hi
      · left
        cases hm : mapGet g.resols sym with
        | none => simp [hm] at hi
        | some old =>
          rw [hm] at hi
          exact ⟨_, mapGet_mem _ _ _ hm, hi⟩
      · right
        simpa using hi
    · exact Or.inl ⟨e, h1, hi⟩
  constructor
  · intro e he i hi
    rw [hb]
    rcases key e he i hi with ⟨e0, he0, hi0⟩ | hnew
    · exact hold.ctl e0 he0 i hi0
    · subst hnew
      refine ⟨by omega, ?_⟩
      rw [Nat.add_sub_cancel, List.getElem?_append_right (le_refl _)]
      simp
  · intro e he i hi k hk4
    rw [hb]
    rcases key e he i hi with ⟨e0, he0, hi0⟩ | hnew
    · exact hold.zero e0 he0 i hi0 k hk4
    · subst hnew
      rw [List.getElem?_append_right (by omega)]
      have : g.buf.length + 1 + k - g.buf.length = k + 1 := by omega
      rw [this]
      match k, hk4 with
      | 0, _ => rfl
      | 1, _ => rfl
      | 2, _ => rfl
      | 3, _ => rfl

theorem step_resols_of_not_ref (grow : Grow) (g : Generator) (h : g.cur ≠ 59) :
    (step grow g).1.resols = g.resols := by
  unfold step
  split
  · exact (stepComment_frame g).resols
  split
  · exact stepDef_resols g
  split
  · exact (stepString_frame grow g).resols
  split
  · exact (stepLit_frame grow g).resols
  split
  · rfl
  split
  · exact (collectHex_frame grow g.ln g.col g).resols
  split
  · exact (stepMnemonic_frame grow g).resols
  · rfl

theorem step_ref (grow : Grow) (g : Generator) (h : g.cur = 59) :
    step grow g = stepRef grow g := by
  unfold step
  simp [h]

theorem step_placeholders (grow : Grow) (g : Generator) (h : Placeholders g) :
    Placeholders (step grow g).1 := by
  by_cases hc : g.cur = 59
  · rw [step_ref grow g hc]
    exact stepRef_placeholders grow g h
  · exact placeholders_of_keeps h (step_resols_of_not_ref grow g hc) (step_keeps grow g)

theorem scan_placeholders (grow : Grow) : ∀ (n : Nat) (g : Generator) (r : Generator × Bool),
    Placeholders g → scan grow n g = some r → Placeholders r.1
  | 0, _, _, _, h => by simp [scan] at h
  | n + 1, g, r, hi, h => by
    revert h
    unfold scan
    dsimp only
    split
    · intro h
      simp only [Option.some.injEq] at h
      rw [← h]
      exact step_placeholders grow g hi
    · split
      · intro h
        simp only [Option.some.injEq] at h
        rw [← h]
        exact step_placeholders grow g hi
      · intro h
        exact scan_placeholders grow n _ r (step_placeholders grow g hi) h

theorem reaches_inv (grow : Grow) (src : List Nat) (g : Generator)
    (hr : Reaches grow src g) : Inv g ∧ Placeholders g := by
  induction hr with
  | start => exact ⟨Inv_New src, placeholders_New src⟩
  | next g _ _ _ ih => exact ⟨step_inv grow g ih.1, step_placeholders grow g ih.2⟩

/-! ## The resolution step: bounds, untouched bytes, order of traversal -/

theorem putUint32_outside (buf : List Nat) (idx v k : Nat) (h : k < idx ∨ idx + 4 ≤ k) :
    (putUint32 buf idx v)[k]? = buf[k]? := by
  rw [putUint32_getElem?]
  have h3 : k ≠ idx + 3 := by omega
  have h2 : k ≠ idx + 2 := by omega
  have h1 : k ≠ idx + 1 := by omega
  have h0 : k ≠ idx := by omega
  simp [h3, h2, h1, h0]

theorem patchSites_outside (pos k : Nat) : ∀ (res : List Nat) (buf : List Nat),
    (∀ j ∈ res, k < j ∨ j + 4 ≤ k) → (patchSites pos buf res)[k]? = buf[k]?
  | [], _, _ => rfl
  | j :: r, buf, h => by
    unfold patchSites
    rw [List.foldl_cons]
    have ih := patchSites_outside pos k r (putUint32 buf j (address buf.length pos))
      (fun x hx => h x (List.mem_cons_of_mem _ hx))
    unfold patchSites at ih
    rw [ih]
    exact putUint32_outside _ _ _ _ (h j (List.mem_cons_self _ _))

/-- The resolution loop leaves every byte that lies outside the four-byte
spans of the sites of the labels it walks. -/
theorem resolveLabels_outside (resols : List (List Nat × List Nat)) (k : Nat) :
    ∀ (ls : List (List Nat × Nat)) (buf : List Nat),
    (∀ e ∈ ls, ∀ res, mapGet resols e.1 = some res → ∀ j ∈ res, k < j ∨ j + 4 ≤ k) →
    (resolveLabels resols ls buf)[k]? = buf[k]?
  | [], _, _ => rfl
  | e :: tl, buf, h => by
    unfold resolveLabels
    rw [List.foldl_cons]
    have ih := resolveLabels_outside resols k tl
    unfold resolveLabels at ih
    rw [ih _ (fun x hx => h x (List.mem_cons_of_mem _ hx))]
    split
    · rename_i res hres
      exact patchSites_outside _ _ _ _ (h e (List.mem_cons_self _ _) res hres)
    · rfl

theorem patchSitesChecked_eq (pos : Nat) : ∀ (res : List Nat) (buf : List Nat),
    (∀ j ∈ res, j + 4 ≤ buf.length) →
    patchSitesChecked pos res buf = some (patchSites pos buf res)
  | [], _, _ => rfl
  | j :: r, buf, h => by
    unfold patchSitesChecked putUint32Checked
    rw [if_pos (h j (List.mem_cons_self _ _))]
    dsimp only
    rw [patchSitesChecked_eq pos r _ (by
      rw [putUint32_length]
      exact fun x hx => h x (List.mem_cons_of_mem _ hx))]
    rfl

/-- With every site of every walked label inside the buffer, no write of the
resolution loop leaves the buffer. -/
theorem resolveLabelsChecked_eq (resols : List (List Nat × List Nat)) :
    ∀ (ls : List (List Nat × Nat)) (buf : List Nat),
    (∀ e ∈ ls, ∀ res, mapGet resols e.1 = some res → ∀ j ∈ res, j + 4 ≤ buf.length) →
    resolveLabelsChecked resols ls buf = some (resolveLabels resols ls buf)
  | [], _, _ => rfl
  | e :: tl, buf, h => by
    unfold resolveLabelsChecked
    cases hres : mapGet resols e.1 with
    | none =>
      dsimp only
      rw [resolveLabelsChecked_eq resols tl buf (fun x hx => h x (List.mem_cons_of_mem _ hx))]
      unfold resolveLabels
      rw [List.foldl_cons, hres]
    | some res =>
      dsimp only
      rw [patchSitesChecked_eq e.2 res buf (h e (List.mem_cons_self _ _) res hres)]
      dsimp only
      rw [resolveLabelsChecked_eq resols tl _ (by
        rw [patchSites_length]
        exact fun x hx => h x (List.mem_cons_of_mem _ hx))]
      unfold resolveLabels
      rw [List.foldl_cons, hres]

theorem window_at (buf : List Nat) (i k : Nat) (hi : i ≤ k) (hk : k < i + 4) :
    buf[k]? = (window buf i)[k - i]? := by
  rw [window_getElem?, if_pos (by omega)]
  congr 1
  omega

/-- With the invariant of the scan loop, the resolution loop computes the same
buffer in whatever order it walks the label table. -/
theorem resolveLabels_perm (g : Generator) (hinv : Inv g) (order : List (List Nat × Nat))
    (hperm : order.Perm g.labels) :
    resolveLabels g.resols order g.buf = resolveLabels g.resols g.labels g.buf := by
  apply List.ext_getElem?
  intro k
  by_cases hex : ∃ e ∈ g.labels, ∃ res, mapGet g.resols e.1 = some res ∧
      ∃ j ∈ res, j ≤ k ∧ k < j + 4
  · obtain ⟨e, he, res, hres, j, hj, hjk, hkj⟩ := hex
    have hb := hinv.bound _ (mapGet_mem _ _ _ hres) j hj
    have h1 := resolveLabels_site g.resols e.1 res j e.2 hres hj hinv.apart order g.buf
      ((hperm.map Prod.fst).nodup_iff.2 hinv.keys) (hperm.mem_iff.2 he) hb
    have h2 := resolveLabels_site g.resols e.1 res j e.2 hres hj hinv.apart g.labels g.buf
      hinv.keys he hb
    rw [window_at _ j k hjk hkj, window_at _ j k hjk hkj, h1, h2]
  · have hout : ∀ e ∈ g.labels, ∀ res, mapGet g.resols e.1 = some res →
        ∀ j ∈ res, k < j ∨ j + 4 ≤ k := by
      intro e he res hres j hj
      by_contra hc
      exact hex ⟨e, he, res, hres, j, hj, by omega, by omega⟩
    rw [resolveLabels_outside g.resols k g.labels g.buf hout,
      resolveLabels_outside g.resols k order g.buf
        (fun e he => hout e (hperm.mem_iff.1 he))]

theorem scanEnd_inv (grow : Grow) (src : List Nat) (gs : Generator) (ret : Bool)
    (hscan : scanEnd grow (New src) = some (gs, ret)) : Inv gs ∧ Placeholders gs :=
  ⟨scan_inv grow _ _ _ (Inv_New src) hscan,
    scan_placeholders grow _ _ _ (placeholders_New src) hscan⟩

/-- A scan that ends without error makes `Generate` return the resolved
buffer. -/
theorem assemble_of_scanEnd (grow : Grow) (src : List Nat) (gs : Generator) (ret : Bool)
    (hscan : scanEnd grow (New src) = some (gs, ret)) (herr : gs.err = none) :
    ret = false ∧
    assemble grow src = some ⟨resolveLabels gs.resols gs.labels gs.buf, none⟩ := by
  have hret : ret = false := by
    cases ret
    · rfl
    · have he := scan_ret_err grow _ _ _ hscan rfl
      rw [herr] at he
      cases he
  subst hret
  refine ⟨rfl, ?_⟩
  unfold assemble Generate finalState
  rw [hscan]
  simp [deferred, resolve, herr]

/-- A successful `Generate` comes from a scan that ended without error, and
returns the resolved buffer. -/
theorem scanEnd_of_assemble (grow : Grow) (src : List Nat) (gs : Generator) (ret : Bool)
    (out : List Nat) (hscan : scanEnd grow (New src) = some (gs, ret))
    (hout : assemble grow src = some ⟨out, none⟩) :
    gs.err = none ∧ out = resolveLabels gs.resols gs.labels gs.buf := by
  unfold assemble Generate finalState at hout
  rw [hscan] at hout
  simp only [Option.map_some', Option.some.injEq] at hout
  have h2 := congrArg Result.rerr hout
  have herr : gs.err = none := by
    cases ret
    · simpa [deferred, resolve] using h2
    · simpa [deferred] using h2
  refine ⟨herr, ?_⟩
  have hret := (assemble_of_scanEnd grow src gs ret hscan herr).1
  subst hret
  have h3 := congrArg Result.rbuf hout
  simp [deferred, resolve, herr] at h3
  exact h3.symm

theorem mapGet_none_keys {β : Type} : ∀ (m : List (List Nat × β)) (k : List Nat),
    mapGet m k = none → ∀ e ∈ m, e.1 ≠ k
  | [], _, _, e, he => by simp at he
  | (k1, v1) :: t, k, h, e, he => by
    unfold mapGet at h
    split at h
    · cases h
    · rename_i hk
      rcases List.mem_cons.1 he with h1 | h1
      · rw [h1]; exact hk
      · exact mapGet_none_keys t k h e h1

/-- Two recorded sites are five bytes apart: between their four-byte spans
lies the control byte of the later one. -/
theorem sites_five_apart (g : Generator) (hinv : Inv g) (hp : Placeholders g)
    (e1 e2 : List Nat × List Nat) (he1 : e1 ∈ g.resols) (he2 : e2 ∈ g.resols) (i j : Nat)
    (hi : i ∈ e1.2) (hj : j ∈ e2.2) (hne : i ≠ j) : i + 5 ≤ j ∨ j + 5 ≤ i := by
  have key : ∀ (a b : List Nat × List Nat), a ∈ g.resols → b ∈ g.resols →
      ∀ x ∈ a.2, ∀ y ∈ b.2, x + 4 ≤ y → x + 5 ≤ y := by
    intro a b ha hb x hx y hy hxy
    by_contra hc
    have hy4 : y = x + 4 := by omega
    have h1 := (hp.ctl b hb y hy).2
    have h2 := hp.zero a ha x hx 3 (by omega)
    have : y - 1 = x + 3 := by omega
    rw [this, h2] at h1
    cases h1
  rcases hinv.apart e1 he1 e2 he2 i hi j hj with h | h | h
  · exact absurd h.1 hne
  · exact Or.inl (key e1 e2 he1 he2 i hi j hj h)
  · exact Or.inr (key e2 e1 he2 he1 j hj i hi h)

theorem window_of_getElem? (buf : List Nat) (i a b c d : Nat) (h0 : buf[i]? = some a)
    (h1 : buf[i + 1]? = some b) (h2 : buf[i + 2]? = some c) (h3 : buf[i + 3]? = some d) :
    window buf i = [a, b, c, d] := by
  apply List.ext_getElem?
  intro k
  rw [window_getElem?]
  match k with
  | 0 => simpa using h0
  | 1 => simpa using h1
  | 2 => simpa using h2
  | 3 => simpa using h3
  | k + 4 => simp

/-- The bytes of a placeholder whose name has no entry in the label table the
resolution loop walks: the loop leaves the control byte and the four bytes. -/
theorem resolveLabels_undefined (g : Generator) (hinv : Inv g) (hp : Placeholders g)
    (name : List Nat) (sites : List Nat) (i : Nat) (hl : mapGet g.labels name = none)
    (hs : mapGet g.resols name = some sites) (hi : i ∈ sites) (k : Nat) (hk1 : i ≤ k + 1)
    (hk2 : k < i + 4) :
    (resolveLabels g.resols g.labels g.buf)[k]? = g.buf[k]? := by
  apply resolveLabels_outside
  intro e he res hres j hj
  have hne : e.1 ≠ name := mapGet_none_keys _ _ hl e he
  have h1 := mapGet_mem _ _ _ hs
  have h2 := mapGet_mem _ _ _ hres
  have hij : i ≠ j := by
    intro h
    rcases hinv.apart _ h1 _ h2 i hi j hj with ⟨_, h3⟩ | h3 | h3
    · exact hne h3.symm
    · omega
    · omega
  rcases sites_five_apart g hinv hp _ _ h1 h2 i j hi hj hij with h | h
  · left; omega
  · right; omega

/-! ## The line and column counters -/

theorem track_byte {src : List Nat} {g : Generator} (h : Track src g) : Track src g.byte := by
  obtain ⟨⟨pre, hp, hs⟩, _⟩ := h
  refine ⟨⟨pre ++ [g.cur], ?_, ?_⟩, ?_⟩
  · rw [List.foldl_append, hp]
    simp only [Generator.byte, List.foldl_cons, List.foldl_nil, advance]
    split <;> rfl
  · intro he
    simp only [Generator.byte, Bool.or_eq_false_iff] at he
    have h1 := hs he.1
    cases hr : g.rest with
    | nil => simp [hr] at he
    | cons a t =>
      rw [hr] at h1
      simpa [Generator.byte, hr] using h1
  · intro e he
    simp [Generator.byte] at he

theorem track_same {src : List Nat} {g g2 : Generator} (h : Track src g) (h1 : g2.ln = g.ln)
    (h2 : g2.col = g.col) (h3 : g2.cur = g.cur) (h4 : g2.next = g.next)
    (h5 : g2.rest = g.rest) (h6 : g2.eof = g.eof) (h7 : g2.err = g.err) : Track src g2 := by
  obtain ⟨⟨pre, hp, hs⟩, hm⟩ := h
  refine ⟨⟨pre, ?_, ?_⟩, ?_⟩
  · rw [h3, h1, h2]; exact hp
  · rw [h6, h3, h4, h5]; exact hs
  · rw [h7]; exact hm

theorem track_push (grow : Grow) {src : List Nat} {g : Generator} (h : Track src g)
    (bs : List Nat) : Track src (g.push grow bs) :=
  track_same h rfl rfl rfl rfl rfl rfl rfl

theorem track_modifyAt {src : List Nat} {g : Generator} (h : Track src g) (i : Nat)
    (f : Nat → Nat) : Track src (g.modifyAt i f) :=
  track_same h rfl rfl rfl rfl rfl rfl rfl

theorem track_setLabels {src : List Nat} {g : Generator} (h : Track src g)
    (m : List (List Nat × Nat)) : Track src (g.setLabels m) :=
  track_same h rfl rfl rfl rfl rfl rfl rfl

theorem track_setResols {src : List Nat} {g : Generator} (h : Track src g)
    (m : List (List Nat × List Nat)) : Track src (g.setResols m) :=
  track_same h rfl rfl rfl rfl rfl rfl rfl

theorem track_setErr {src : List Nat} {g : Generator} (h : Track src g) (e : Err)
    (he : ∀ x, e.msg ≠ .unexpectedChar x) : Track src (g.setErr e) := by
  obtain ⟨hp, _⟩ := h
  refine ⟨hp, ?_⟩
  intro e2 h2
  have : e = e2 := by simpa [Generator.setErr] using h2
  rw [← this]
  exact he

theorem track_New (src : List Nat) : Track src (New src) := by
  refine ⟨⟨[], ?_, ?_⟩, ?_⟩
  · match src with
    | [] => rfl
    | [a] =>
      simp only [New, Generator.byte, List.nil_append, List.foldl_cons, List.foldl_nil, advance]
      by_cases h : a = 10 <;> simp [h]
    | a :: b :: t =>
      simp only [New, Generator.byte, List.nil_append, List.foldl_cons, List.foldl_nil, advance]
      by_cases h : a = 10 <;> simp [h]
  · intro he
    match src with
    | [] => simp [New, Generator.byte] at he
    | [a] => simp [New, Generator.byte] at he
    | a :: b :: t => simp [New, Generator.byte]
  · intro e he
    rw [New_err] at he
    cases he

theorem commentLoop_track {src : List Nat} : ∀ (n : Nat) (g : Generator),
    Track src g → Track src (commentLoop n g)
  | 0, _, h => h
  | n + 1, g, h => by
    unfold commentLoop
    split
    · exact commentLoop_track n g.byte (track_byte h)
    · exact h

theorem symLoop_track {src : List Nat} : ∀ (n : Nat) (sb : List Nat) (g : Generator),
    Track src g → Track src (symLoop n sb g).2
  | 0, _, _, h => h
  | n + 1, sb, g, h => by
    unfold symLoop
    split
    · exact symLoop_track n _ g.byte (track_byte h)
    · exact h

theorem strLoop_track (grow : Grow) {src : List Nat} : ∀ (f n : Nat) (g : Generator),
    Track src g → Track src (strLoop grow f n g).2
  | 0, _, _, h => h
  | f + 1, n, g, h => by
    unfold strLoop
    split
    · exact strLoop_track grow f _ _ (track_byte (track_push grow h _))
    · exact h

theorem hexTail_track {src : List Nat} (ln col i : Nat) (g : Generator) (h : Track src g) :
    Track src (hexTail ln col i g).1 := by
  unfold hexTail
  dsimp only
  split
  · exact track_setErr h _ (fun x hx => by cases hx)
  · exact h

theorem collectHexLoop_track (grow : Grow) {src : List Nat} (ln col : Nat) :
    ∀ (k i : Nat) (g : Generator), Track src g → Track src (collectHexLoop grow ln col k i g).1
  | 0, i, g, h => by
    unfold collectHexLoop
    exact hexTail_track ln col i g h
  | k + 1, i, g, h => by
    unfold collectHexLoop
    split
    · dsimp only
      split
      · exact track_setErr (track_byte (track_push grow h _)) _ (fun x hx => by cases hx)
      · exact collectHexLoop_track grow ln col k (i + 1) _
          (track_byte (track_modifyAt (track_byte (track_push grow h _)) _ _))
    · exact hexTail_track ln col i g h

theorem afterR_track {src : List Nat} (g : Generator) (h : Track src g) :
    Track src (afterR g) := by
  unfold afterR
  split
  · exact track_byte h
  · exact h

theorem afterSize_track {src : List Nat} (g : Generator) (h : Track src g) :
    Track src (afterSize g) := by
  unfold afterSize
  split
  · exact track_byte h
  · exact h

theorem emitIns_track (grow : Grow) {src : List Nat} (ln col : Nat) (name : List Nat)
    (r : Bool) (s : Nat) (g : Generator) (h : Track src g) :
    Track src (emitIns grow ln col name r s g).1 := by
  unfold emitIns
  dsimp only
  split
  · exact track_setErr h _ (fun x hx => by cases hx)
  split
  · exact track_setErr h _ (fun x hx => by cases hx)
  split
  · exact track_setErr h _ (fun x hx => by cases hx)
  · exact track_push grow h _

theorem stepComment_track {src : List Nat} (g : Generator) (h : Track src g) :
    Track src (stepComment g).1 := by
  unfold stepComment
  dsimp only
  have h1 := commentLoop_track (g.rest.length + 1) g h
  split
  · exact track_byte (track_setErr h1 _ (fun x hx => by cases hx))
  · exact track_byte h1

theorem stepRef_track (grow : Grow) {src : List Nat} (g : Generator) (h : Track src g) :
    Track src (stepRef grow g).1 := by
  unfold stepRef
  dsimp only
  have h1 := symLoop_track (g.byte.rest.length + 1) [] g.byte (track_byte h)
  apply track_setResols
  apply track_push
  split
  · exact track_setErr h1 _ (fun x hx => by cases hx)
  · exact h1

theorem stepDef_track {src : List Nat} (g : Generator) (h : Track src g) :
    Track src (stepDef g).1 := by
  unfold stepDef
  dsimp only
  have h1 := symLoop_track (g.byte.rest.length + 1) [] g.byte (track_byte h)
  split
  · exact track_setErr h1 _ (fun x hx => by cases hx)
  split
  · exact track_setErr h1 _ (fun x hx => by cases hx)
  · exact track_setLabels h1 _

theorem stepString_track (grow : Grow) {src : List Nat} (g : Generator) (h : Track src g) :
    Track src (stepString grow g).1 := by
  unfold stepString
  dsimp only
  have h1 := strLoop_track grow (g.byte.rest.length + 1) 0 g.byte (track_byte h)
  split
  · exact track_setErr h1 _ (fun x hx => by cases hx)
  · exact h1

theorem stepLit_track (grow : Grow) {src : List Nat} (g : Generator) (h : Track src g) :
    Track src (stepLit grow g).1 := by
  unfold stepLit
  dsimp only
  have h1 := collectHexLoop_track grow g.ln g.col 4 0 (g.byte.push grow [inLit])
    (track_push grow (track_byte h) _)
  split
  · exact track_modifyAt h1 _ _
  · exact h1

theorem stepMnemonic_track (grow : Grow) {src : List Nat} (g : Generator) (h : Track src g) :
    Track src (stepMnemonic grow g).1 := by
  unfold stepMnemonic
  dsimp only
  exact emitIns_track grow _ _ _ _ _ _
    (afterSize_track _ (afterR_track _ (symLoop_track (g.rest.length + 1) [] g h)))

/-- One iteration of the scan loop keeps the cursor invariant, unless it is
the iteration that rejects the current byte. -/
theorem step_track (grow : Grow) {src : List Nat} (g : Generator) (h : Track src g) :
    Track src (step grow g).1 ∨
    (g.cur ≠ 10 ∧ step grow g = (g.setErr ⟨g.ln, g.col, .unexpectedChar g.cur⟩, true)) := by
  unfold step
  split
  · exact Or.inl (stepComment_track g h)
  split
  · exact Or.inl (stepRef_track grow g h)
  split
  · exact Or.inl (stepDef_track g h)
  split
  · exact Or.inl (stepString_track grow g h)
  split
  · exact Or.inl (stepLit_track grow g h)
  split
  · exact Or.inl (track_byte h)
  split
  · exact Or.inl (collectHexLoop_track grow g.ln g.col 4 0 g h)
  split
  · exact Or.inl (stepMnemonic_track grow g h)
  · rename_i hsp _ _
    refine Or.inr ⟨?_, rfl⟩
    intro h10
    apply hsp
    rw [h10]
    rfl

theorem reaches_track (grow : Grow) (src : List Nat) (g : Generator)
    (hr : Reaches grow src g) : Track src g := by
  induction hr with
  | start => exact track_New src
  | next g _ h2 _ ih =>
    rcases step_track grow g ih with h | ⟨_, h⟩
    · exact h
    · rw [h] at h2
      cases h2

/-- The state in which the scan loop ends is the result of one iteration
started at the head of the loop. -/
theorem scan_last (grow : Grow) (src : List Nat) : ∀ (n : Nat) (g : Generator)
    (r : Generator × Bool), Reaches grow src g → scan grow n g = some r →
    ∃ g2, Reaches grow src g2 ∧ r = step grow g2
  | 0, _, _, _, h => by simp [scan] at h
  | n + 1, g, r, hr, h => by
    unfold scan at h
    dsimp only at h
    split at h
    · exact ⟨g, hr, by simpa using h.symm⟩
    · split at h
      · exact ⟨g, hr, by simpa using h.symm⟩
      · rename_i h1 h2
        exact scan_last grow src n _ r (Reaches.next g hr (by simpa using h1)
          (by simpa using h2)) h

/-- A state at the head of the loop in which end-of-input has been seen is the
initial state, on a source of at most one byte. -/
theorem reaches_eof (grow : Grow) (src : List Nat) (g : Generator)
    (hr : Reaches grow src g) (he : g.eof = true) : g = New src ∧ src.length ≤ 1 := by
  cases hr with
  | start =>
    refine ⟨rfl, ?_⟩
    match src, he with
    | [], _ => simp
    | [a], _ => simp
    | a :: b :: t, he => simp [New, Generator.byte] at he
  | next g0 _ _ hend =>
    rw [((end_false_iff _).1 hend).2] at he
    cases he

/-- The counters after the bytes of `pre` have been current, one after the
other: the line is that of the byte after `pre`; the column is the number of
bytes after the last line feed, plus one if there is a line feed. -/
theorem foldl_advance (pre : List Nat) :
    pre.foldl advance (1, 0) =
      (1 + pre.count 10,
        (pre.reverse.takeWhile (fun x => x != 10)).length + if 10 ∈ pre then 1 else 0) := by
  induction pre using List.reverseRecOn with
  | nil => rfl
  | append_singleton l a ih =>
    rw [List.foldl_append, ih]
    simp only [List.foldl_cons, List.foldl_nil, advance, List.reverse_append,
      List.reverse_cons, List.reverse_nil, List.nil_append, List.singleton_append,
      List.count_append, List.mem_append, List.mem_singleton]
    by_cases h : a = 10
    · subst h
      simp
      omega
    · have h2 : (10 : Nat) ≠ a := fun e => h e.symm
      simp [h, h2, List.takeWhile_cons, List.count_singleton]
      by_cases h3 : 10 ∈ l <;> simp [h3]

theorem position_after (pre : List Nat) (x : Nat) (hx : x ≠ 10) :
    (pre ++ [x]).foldl advance (1, 0) =
      (lineOf pre, columnOf pre + if 10 ∈ pre then 1 else 0) := by
  rw [List.foldl_append, foldl_advance]
  simp only [List.foldl_cons, List.foldl_nil, advance, if_neg hx, lineOf, columnOf]
  congr 1
  omega

/-- Where the unexpected-character error points: at the line of the offending
byte, and at its column on the first line of the source, but one column to the
right of it on every later line. -/
theorem unexpected_char_position (grow : Grow) (src out : List Nat) (l c x : Nat)
    (h : assemble grow src = some ⟨out, some ⟨l, c, .unexpectedChar x⟩⟩) :
    ∃ pre post, (src = pre ++ x :: post ∨ (src = [] ∧ pre = [] ∧ x = 0)) ∧
      l = lineOf pre ∧ c = columnOf pre + if 10 ∈ pre then 1 else 0 := by
  unfold assemble Generate finalState at h
  cases hs : scanEnd grow (New src) with
  | none => simp [hs] at h
  | some r =>
    obtain ⟨gs, ret⟩ := r
    rw [hs] at h
    simp only [Option.map_some', Option.some.injEq] at h
    have herr : gs.err = some ⟨l, c, .unexpectedChar x⟩ := by
      have h2 := congrArg Result.rerr h
      cases ret
      · simpa [deferred, resolve] using h2
      · simpa [deferred] using h2
    obtain ⟨g2, hr2, hstep⟩ := scan_last grow src _ (New src) (gs, ret) Reaches.start hs
    have ht := reaches_track grow src g2 hr2
    rcases step_track grow g2 ht with h1 | ⟨h10, h1⟩
    · rw [← hstep] at h1
      exact absurd rfl (h1.msg _ herr x)
    · rw [h1] at hstep
      have hgs : gs = g2.setErr ⟨g2.ln, g2.col, .unexpectedChar g2.cur⟩ :=
        congrArg Prod.fst hstep
      rw [hgs] at herr
      simp only [Generator.setErr, Option.some.injEq, Err.mk.injEq, Msg.unexpectedChar.injEq]
        at herr
      obtain ⟨hl, hc, hx⟩ := herr
      cases he : g2.eof with
      | false =>
        obtain ⟨pre, hp, hsrc⟩ := ht.pos
        rw [position_after pre g2.cur h10] at hp
        simp only [Prod.mk.injEq] at hp
        refine ⟨pre, g2.next :: g2.rest, Or.inl ?_, ?_, ?_⟩
        · rw [← hx]; exact (hsrc he).symm
        · rw [← hl]; exact hp.1.symm
        · rw [← hc]; exact hp.2.symm
      | true =>
        obtain ⟨hg, hlen⟩ := reaches_eof grow src g2 hr2 he
        subst hg
        match src, hlen with
        | [], _ =>
          refine ⟨[], [], Or.inr ⟨rfl, rfl, ?_⟩, ?_, ?_⟩
          · rw [← hx]; rfl
          · rw [← hl]; rfl
          · rw [← hc]; rfl
        | [a], _ =>
          have ha : a ≠ 10 := h10
          refine ⟨[], [], Or.inl ?_, ?_, ?_⟩
          · rw [← hx]; rfl
          · rw [← hl]
            simp [New, Generator.byte, ha, lineOf]
          · rw [← hc]; rfl

/-- The opcode table gives every mnemonic its position in the list of
mnemonics as ordinal. -/
theorem mnemonics_table : ∀ k < 29,
    (getIns (mnemonics.getD k [])).ins = k ∧ (getIns (mnemonics.getD k [])).ok = true := by
  decide

/-- The redefinition error: if a state at the head of the scan loop stands
on `@name` (the name ended by the last byte of the input or by a byte that is
not a symbol character) and the label table already holds `name`, the pass
ends with the redefinition error at the `@` and no buffer, whatever the
reference table holds. -/
theorem redefinition_error (grow : Grow) (src : List Nat) (g : Generator)
    (name : List Nat) (c : Nat) (t : List Nat) (hr : Reaches grow src g)
    (ha : g.ahead = 64 :: (name ++ c :: t)) (hs : ∀ x ∈ name, isSymbol x = true)
    (hc : t = [] ∨ isSymbol c = false) (hdef : (mapGet g.labels name).isSome = true) :
    assemble grow src = some ⟨[], some ⟨g.ln, g.col,
      if name = [] then .emptyLabelDefinition else .redefineLabel name⟩⟩ := by
  apply assemble_of_reaches_err grow src g _ hr
  have h1 := ahead_cur g 64 _ ha
  rw [step_def grow g h1]
  exact step_def_known g name c t ha hs hc hdef

/-- Sites recorded under a name without label: when the scan of a source ends
without error and a name with recorded sites has no entry in the label table,
`Generate` succeeds, and in the buffer it returns every site of that name is
preceded by the control byte `0x60` and holds four zero bytes. -/
theorem unlabelled_sites_stay_zero (grow : Grow) (src : List Nat) (gs : Generator)
    (ret : Bool) (name : List Nat) (sites : List Nat) (i : Nat)
    (hscan : scanEnd grow (New src) = some (gs, ret)) (herr : gs.err = none)
    (hl : mapGet gs.labels name = none) (hs : mapGet gs.resols name = some sites)
    (hi : i ∈ sites) :
    ∃ out, assemble grow src = some ⟨out, none⟩ ∧ 1 ≤ i ∧ i + 4 ≤ out.length ∧
      out[i - 1]? = some 0x60 ∧ window out i = [0, 0, 0, 0] := by
  obtain ⟨hinv, hp⟩ := scanEnd_inv grow src gs ret hscan
  have hm := mapGet_mem _ _ _ hs
  obtain ⟨h1, hctl⟩ := hp.ctl _ hm i hi
  have hz := hp.zero _ hm i hi
  have hsame := resolveLabels_undefined gs hinv hp name sites i hl hs hi
  refine ⟨_, (assemble_of_scanEnd grow src gs ret hscan herr).2, h1, ?_, ?_, ?_⟩
  · rw [resolveLabels_length]
    exact hinv.bound _ hm i hi
  · rw [hsame (i - 1) (by omega) (by omega)]
    exact hctl
  · apply window_of_getElem?
    · rw [hsame i (by omega) (by omega)]; exact hz 0 (by omega)
    · rw [hsame (i + 1) (by omega) (by omega)]; exact hz 1 (by omega)
    · rw [hsame (i + 2) (by omega) (by omega)]; exact hz 2 (by omega)
    · rw [hsame (i + 3) (by omega) (by omega)]; exact hz 3 (by omega)

/-! ## The claims -/

theorem mnemonics_ins : ∀ name ∈ mnemonics, (getIns name).ins ≤ 28 := by decide

theorem control_byte_table : ∀ o < 29, ∀ r : Bool, ∀ s < 4,
    controlByte o r (sizeConst s) = o ||| (r.toNat <<< 7) ||| (s <<< 5) ∧
    controlByte o r (sizeConst s) &&& 0x1F = o ∧
    controlByte o r (sizeConst s) >>> 7 = r.toNat ∧
    (controlByte o r (sizeConst s) >>> 5) &&& 3 = s := by
  decide

/-- C2: for every mnemonic of the opcode table (ordinal at most 28), every
return flag and every size class `s < 4`, the control byte built from `inR`
and the size constants equals `o | (r << 7) | (s << 5)` and decodes back to the
ordinal (`& 0x1F`), the return flag (`>> 7`) and the size class
(`(>> 5) & 3`); hence two such triples with the same control byte are equal. -/
theorem control_byte_roundtrip (name : List Nat) (r : Bool) (s : Nat)
    (hok : (getIns name).ok = true) (hs : s < 4) :
    (getIns name).ins ≤ 28 ∧
    controlByte (getIns name).ins r (sizeConst s) =
      (getIns name).ins ||| (r.toNat <<< 7) ||| (s <<< 5) ∧
    controlByte (getIns name).ins r (sizeConst s) &&& 0x1F = (getIns name).ins ∧
    controlByte (getIns name).ins r (sizeConst s) >>> 7 = r.toNat ∧
    (controlByte (getIns name).ins r (sizeConst s) >>> 5) &&& 3 = s ∧
    ∀ (name2 : List Nat) (r2 : Bool) (s2 : Nat), (getIns name2).ok = true → s2 < 4 →
      controlByte (getIns name2).ins r2 (sizeConst s2) =
        controlByte (getIns name).ins r (sizeConst s) →
      (getIns name2).ins = (getIns name).ins ∧ r2 = r ∧ s2 = s := by
  have ho := mnemonics_ins name (getIns_ok_mem name hok)
  obtain ⟨h1, h2, h3, h4⟩ := control_byte_table _ (Nat.lt_succ_of_le ho) r s hs
  refine ⟨ho, h1, h2, h3, h4, ?_⟩
  intro name2 r2 s2 hok2 hs2 heq
  have ho2 := mnemonics_ins name2 (getIns_ok_mem name2 hok2)
  obtain ⟨_, k2, k3, k4⟩ := control_byte_table _ (Nat.lt_succ_of_le ho2) r2 s2 hs2
  rw [heq] at k2 k3 k4
  refine ⟨by rw [← k2, h2], ?_, by rw [← k4, h4]⟩
  have : r2.toNat = r.toNat := by rw [← k3, h3]
  cases r <;> cases r2 <;> simp at this ⊢

/-- Witness of C2: `ADD` with the return flag and size class 2. -/
theorem control_byte_roundtrip_witness :
    controlByte (getIns (str "ADD")).ins true (sizeConst 2) &&& 0x1F = (getIns (str "ADD")).ins :=
  (control_byte_roundtrip (str "ADD") true 2 (by decide) (by decide)).2.2.1

/-- C10: `Generate` always returns; the error it returns is the error of the
state the pass ends in; if that error is non-nil the returned buffer is nil,
and if it is nil the returned buffer is the buffer of that state. -/
theorem generate_buffer_only_on_success (grow : Grow) (g : Generator) :
    ∃ (gf : Generator) (r : Result), finalState grow g = some gf ∧
      Generate grow g = some r ∧ r.rerr = gf.err ∧
      (r.rerr ≠ none → r.rbuf = []) ∧ (r.rerr = none → r.rbuf = gf.buf) := by
  obtain ⟨gf, h⟩ := finalState_some grow g
  refine ⟨gf, deferred gf, h, by unfold Generate; rw [h]; rfl, rfl, ?_, ?_⟩
  · intro hne
    unfold deferred at hne ⊢
    simp only at hne ⊢
    rw [if_neg hne]
  · intro he
    unfold deferred at he ⊢
    simp only at he ⊢
    rw [if_pos he]

/-- C9: for the mnemonic `NAME` at position `k` of the opcode table, which is
its ordinal (the table has 29 entries, `LIT` = 0 up to `NOT` = 28), each size
digit `2`, `3`, `4` and a whitespace byte `w`: the source `NAME d w` assembles
to the single byte `k | ((d - 1) << 5)`, unless `NAME` is `BRP`, `GPC` or
`JMP`, for which it fails with the size-modifier error naming `NAME`; and the
source `NAME w` assembles to the single byte `k`. -/
theorem size_modifier_on_mnemonic (grow : Grow) (k : Nat) (name : List Nat) (d w : Nat)
    (hk : mnemonics[k]? = some name) (hd : d = 2 ∨ d = 3 ∨ d = 4) (hw : isSpace w = true) :
    mnemonics.length = 29 ∧
    assemble grow (name ++ [48 + d, w]) =
      some (if name = str "BRP" ∨ name = str "GPC" ∨ name = str "JMP"
        then ⟨[], some ⟨1, 1, .incompatibleSize name⟩⟩
        else ⟨[k ||| ((d - 1) <<< 5)], none⟩) ∧
    assemble grow (name ++ [w]) = some ⟨[k], none⟩ := by
  have _ := hw
  obtain ⟨hlen, hget⟩ := List.getElem?_eq_some.1 hk
  have hlt : k < 29 := hlen
  have hname : mnemonics.getD k [] = name := by
    rw [List.getD_eq_getElem?_getD, hk]
    rfl
  obtain ⟨hins, hok⟩ := mnemonics_table k hlt
  rw [hname] at hins hok
  have hmem : name ∈ mnemonics := by
    rw [← hget]
    exact List.getElem_mem _
  have hu := mnemonics_usesS name hmem
  refine ⟨rfl, ?_, ?_⟩
  · rw [assemble_sized grow name d w hok hd, hins]
    by_cases h3 : name = str "BRP" ∨ name = str "GPC" ∨ name = str "JMP"
    · rw [if_pos h3, if_neg (by rw [hu.2 h3]; simp)]
    · have h4 : (getIns name).usesS = true := by
        cases h5 : (getIns name).usesS
        · exact absurd (hu.1 h5) h3
        · rfl
      rw [if_neg h3, if_pos h4]
  · rw [assemble_plain grow name w hok, hins]

/-- Witness of C9: the sources `ADD2 ` (`ADD` has ordinal 21, the byte is
`0x35`) and `JMP3 ` (`JMP`, ordinal 14, does not take a size). -/
theorem size_modifier_on_mnemonic_witness :
    assemble goGrow (str "ADD2 ") = some ⟨[0x35], none⟩ ∧
    assemble goGrow (str "JMP3 ") = some ⟨[], some ⟨1, 1, .incompatibleSize (str "JMP")⟩⟩ ∧
    assemble goGrow (str "ADD ") = some ⟨[21], none⟩ :=
  ⟨(size_modifier_on_mnemonic goGrow 21 (str "ADD") 2 32 (by decide) (by decide)
      (by decide)).2.1,
    (size_modifier_on_mnemonic goGrow 14 (str "JMP") 3 32 (by decide) (by decide)
      (by decide)).2.1,
    (size_modifier_on_mnemonic goGrow 21 (str "ADD") 2 32 (by decide) (by decide)
      (by decide)).2.2⟩

/-- C8 (the code diverges): the source `ADDr ` does not assemble to the byte
`0x95`; the symbol loop takes the `r` into the name and the pass fails with
"Unknown symbol 'ADDr'".  In no state does the mnemonic production see an `r`
after the symbol loop. -/
theorem return_modifier_unknown_symbol (grow : Grow) :
    assemble grow (str "ADDr ") = some ⟨[], some ⟨1, 1, .unknownSymbol (str "ADDr")⟩⟩ ∧
    ∀ g : Generator, takesR (symLoop (g.rest.length + 1) [] g).2 = false :=
  ⟨assemble_return grow (str "ADD") 32 (by decide), return_modifier_never_taken⟩

/-- C6 (the code diverges): the sources `(abc` and `ADD (abc`, whose comment
is never closed, assemble without error: the error set by the comment
production is overwritten by the call of `byte` that follows it, so that the
production leaves no error in any state. -/
theorem unterminated_comment_accepted (grow : Grow) :
    assemble grow (str "(abc") = some ⟨[], none⟩ ∧
    assemble grow (str "ADD (abc") = some ⟨[21], none⟩ ∧
    ∀ g : Generator, (stepComment g).1.err = none ∧ (stepComment g).2 = false := by
  refine ⟨?_, ?_, stepComment_no_error⟩
  · simp [assemble, Generate, finalState, scanEnd, scan, step, stepComment, commentLoop, New,
      str, Generator.byte, Generator.end_, Generator.setErr, resolve, resolveLabels, deferred]
  · simp [assemble, Generate, finalState, scanEnd, scan, step, stepComment, commentLoop,
      stepMnemonic, symLoop, emitIns, takesR, afterR, atDigit, sizeMod, afterSize, getIns,
      controlByte, New, str, Generator.byte, Generator.push, isHex, isSpace, isSymbol,
      Generator.end_, Generator.setErr, resolve, resolveLabels, deferred, inAdd]

/-- C4 (the code diverges): the source `1f2a` does not assemble to the bytes
`0x1f, 0x2a`; the pass fails with "Invalid number", because `eof` is already
raised while the last digit is the current character.  With one more byte
after the run the two bytes are produced. -/
theorem bare_hex_at_end_of_input (grow : Grow) :
    assemble grow (str "1f2a") = some ⟨[], some ⟨1, 1, .invalidNumber⟩⟩ ∧
    assemble grow (str "1f2a ") = some ⟨[0x1f, 0x2a], none⟩ := by
  constructor
  · simp [assemble, Generate, finalState, scanEnd, scan, step, collectHex, collectHexLoop, New,
      str, Generator.byte, Generator.push, isHex, isSpace, isSymbol, Generator.end_,
      Generator.modifyAt, Generator.setErr, hexTail, fromHex, resolve, resolveLabels, deferred]
  · simp [assemble, Generate, finalState, scanEnd, scan, step, collectHex, collectHexLoop, New,
      str, Generator.byte, Generator.push, isHex, isSpace, isSymbol, Generator.end_,
      Generator.modifyAt, Generator.setErr, hexTail, fromHex, resolve, resolveLabels, deferred]

/-- C3 (the code diverges): under the allocation policy of the gc runtime,
`#1f2a ` at the start of a source yields the control byte `0x20`, but after
seven bytes of output (`'abcdefg #1f2a `) the control byte is `0x00`: the
buffer is full after the control byte, the first payload byte moves it to a
fresh array, and the size bits are written through the stale pointer.  Under
every allocation policy some source of this shape loses the size bits. -/
theorem literal_size_bits_lost :
    (assemble goGrow (str "#1f2a ") = some ⟨[0x20, 0x1f, 0x2a], none⟩ ∧
      assemble goGrow (str "'abcdefg #1f2a ") =
        some ⟨[97, 98, 99, 100, 101, 102, 103, 0x00, 0x1f, 0x2a], none⟩) ∧
    ∀ grow : Grow, ∃ n, assemble grow (litAfter n) =
      some ⟨List.replicate n 97 ++ [0x00, 0x1f, 0x2a], none⟩ :=
  ⟨by decide, lit_after_any_policy⟩

/-- C5: if the scan reaches a `#` production or a bare-hex production and the
contiguous run of hex digits it is to scan (`run`, followed by the end of the
input or by a byte that is not a hex digit) has an odd number of digits or
more than 8 digits, the pass ends with the "Invalid number" error at the
start of the production and no buffer. -/
theorem malformed_hex_run_is_fatal (grow : Grow) (src : List Nat) (g : Generator)
    (run rest : List Nat) (hr : Reaches grow src g)
    (ha : g.ahead = 35 :: (run ++ rest) ∨ g.ahead = run ++ rest)
    (hx : ∀ x ∈ run, isHex x = true) (hy : ∀ y ∈ rest.head?, isHex y = false)
    (hbad : run.length % 2 = 1 ∨ 8 < run.length) :
    assemble grow src = some ⟨[], some ⟨g.ln, g.col, .invalidNumber⟩⟩ := by
  apply assemble_of_reaches_err grow src g _ hr
  rcases ha with ha | ha
  · exact step_lit_bad grow g run rest ha hx hy hbad
  · exact step_hex_bad grow g run rest ha hx hy hbad

/-- Witness of C5: the source `#1f2 `, a run of three digits. -/
theorem malformed_hex_run_is_fatal_witness :
    assemble goGrow (str "#1f2 ") = some ⟨[], some ⟨1, 1, .invalidNumber⟩⟩ :=
  malformed_hex_run_is_fatal goGrow (str "#1f2 ") (New (str "#1f2 ")) (str "1f2") (str " ")
    Reaches.start (Or.inl (by decide)) (by decide) (by decide) (by decide)

/-- C7 (the code diverges): the source `@ab @ab` assembles without error.  Of
the second definition, which ends the input, the `@` production takes only
`a`, because the last byte of the input is never processed, and enters `a`
into the label table as a new label.  With one more byte behind it
(`@ab @ab `) the redefinition error is raised, as it is on `@a @a `; in
general it is raised from every state at the head of the scan loop that
stands on `@name` followed by a byte that is not a symbol character, with
`name` in the label table, whatever the reference table holds. -/
theorem redefinition_missed_at_end (grow : Grow) :
    assemble grow (str "@ab @ab") = some ⟨[], none⟩ ∧
    assemble grow (str "@ab @ab ") = some ⟨[], some ⟨1, 5, .redefineLabel (str "ab")⟩⟩ ∧
    assemble grow (str "@a @a ") = some ⟨[], some ⟨1, 4, .redefineLabel (str "a")⟩⟩ ∧
    ∀ (src : List Nat) (g : Generator) (name : List Nat) (c : Nat) (t : List Nat),
      Reaches grow src g → g.ahead = 64 :: (name ++ c :: t) → name ≠ [] →
      (∀ x ∈ name, isSymbol x = true) → isSymbol c = false →
      (mapGet g.labels name).isSome = true →
      assemble grow src = some ⟨[], some ⟨g.ln, g.col, .redefineLabel name⟩⟩ := by
  refine ⟨?_, ?_, ?_, ?_⟩
  · simp [assemble, Generate, finalState, scanEnd, scan, step, stepDef, symLoop, New, str,
      Generator.byte, Generator.end_, Generator.setErr, Generator.setLabels, mapGet, mapSet,
      isSymbol, isSpace, isHex, resolve, resolveLabels, deferred]
  · simp [assemble, Generate, finalState, scanEnd, scan, step, stepDef, symLoop, New, str,
      Generator.byte, Generator.end_, Generator.setErr, Generator.setLabels, mapGet, mapSet,
      isSymbol, isSpace, isHex, resolve, resolveLabels, deferred]
  · simp [assemble, Generate, finalState, scanEnd, scan, step, stepDef, symLoop, New, str,
      Generator.byte, Generator.end_, Generator.setErr, Generator.setLabels, mapGet, mapSet,
      isSymbol, isSpace, isHex, resolve, resolveLabels, deferred]
  · intro src g name c t hr ha hne hs hc hdef
    rw [redefinition_error grow src g name c t hr ha hs (Or.inr hc) hdef, if_neg hne]

/-- Witness of C7: the source `@a ;a @a `, at the head of its fifth iteration;
the name has been referenced before it is defined again. -/
theorem redefinition_missed_at_end_witness :
    assemble goGrow (str "@a ;a @a ") = some ⟨[], some ⟨1, 7, .redefineLabel (str "a")⟩⟩ :=
  (redefinition_missed_at_end goGrow).2.2.2 (str "@a ;a @a ")
    (step goGrow (step goGrow (step goGrow (step goGrow (New (str "@a ;a @a "))).1).1).1).1
    (str "a") 32 []
    (Reaches.next _ (Reaches.next _ (Reaches.next _ (Reaches.next _ Reaches.start
      (by decide) (by decide)) (by decide) (by decide)) (by decide) (by decide))
      (by decide) (by decide))
    (by decide) (by decide) (by decide) (by decide) (by decide)

/-- C1 (as stated, refuted): on the source `@a ;a ` the label `a` is defined
at offset 0 and referenced at offset 1, the output has length 5, and the four
bytes at offset 1 encode 7999995, not 8388603. -/
theorem resolved_address_not_8388608 :
    (scanEnd goGrow (New (str "@a ;a "))).map
        (fun r => (mapGet r.1.labels (str "a"), mapGet r.1.resols (str "a"))) =
      some (some 0, some [1]) ∧
    assemble goGrow (str "@a ;a ") = some ⟨[96, 0, 122, 17, 251], none⟩ ∧
    window [96, 0, 122, 17, 251] 1 ≠ beBytes (8388608 - 5 + 0) ∧
    window [96, 0, 122, 17, 251] 1 = beBytes (8000000 - 5 + 0) := by
  decide

/-- C1 (amended): for every source that assembles successfully, with output
`out`: for every label defined at offset `p` and every site `i` recorded for
that label when the scan ended, the site lies inside the output and the four
bytes at it are the big-endian encoding of `8000000 - len(out) + p` taken
modulo `2 ^ 32`, which is `8000000 + p - len(out)` when that is not negative;
and the resolution loop leaves these four bytes at the site in whatever order
it walks the label table. -/
theorem resolved_address (grow : Grow) (src : List Nat) (gs : Generator) (ret : Bool)
    (out : List Nat) (name : List Nat) (p : Nat) (sites : List Nat) (i : Nat)
    (hscan : scanEnd grow (New src) = some (gs, ret))
    (hout : assemble grow src = some ⟨out, none⟩)
    (hl : mapGet gs.labels name = some p) (hs : mapGet gs.resols name = some sites)
    (hi : i ∈ sites) :
    i + 4 ≤ out.length ∧ window out i = beBytes (address out.length p) ∧
    (address out.length p : Int) = ((8000000 : Int) - out.length + p) % 2 ^ 32 ∧
    (out.length ≤ 8000000 + p → address out.length p = 8000000 + p - out.length) ∧
    ∀ order : List (List Nat × Nat), order.Perm gs.labels →
      window (resolveLabels gs.resols order gs.buf) i = beBytes (address out.length p) := by
  have hinv : Inv gs := scan_inv grow _ _ _ (Inv_New src) hscan
  unfold assemble Generate finalState at hout
  rw [hscan] at hout
  simp only [Option.map_some', Option.some.injEq] at hout
  have hret : ret = false := by
    cases ret
    · rfl
    · have he := scan_ret_err grow _ _ _ hscan rfl
      have h2 := congrArg Result.rerr hout
      simp only [deferred, if_true] at h2
      rw [h2] at he
      cases he
  subst hret
  have herr : gs.err = none := by
    have h2 := congrArg Result.rerr hout
    simpa [deferred, resolve] using h2
  have hbuf : out = resolveLabels gs.resols gs.labels gs.buf := by
    have h2 := congrArg Result.rbuf hout
    simp [deferred, resolve, herr] at h2
    exact h2.symm
  have hlen : out.length = gs.buf.length := by rw [hbuf, resolveLabels_length]
  have hb := hinv.bound _ (mapGet_mem _ _ _ hs) i hi
  refine ⟨by rw [hlen]; exact hb, ?_, ?_, ?_, ?_⟩
  · rw [hlen, hbuf]
    exact resolveLabels_site gs.resols name sites i p hs hi hinv.apart gs.labels gs.buf
      hinv.keys (mapGet_mem _ _ _ hl) hb
  · unfold address addressOffset
    rw [Int.toNat_of_nonneg (Int.emod_nonneg _ (by norm_num))]
    norm_num
  · intro hle
    have hp : p ≤ gs.buf.length := hinv.offs _ (mapGet_mem _ _ _ hl)
    unfold address addressOffset
    have h1 : (((8000000 : Nat) : Int) - (out.length : Int) + (p : Int)) =
        ((8000000 + p - out.length : Nat) : Int) := by omega
    rw [h1, Int.emod_eq_of_lt (by omega) (by omega)]
    simp
  · intro order hperm
    rw [hlen]
    exact resolveLabels_site gs.resols name sites i p hs hi hinv.apart order gs.buf
      ((hperm.map Prod.fst).nodup_iff.2 hinv.keys) (hperm.mem_iff.2 (mapGet_mem _ _ _ hl)) hb

/-- Witness of C1 (amended): the source `@a ;a `, label `a` at offset 0, site 1. -/
theorem resolved_address_witness :
    window [96, 0, 122, 17, 251] 1 = beBytes (address [96, 0, 122, 17, 251].length 0) :=
  (resolved_address goGrow (str "@a ;a ")
    { rest := [], err := none, labels := [([97], 0)], resols := [([97], [1])],
      buf := [96, 0, 0, 0, 0], cap := 8, alloc := 1, ln := 1, col := 6, cur := 32,
      next := 32, eof := true }
    false [96, 0, 122, 17, 251] (str "a") 0 [1] 1 (by decide) (by decide) (by decide)
    (by decide) (by decide)).2.1

/-- C11: on the text `'`, then a non-empty run `s` of bytes that are not
whitespace, then a whitespace byte `w`, the string production appends exactly
the bytes of `s`, in order and unchanged, leaves the tables alone, raises no
error and stops on `w`; the source `' s w` alone assembles to `s`. -/
theorem string_literal_captured (grow : Grow) (g : Generator) (s : List Nat) (w : Nat)
    (t : List Nat) (hne : s ≠ []) (hs : ∀ x ∈ s, isSpace x = false) (hw : isSpace w = true)
    (ha : g.ahead = 39 :: (s ++ w :: t)) :
    (step grow g).2 = false ∧ (step grow g).1.err = none ∧
    (step grow g).1.buf = g.buf ++ s ∧ (step grow g).1.labels = g.labels ∧
    (step grow g).1.resols = g.resols ∧ (step grow g).1.ahead = w :: t ∧
    assemble grow (39 :: (s ++ [w])) = some ⟨s, none⟩ := by
  have key : ∀ (g : Generator) (t : List Nat), g.ahead = 39 :: (s ++ w :: t) →
      (step grow g).2 = false ∧ (step grow g).1.err = none ∧
      (step grow g).1.buf = g.buf ++ s ∧ (step grow g).1.labels = g.labels ∧
      (step grow g).1.resols = g.resols ∧ (step grow g).1.ahead = w :: t := by
    intro g t ha
    rw [step_string grow g (ahead_cur g 39 _ ha)]
    obtain ⟨h2, hap⟩ := stepString_run grow g s w t hne hs hw ha
    exact ⟨h2, hap.err, hap.buf, hap.labels, hap.resols, hap.ahead⟩
  obtain ⟨k1, k2, k3, k4, k5, k6⟩ := key g t ha
  refine ⟨k1, k2, k3, k4, k5, k6, ?_⟩
  obtain ⟨n1, n2, n3, n4, _, n6⟩ := key (New (39 :: (s ++ [w]))) [] (New_ahead _ (by simp))
  have hend : (step grow (New (39 :: (s ++ [w])))).1.end_ = true := by
    simp [Generator.end_, (ahead_singleton _ _ n6).1]
  rw [assemble_of_step grow _ (Or.inr hend), n1]
  simp [deferred, resolve, n2, n3, n4, New_labels, New_buf, resolveLabels_nil]

/-- Witness of C11: the text `'ab'c `, whose literal holds a quote. -/
theorem string_literal_captured_witness :
    assemble goGrow (39 :: (str "ab'c" ++ [32])) = some ⟨str "ab'c", none⟩ :=
  (string_literal_captured goGrow (New (str "'ab'c ")) (str "ab'c") 32 [] (by decide)
    (by decide) (by decide) (by decide)).2.2.2.2.2.2

/-- C16: on the text `(`, then bytes `c` without a `)`, then `)`, the comment
production appends nothing, leaves both tables (and the capacity) alone,
raises no error and stops behind the `)`; the source `( c )` alone assembles
to the empty output. -/
theorem comment_emits_nothing (grow : Grow) (g : Generator) (c t : List Nat)
    (hc : ∀ x ∈ c, x ≠ 41) (ha : g.ahead = 40 :: (c ++ 41 :: t)) (he : g.err = none) :
    (step grow g).2 = false ∧ (step grow g).1.err = none ∧
    (step grow g).1.buf = g.buf ∧ (step grow g).1.labels = g.labels ∧
    (step grow g).1.resols = g.resols ∧ (t ≠ [] → (step grow g).1.ahead = t) ∧
    assemble grow (40 :: (c ++ [41])) = some ⟨[], none⟩ := by
  rw [step_comment grow g (ahead_cur g 40 _ ha)]
  obtain ⟨h1, h2, h3, _, _, h6, _⟩ := stepComment_run g c t hc ha he
  refine ⟨rfl, rfl, h1, h2, h3, h6, ?_⟩
  obtain ⟨n1, n2, _, _, _, _, n7⟩ :=
    stepComment_run (New (40 :: (c ++ [41]))) c [] hc (New_ahead _ (by simp)) rfl
  have hst := step_comment grow (New (40 :: (c ++ [41])))
    (ahead_cur _ 40 _ (New_ahead _ (by simp)))
  have hend : (step grow (New (40 :: (c ++ [41])))).1.end_ = true := by
    rw [hst]
    simp [Generator.end_, n7 rfl]
  rw [assemble_of_step grow _ (Or.inr hend), hst]
  have herr : (stepComment (New (40 :: (c ++ [41])))).1.err = none := rfl
  have hret : (stepComment (New (40 :: (c ++ [41])))).2 = false := rfl
  simp [deferred, resolve, herr, hret, n1, n2, New_labels, New_buf, resolveLabels_nil]

/-- Witness of C16: a comment holding `(`, a newline, `'`, `#`, `;` and `@`. -/
theorem comment_emits_nothing_witness :
    assemble goGrow (40 :: (str "a(b\n'#;@" ++ [41])) = some ⟨[], none⟩ :=
  (comment_emits_nothing goGrow (New (str "(a(b\n'#;@)")) (str "a(b\n'#;@") [] (by decide)
    (by decide) (by decide)).2.2.2.2.2.2

/-- C20: the empty source does not assemble to an empty image: `New` leaves the
zero byte as current character with end-of-input already seen, and the pass
fails with the unexpected-character error for byte 0 at line 1, column 1. -/
theorem empty_source_is_rejected (grow : Grow) :
    (New []).cur = 0 ∧ (New []).eof = true ∧ (New []).err = none ∧
    assemble grow [] = some ⟨[], some ⟨1, 1, .unexpectedChar 0⟩⟩ := by
  refine ⟨rfl, rfl, rfl, ?_⟩
  simp [assemble, Generate, finalState, scanEnd, scan, step, New, Generator.byte,
    Generator.setErr, isHex, isSpace, isSymbol, deferred]

/-- C12 (the code diverges): the source `ADD '` assembles to the byte of `ADD`
without error: the loop ends as soon as the quote becomes the current
character, because it is the last byte of the input.  Only a source that
consists of the quote alone gets the empty-string error. -/
theorem final_quote_not_scanned (grow : Grow) :
    assemble grow (str "ADD '") = some ⟨[21], none⟩ ∧
    assemble grow (str "'") = some ⟨[], some ⟨1, 1, .emptyString⟩⟩ := by
  constructor
  · simp [assemble, Generate, finalState, scanEnd, scan, step,
      stepMnemonic, symLoop, emitIns, takesR, afterR, atDigit, sizeMod, afterSize, getIns,
      controlByte, New, str, Generator.byte, Generator.push, isHex, isSpace, isSymbol,
      Generator.end_, Generator.setErr, resolve, resolveLabels, deferred, inAdd]
  · simp [assemble, Generate, finalState, scanEnd, scan, step, stepString, strLoop, New, str,
      Generator.byte, Generator.end_, Generator.setErr, deferred]

/-- C17 (the code diverges): the source `# ` assembles, without error, to a
lone control byte and no payload, and `# ADD ` to that byte followed by the
byte of `ADD`; in every state the `#` production appends the control byte and
at most four more bytes. -/
theorem literal_without_payload (grow : Grow) :
    assemble grow (str "# ") = some ⟨[0], none⟩ ∧
    assemble grow (str "# ADD ") = some ⟨[0, 21], none⟩ ∧
    ∀ g : Generator, g.buf.length + 1 ≤ (stepLit grow g).1.buf.length ∧
      (stepLit grow g).1.buf.length ≤ g.buf.length + 5 := by
  refine ⟨?_, ?_, stepLit_len grow⟩
  · simp [assemble, Generate, finalState, scanEnd, scan, step, stepLit, collectHex,
      collectHexLoop, hexTail, New, str, Generator.byte, Generator.push, Generator.modifyAt,
      isHex, Generator.end_, resolve, resolveLabels, deferred, inLit]
  · simp [assemble, Generate, finalState, scanEnd, scan, step, stepLit, collectHex,
      collectHexLoop, hexTail, stepMnemonic, symLoop, emitIns, takesR, afterR, atDigit,
      sizeMod, afterSize, getIns, controlByte, New, str, Generator.byte, Generator.push,
      Generator.modifyAt, isHex, isSpace, isSymbol, Generator.end_, Generator.setErr, resolve,
      resolveLabels, deferred, inLit, inAdd]

/-- C13: for every source that assembles successfully, every label defined at
offset `p` and any two sites `i`, `j` recorded for it: the four output bytes at
`i` are the encoding of the address computed from the output length and `p`
alone, the four bytes at `j` are the same, whichever of the sites lie before or
after the definition, and every other recorded site is four bytes away from
`i`, so that no patch writes over another. -/
theorem sites_of_a_label_agree (grow : Grow) (src : List Nat) (gs : Generator) (ret : Bool)
    (out : List Nat) (name : List Nat) (p : Nat) (sites : List Nat) (i j : Nat)
    (hscan : scanEnd grow (New src) = some (gs, ret))
    (hout : assemble grow src = some ⟨out, none⟩)
    (hl : mapGet gs.labels name = some p) (hs : mapGet gs.resols name = some sites)
    (hi : i ∈ sites) (hj : j ∈ sites) :
    window out i = beBytes (address out.length p) ∧ window out j = window out i ∧
    ∀ e ∈ gs.resols, ∀ k ∈ e.2, (k = i ∧ e.1 = name) ∨ k + 4 ≤ i ∨ i + 4 ≤ k := by
  have hinv := (scanEnd_inv grow src gs ret hscan).1
  obtain ⟨_, hbuf⟩ := scanEnd_of_assemble grow src gs ret out hscan hout
  have hlen : out.length = gs.buf.length := by rw [hbuf, resolveLabels_length]
  have hm := mapGet_mem _ _ _ hs
  have key : ∀ x ∈ sites, window out x = beBytes (address out.length p) := by
    intro x hx
    rw [hlen, hbuf]
    exact resolveLabels_site gs.resols name sites x p hs hx hinv.apart gs.labels gs.buf
      hinv.keys (mapGet_mem _ _ _ hl) (hinv.bound _ hm x hx)
  refine ⟨key i hi, by rw [key i hi, key j hj], ?_⟩
  intro e he k hk
  exact hinv.apart e he _ hm k hk i hi

/-- Witness of C13: the source `;a @a ;a `, whose label `a` is defined at
offset 5, referenced at site 1 before the definition and at site 6 after it. -/
theorem sites_of_a_label_agree_witness :
    window [96, 0, 122, 17, 251, 96, 0, 122, 17, 251] 6 =
      window [96, 0, 122, 17, 251, 96, 0, 122, 17, 251] 1 :=
  (sites_of_a_label_agree goGrow (str ";a @a ;a ")
    { rest := [], err := none, labels := [([97], 5)], resols := [([97], [1, 6])],
      buf := [96, 0, 0, 0, 0, 96, 0, 0, 0, 0], cap := 16, alloc := 2, ln := 1, col := 9,
      cur := 32, next := 32, eof := true }
    false [96, 0, 122, 17, 251, 96, 0, 122, 17, 251] (str "a") 5 [1, 6] 1 6 (by decide)
    (by decide) (by decide) (by decide) (by decide) (by decide)).2.1

/-- C14 (the code diverges): the source `@a ;ab` references `ab` and never
defines it, yet the four bytes of the reference hold the address of `a`: the
`;` production, which ends the input, takes only `a` as the name, because the
last byte of the input is never processed.  Likewise in `;a @ab` the
definition is taken as one of `a`, and the reference to the undefined `a` is
patched.  With one more byte behind them both sources keep the placeholder
`60 00 00 00 00`; in general, when the scan ends without error, every site
recorded under a name that has no entry in the label table is preceded by
`0x60` and holds four zero bytes in the returned buffer. -/
theorem undefined_reference_patched (grow : Grow) :
    assemble grow (str "@a ;ab") = some ⟨[0x60, 0, 122, 17, 251], none⟩ ∧
    assemble grow (str ";a @ab") = some ⟨[0x60, 0, 122, 18, 0], none⟩ ∧
    assemble grow (str "@a ;ab ") = some ⟨[0x60, 0, 0, 0, 0], none⟩ ∧
    assemble grow (str ";a @ab ") = some ⟨[0x60, 0, 0, 0, 0], none⟩ ∧
    ∀ (src : List Nat) (gs : Generator) (ret : Bool) (name sites : List Nat) (i : Nat),
      scanEnd grow (New src) = some (gs, ret) → gs.err = none →
      mapGet gs.labels name = none → mapGet gs.resols name = some sites → i ∈ sites →
      ∃ out, assemble grow src = some ⟨out, none⟩ ∧ 1 ≤ i ∧ i + 4 ≤ out.length ∧
        out[i - 1]? = some 0x60 ∧ window out i = [0, 0, 0, 0] := by
  refine ⟨?_, ?_, ?_, ?_, unlabelled_sites_stay_zero grow⟩
  · simp [assemble, Generate, finalState, scanEnd, scan, step, stepDef, stepRef, symLoop, New,
      str, Generator.byte, Generator.push, Generator.end_, Generator.setErr,
      Generator.setLabels, Generator.setResols, mapGet, mapSet, isSymbol, isSpace, isHex,
      resolve, resolveLabels, patchSites, putUint32, address, addressOffset, deferred, inLit,
      inS4]
  · simp [assemble, Generate, finalState, scanEnd, scan, step, stepDef, stepRef, symLoop, New,
      str, Generator.byte, Generator.push, Generator.end_, Generator.setErr,
      Generator.setLabels, Generator.setResols, mapGet, mapSet, isSymbol, isSpace, isHex,
      resolve, resolveLabels, patchSites, putUint32, address, addressOffset, deferred, inLit,
      inS4]
  · simp [assemble, Generate, finalState, scanEnd, scan, step, stepDef, stepRef, symLoop, New,
      str, Generator.byte, Generator.push, Generator.end_, Generator.setErr,
      Generator.setLabels, Generator.setResols, mapGet, mapSet, isSymbol, isSpace, isHex,
      resolve, resolveLabels, patchSites, putUint32, address, addressOffset, deferred, inLit,
      inS4]
  · simp [assemble, Generate, finalState, scanEnd, scan, step, stepDef, stepRef, symLoop, New,
      str, Generator.byte, Generator.push, Generator.end_, Generator.setErr,
      Generator.setLabels, Generator.setResols, mapGet, mapSet, isSymbol, isSpace, isHex,
      resolve, resolveLabels, patchSites, putUint32, address, addressOffset, deferred, inLit,
      inS4]

/-- Witness of C14: the source `;x ADD `, which references `x` and defines
nothing, assembles to the placeholder followed by the byte of `ADD`. -/
theorem undefined_reference_patched_witness :
    ∃ out, assemble goGrow (str ";x ADD ") = some ⟨out, none⟩ ∧ 1 ≤ 1 ∧ 1 + 4 ≤ out.length ∧
      out[1 - 1]? = some 0x60 ∧ window out 1 = [0, 0, 0, 0] :=
  (undefined_reference_patched goGrow).2.2.2.2 (str ";x ADD ")
    { rest := [], err := none, labels := [], resols := [([120], [1])],
      buf := [96, 0, 0, 0, 0, 21], cap := 8, alloc := 1, ln := 1, col := 7, cur := 32,
      next := 32, eof := true }
    false (str "x") [1] 1 (by decide) (by decide) (by decide) (by decide) (by decide)

/-- C18: whatever permutation of the label table the resolution loop walks,
`Generate` returns the same result; at the end of every scan the loop computes
the same buffer in that order as in insertion order, two recorded sites are
the same site of one name or four bytes apart, and every site of a defined
label holds the address computed from the buffer length and the offset of the
label alone. -/
theorem resolution_order_irrelevant (grow : Grow) (src : List Nat)
    (ord : List (List Nat × Nat) → List (List Nat × Nat)) (hord : ∀ l, (ord l).Perm l) :
    GenerateIn grow ord (New src) = assemble grow src ∧
    ∀ gs ret, scanEnd grow (New src) = some (gs, ret) →
      resolveLabels gs.resols (ord gs.labels) gs.buf =
        resolveLabels gs.resols gs.labels gs.buf ∧
      (∀ e1 ∈ gs.resols, ∀ e2 ∈ gs.resols, ∀ i ∈ e1.2, ∀ j ∈ e2.2,
        (i = j ∧ e1.1 = e2.1) ∨ i + 4 ≤ j ∨ j + 4 ≤ i) ∧
      ∀ e ∈ gs.labels, ∀ sites, mapGet gs.resols e.1 = some sites → ∀ i ∈ sites,
        window (resolveLabels gs.resols (ord gs.labels) gs.buf) i =
          beBytes (address gs.buf.length e.2) := by
  have key : ∀ gs ret, scanEnd grow (New src) = some (gs, ret) →
      resolveLabels gs.resols (ord gs.labels) gs.buf =
        resolveLabels gs.resols gs.labels gs.buf := fun gs ret h =>
    resolveLabels_perm gs (scanEnd_inv grow src gs ret h).1 _ (hord _)
  constructor
  · unfold GenerateIn assemble Generate finalState
    cases h : scanEnd grow (New src) with
    | none => rfl
    | some r =>
      obtain ⟨gs, ret⟩ := r
      simp only [Option.map_some', resolveIn, resolve, key gs ret h]
  · intro gs ret h
    have hinv := (scanEnd_inv grow src gs ret h).1
    refine ⟨key gs ret h, hinv.apart, ?_⟩
    intro e he sites hs i hi
    rw [key gs ret h]
    exact resolveLabels_site gs.resols e.1 sites i e.2 hs hi hinv.apart gs.labels gs.buf
      hinv.keys he (hinv.bound _ (mapGet_mem _ _ _ hs) i hi)

/-- Witness of C18: the source `@a ;b @b ;a ` with the label table walked in
reverse order. -/
theorem resolution_order_irrelevant_witness :
    GenerateIn goGrow List.reverse (New (str "@a ;b @b ;a ")) =
        assemble goGrow (str "@a ;b @b ;a ") ∧
      assemble goGrow (str "@a ;b @b ;a ") =
        some ⟨[96, 0, 122, 17, 251, 96, 0, 122, 17, 246], none⟩ :=
  ⟨(resolution_order_irrelevant goGrow (str "@a ;b @b ;a ") List.reverse
    (fun l => List.reverse_perm l)).1, by decide⟩

/-- C19: in every state at the head of the scan loop and in the state in which
the scan ends, every recorded site `idx` has `1 ≤ idx`, `idx + 4 ≤ len(buf)`
and the control byte `0x60` at `idx - 1`; hence, over whatever list of labels
the resolution loop runs, none of its writes leaves the buffer, the buffer
keeps its length, and every byte outside the four-byte spans of the sites it
patches is unchanged. -/
theorem reference_sites_in_bounds (grow : Grow) (src : List Nat) (g : Generator)
    (hg : Reaches grow src g ∨ ∃ ret, scanEnd grow (New src) = some (g, ret)) :
    (∀ e ∈ g.resols, ∀ idx ∈ e.2,
      1 ≤ idx ∧ idx + 4 ≤ g.buf.length ∧ g.buf[idx - 1]? = some 0x60) ∧
    ∀ ls : List (List Nat × Nat),
      resolveLabelsChecked g.resols ls g.buf = some (resolveLabels g.resols ls g.buf) ∧
      (resolveLabels g.resols ls g.buf).length = g.buf.length ∧
      ∀ k, (∀ e ∈ ls, ∀ res, mapGet g.resols e.1 = some res → ∀ j ∈ res, k < j ∨ j + 4 ≤ k) →
        (resolveLabels g.resols ls g.buf)[k]? = g.buf[k]? := by
  have h : Inv g ∧ Placeholders g := by
    rcases hg with hr | ⟨ret, hs⟩
    · exact reaches_inv grow src g hr
    · exact scanEnd_inv grow src g ret hs
  obtain ⟨hinv, hp⟩ := h
  refine ⟨fun e he idx hi => ⟨(hp.ctl e he idx hi).1, hinv.bound e he idx hi,
    (hp.ctl e he idx hi).2⟩, fun ls => ⟨?_, resolveLabels_length _ _ _, ?_⟩⟩
  · exact resolveLabelsChecked_eq g.resols ls g.buf
      (fun e _ res hres j hj => hinv.bound _ (mapGet_mem _ _ _ hres) j hj)
  · exact fun k hk => resolveLabels_outside g.resols k ls g.buf hk

/-- Witness of C19: the state in which the scan of `;a @a ;a ` ends. -/
theorem reference_sites_in_bounds_witness :
    resolveLabelsChecked [([97], [1, 6])] [([97], 5)] [96, 0, 0, 0, 0, 96, 0, 0, 0, 0] =
      some (resolveLabels [([97], [1, 6])] [([97], 5)] [96, 0, 0, 0, 0, 96, 0, 0, 0, 0]) :=
  ((reference_sites_in_bounds goGrow (str ";a @a ;a ")
    { rest := [], err := none, labels := [([97], 5)], resols := [([97], [1, 6])],
      buf := [96, 0, 0, 0, 0, 96, 0, 0, 0, 0], cap := 16, alloc := 2, ln := 1, col := 9,
      cur := 32, next := 32, eof := true }
    (Or.inr ⟨false, by decide⟩)).2 [([97], 5)]).1

/-- C15 (the code diverges): the source made of a space, a line feed, the byte
`0x01` and a space fails with the unexpected-character error at line 2,
column 2, while the byte `0x01` stands at line 2, column 1; on the first line
(a space, the byte `0x01`, a space) the error carries the position of the
byte, line 1, column 2.  In general the error carries the line of the
offending byte and its column plus one if a line feed precedes it. -/
theorem newline_shifts_column (grow : Grow) :
    assemble grow [32, 10, 1, 32] = some ⟨[], some ⟨2, 2, .unexpectedChar 1⟩⟩ ∧
    lineOf [32, 10] = 2 ∧ columnOf [32, 10] = 1 ∧
    assemble grow [32, 1, 32] = some ⟨[], some ⟨1, 2, .unexpectedChar 1⟩⟩ ∧
    lineOf [32] = 1 ∧ columnOf [32] = 2 ∧
    ∀ (src out : List Nat) (l c x : Nat),
      assemble grow src = some ⟨out, some ⟨l, c, .unexpectedChar x⟩⟩ →
      ∃ pre post, (src = pre ++ x :: post ∨ (src = [] ∧ pre = [] ∧ x = 0)) ∧
        l = lineOf pre ∧ c = columnOf pre + if 10 ∈ pre then 1 else 0 := by
  refine ⟨?_, by decide, by decide, ?_, by decide, by decide,
    unexpected_char_position grow⟩
  · simp [assemble, Generate, finalState, scanEnd, scan, step, New, Generator.byte,
      Generator.end_, Generator.setErr, isHex, isSpace, isSymbol, deferred]
  · simp [assemble, Generate, finalState, scanEnd, scan, step, New, Generator.byte,
      Generator.end_, Generator.setErr, isHex, isSpace, isSymbol, deferred]

/-- Witness of C15: the source `ADD`, a line feed, two spaces, `%` and a
space: the `%` stands at line 2, column 3, and the error says column 4. -/
theorem newline_shifts_column_witness :
    assemble goGrow (str "ADD\n  % ") = some ⟨[], some ⟨2, 4, .unexpectedChar 37⟩⟩ ∧
    ∃ pre post, (str "ADD\n  % " = pre ++ 37 :: post ∨
        (str "ADD\n  % " = [] ∧ pre = [] ∧ 37 = 0)) ∧
      2 = lineOf pre ∧ 4 = columnOf pre + if 10 ∈ pre then 1 else 0 :=
  ⟨by decide, (newline_shifts_column goGrow).2.2.2.2.2.2 (str "ADD\n  % ") [] 2 4 37
    (by decide)⟩

end Neoasm
